import Mathlib

/-!
Shallow embedding of the listing-text normalization pipeline implemented in
src/app/normalize.py (function normalize_listing and its local helpers).
Strings are modelled as lists of characters; each regular-expression
substitution or search of the source is translated into an explicit
left-to-right scanner whose single-position matcher mirrors the (deterministic)
behaviour of the corresponding Python pattern.  Scanners take a fuel argument
so that every definition is structurally recursive and computable.
-/

namespace Normalize

/-- Characters matched by the control-character class of the source
(code points 0x00 through 0x1F and 0x7F). -/
def isCtrlChar (c : Char) : Bool := c.val ≤ 0x1F || c.val == 0x7F

/-- Whitespace as recognised by Python, both by the regex whitespace class
and by str.strip with no arguments. -/
def isPySpace (c : Char) : Bool :=
  c == ' ' || c == '\t' || c == '\n' || c.val == 11 || c.val == 12 || c == '\r' ||
  c.val == 0x1C || c.val == 0x1D || c.val == 0x1E || c.val == 0x1F ||
  c.val == 0x85 || c.val == 0xA0 || c.val == 0x1680 ||
  (0x2000 ≤ c.val && c.val ≤ 0x200A) ||
  c.val == 0x2028 || c.val == 0x2029 || c.val == 0x202F || c.val == 0x205F ||
  c.val == 0x3000

/-- Characters of the class collapsed by the multi-space rule of the source:
space, tab and the no-break space. -/
def isNarrowSpace (c : Char) : Bool := c == ' ' || c == '\t' || c.val == 0xA0

/-- Separator characters of the trailing-separator rule of the source:
comma, semicolon, slash, pipe and hyphen. -/
def isSepChar (c : Char) : Bool :=
  c == ',' || c == ';' || c == '/' || c == '|' || c == '-'

/-- ASCII word characters: letters, digits and the underscore.  This is the
ASCII restriction of the Python word class; every input appearing in this
development is ASCII. -/
def isWordChar (c : Char) : Bool := c.isAlpha || c.isDigit || c == '_'

/-- Translation table of the source (the bad-token mapping): curly quotes,
unicode dashes, the multiplication sign, bullet and star glyphs, CJK brackets
and the ideographic comma are mapped to ASCII replacements. -/
def badTokSub (c : Char) : List Char :=
  if c == '“' || c == '”' || c == '„' || c == '‟' then ['\"']
  else if c == '’' || c == '‘' || c == '‚' || c == '‛' then [Char.ofNat 39]
  else if c == '×' then ['x']
  else if c == '–' || c == '—' || c == '‒' then ['-']
  else if c == '•' || c == '★' || c == '☆' || c == '【' || c == '】' then [' ']
  else if c == '、' then [',', ' ']
  else [c]

/-- Applies the bad-token translation table to every character. -/
def translateBadToks (l : List Char) : List Char := l.flatMap badTokSub

/-- Value of a hexadecimal digit, if any. -/
def hexVal (c : Char) : Option Nat :=
  if c.isDigit then some (c.toNat - 48)
  else if 'a' ≤ c && c ≤ 'f' then some (c.toNat - 87)
  else if 'A' ≤ c && c ≤ 'F' then some (c.toNat - 55)
  else none

/-- Character denoted by a numeric character reference.  Code points that are
not valid scalar values are rendered as the replacement character, as Python
does for surrogate and out-of-range references. -/
def charFromRef (n : Nat) : Char :=
  if n < 0xD800 || (0xDFFF < n && n < 0x110000) then Char.ofNat n else '�'

/-- Named entities recognised by the model of html.unescape below, longest
name first; each entry pairs the character-reference name (with or without the
closing semicolon, as in the Python html5 table) with its replacement text. -/
def namedEntities : List (List Char × List Char) :=
  [("hellip;".toList, ['…']), ("ndash;".toList, ['–']), ("mdash;".toList, ['—']),
   ("times;".toList, ['×']), ("nbsp;".toList, [' ']), ("quot;".toList, ['\"']),
   ("apos;".toList, [Char.ofNat 39]), ("bull;".toList, ['•']),
   ("amp;".toList, ['&']), ("deg;".toList, ['°']),
   ("lt;".toList, ['<']), ("gt;".toList, ['>']),
   ("quot".toList, ['\"']), ("amp".toList, ['&']),
   ("lt".toList, ['<']), ("gt".toList, ['>'])]

/-- Matches one literal list of characters at the head of the input, returning
the remainder on success. -/
def matchLit : List Char → List Char → Option (List Char)
  | [], l => some l
  | _ :: _, [] => none
  | p :: ps, c :: cs => if p == c then matchLit ps cs else none

/-- Matches one literal list of characters case-insensitively (ASCII folding)
at the head of the input, returning the remainder on success. -/
def matchLitCI : List Char → List Char → Option (List Char)
  | [], l => some l
  | _ :: _, [] => none
  | p :: ps, c :: cs => if p.toLower == c.toLower then matchLitCI ps cs else none

/-- Tries the named-entity table in order, returning the replacement and the
remainder after the first name that matches. -/
def matchNamedEntity (l : List Char) : Option (List Char × List Char) :=
  namedEntities.foldr
    (fun (e : List Char × List Char) acc =>
      match matchLit e.1 l with
      | some rest => some (e.2, rest)
      | none => acc)
    none

/-- Matches a character reference right after an ampersand: a numeric
reference (decimal or hexadecimal, semicolon optional) or a named entity from
the table above. -/
def matchCharRef (l : List Char) : Option (List Char × List Char) :=
  match l with
  | '#' :: rest =>
    match rest with
    | c :: rest2 =>
      if c == 'x' || c == 'X' then
        let ds := rest2.takeWhile (fun d => (hexVal d).isSome)
        if ds.isEmpty then none
        else
          let n := ds.foldl (fun a d => 16 * a + (hexVal d).getD 0) 0
          let r := rest2.dropWhile (fun d => (hexVal d).isSome)
          match r with
          | ';' :: r2 => some ([charFromRef n], r2)
          | _ => some ([charFromRef n], r)
      else
        let ds := rest.takeWhile Char.isDigit
        if ds.isEmpty then none
        else
          let n := ds.foldl (fun a d => 10 * a + (d.toNat - 48)) 0
          let r := rest.dropWhile Char.isDigit
          match r with
          | ';' :: r2 => some ([charFromRef n], r2)
          | _ => some ([charFromRef n], r)
    | [] => none
  | _ => matchNamedEntity l

/-- Model of Python html.unescape: replaces character references by the
characters they denote.  Named references are restricted to the table above,
a subset of the html5 table; numeric references follow the Python rules except
for the windows-1252 remapping of a few control code points.  On text without
an ampersand this function is the identity, and that is the only property of
it that the proofs below rely on. -/
def htmlUnescapeGo : Nat → List Char → List Char
  | 0, l => l
  | _ + 1, [] => []
  | fuel + 1, c :: cs =>
    if c == '&' then
      match matchCharRef cs with
      | some (repl, rest) => repl ++ htmlUnescapeGo fuel rest
      | none => c :: htmlUnescapeGo fuel cs
    else c :: htmlUnescapeGo fuel cs

/-- Entry point of the html.unescape model. -/
def htmlUnescape (l : List Char) : List Char := htmlUnescapeGo (l.length + 1) l

/-- Matcher of the trailing-separator pattern of the source at one position:
a separator, optional whitespace, then one or more further separators.  The
replacement keeps the first separator followed by one space. -/
def matchTrailSepsAt : List Char → Option (List Char × List Char)
  | [] => none
  | c :: rest =>
    if isSepChar c then
      let r1 := rest.dropWhile isPySpace
      match r1 with
      | d :: _ =>
        if isSepChar d then some ([c, ' '], r1.dropWhile isSepChar) else none
      | [] => none
    else none

/-- Scanner applying the trailing-separator substitution left to right. -/
def trailSepsGo : Nat → List Char → List Char
  | 0, l => l
  | _ + 1, [] => []
  | fuel + 1, c :: cs =>
    match matchTrailSepsAt (c :: cs) with
    | some (repl, rest) => repl ++ trailSepsGo fuel rest
    | none => c :: trailSepsGo fuel cs

/-- Substitution collapsing runs of separators, as in the source. -/
def subTrailSeps (l : List Char) : List Char := trailSepsGo (l.length + 1) l

/-- Scanner collapsing runs of two or more narrow spaces into one space. -/
def multiSpaceGo : Nat → List Char → List Char
  | 0, l => l
  | _ + 1, [] => []
  | fuel + 1, c :: cs =>
    if isNarrowSpace c then
      match cs with
      | d :: _ =>
        if isNarrowSpace d then
          ' ' :: multiSpaceGo fuel ((c :: cs).dropWhile isNarrowSpace)
        else c :: multiSpaceGo fuel cs
      | [] => c :: multiSpaceGo fuel cs
    else c :: multiSpaceGo fuel cs

/-- Substitution collapsing multiple narrow spaces, as in the source. -/
def subMultiSpace (l : List Char) : List Char := multiSpaceGo (l.length + 1) l

/-- Scanner collapsing every whitespace run into one space. -/
def wsGo : Nat → List Char → List Char
  | 0, l => l
  | _ + 1, [] => []
  | fuel + 1, c :: cs =>
    if isPySpace c then ' ' :: wsGo fuel (cs.dropWhile isPySpace)
    else c :: wsGo fuel cs

/-- Substitution collapsing whitespace runs, as in the source. -/
def subWS (l : List Char) : List Char := wsGo (l.length + 1) l

/-- Model of Python str.strip with no arguments: removes leading and trailing
whitespace. -/
def pyStrip (l : List Char) : List Char :=
  ((l.dropWhile isPySpace).reverse.dropWhile isPySpace).reverse

/-- The scrubbing helper of the source: control characters become spaces, the
bad-token table is applied, html entities are decoded, separator runs are
collapsed, multiple narrow spaces are collapsed, whitespace runs become single
spaces and the ends are trimmed. -/
def strip_controls (l : List Char) : List Char :=
  pyStrip (subWS (subMultiSpace (subTrailSeps (htmlUnescape (translateBadToks
    (l.map (fun c => if isCtrlChar c then ' ' else c)))))))

/-- Matcher of the pipe-or-slash delimiter pattern at one position: optional
whitespace, one pipe or slash, optional whitespace; replaced by a comma and a
space. -/
def matchDelimSlashAt (l : List Char) : Option (List Char) :=
  match l.dropWhile isPySpace with
  | c :: rest =>
    if c == '|' || c == '/' then some (rest.dropWhile isPySpace) else none
  | [] => none

/-- Scanner applying the pipe-or-slash substitution left to right. -/
def delimSlashGo : Nat → List Char → List Char
  | 0, l => l
  | _ + 1, [] => []
  | fuel + 1, c :: cs =>
    match matchDelimSlashAt (c :: cs) with
    | some rest => ',' :: ' ' :: delimSlashGo fuel rest
    | none => c :: delimSlashGo fuel cs

/-- Matcher of the duplicate-comma pattern at one position: optional
whitespace, a comma, optional whitespace, one or more commas, optional
whitespace; replaced by a comma and a space. -/
def matchDelimCommaAt (l : List Char) : Option (List Char) :=
  let r1 := l.dropWhile isPySpace
  match r1 with
  | ',' :: r2 =>
    let r3 := r2.dropWhile isPySpace
    match r3 with
    | ',' :: _ =>
      some ((r3.dropWhile (fun c => c == ',')).dropWhile isPySpace)
    | _ => none
  | _ => none

/-- Scanner applying the duplicate-comma substitution left to right. -/
def delimCommaGo : Nat → List Char → List Char
  | 0, l => l
  | _ + 1, [] => []
  | fuel + 1, c :: cs =>
    match matchDelimCommaAt (c :: cs) with
    | some rest => ',' :: ' ' :: delimCommaGo fuel rest
    | none => c :: delimCommaGo fuel cs

/-- The delimiter-normalization helper of the source: pipes and slashes become
comma-space, then duplicate commas are collapsed. -/
def normalize_delims (l : List Char) : List Char :=
  let s1 := delimSlashGo (l.length + 1) l
  delimCommaGo (s1.length + 1) s1

/-- Scanner replacing every case-insensitive occurrence of a literal phrase by
one space, mirroring the plain-text boilerplate patterns of the source. -/
def subLitGo (pat : List Char) : Nat → List Char → List Char
  | 0, l => l
  | _ + 1, [] => []
  | fuel + 1, c :: cs =>
    match matchLitCI pat (c :: cs) with
    | some rest => ' ' :: subLitGo pat fuel rest
    | none => c :: subLitGo pat fuel cs

/-- Matcher of the zero-risk boilerplate pattern at one position: the digit
zero, optional whitespace, then the phrase risk purchase. -/
def matchZeroRiskAt (l : List Char) : Option (List Char) :=
  match l with
  | '0' :: rest => matchLitCI "risk purchase".toList (rest.dropWhile isPySpace)
  | _ => none

/-- Scanner for the zero-risk boilerplate pattern. -/
def zeroRiskGo : Nat → List Char → List Char
  | 0, l => l
  | _ + 1, [] => []
  | fuel + 1, c :: cs =>
    match matchZeroRiskAt (c :: cs) with
    | some rest => ' ' :: zeroRiskGo fuel rest
    | none => c :: zeroRiskGo fuel cs

/-- Lazy bridge of the two bounded boilerplate patterns: after the start
phrase, consumes the shortest run of non-newline characters up to the first
occurrence of the end phrase. -/
def lazyFind (endPat : List Char) : List Char → Option (List Char)
  | [] => matchLitCI endPat []
  | c :: cs =>
    match matchLitCI endPat (c :: cs) with
    | some rest => some rest
    | none => if c == '\n' then none else lazyFind endPat cs

/-- Matcher of a start-phrase-then-anything-then-end-phrase boilerplate
pattern at one position. -/
def matchLazyAt (startPat endPat : List Char) (l : List Char) : Option (List Char) :=
  match matchLitCI startPat l with
  | some r => lazyFind endPat r
  | none => none

/-- Scanner for a start-phrase-then-anything-then-end-phrase boilerplate
pattern. -/
def lazyGo (startPat endPat : List Char) : Nat → List Char → List Char
  | 0, l => l
  | _ + 1, [] => []
  | fuel + 1, c :: cs =>
    match matchLazyAt startPat endPat (c :: cs) with
    | some rest => ' ' :: lazyGo startPat endPat fuel rest
    | none => c :: lazyGo startPat endPat fuel cs

/-- The boilerplate filter of the source: five fixed case-insensitive
patterns, each substituted by one space over the whole text in order. -/
def drop_boiler (l : List Char) : List Char :=
  let s1 := subLitGo "customer service".toList (l.length + 1) l
  let s2 := zeroRiskGo (s1.length + 1) s1
  let s3 := subLitGo "perfect shopping experience".toList (s2.length + 1) s2
  let s4 := lazyGo "contact us".toList "purchase".toList (s3.length + 1) s3
  lazyGo "we will do our best".toList "satisfied".toList (s4.length + 1) s4

/-- Matches a decimal numeral at the head of the input: one or more digits,
optionally followed by a point and one or more digits.  Returns the numeral
and the remainder. -/
def matchNumber (l : List Char) : Option (List Char × List Char) :=
  let ds := l.takeWhile Char.isDigit
  if ds.isEmpty then none
  else
    let r := l.dropWhile Char.isDigit
    match r with
    | '.' :: r2 =>
      let fs := r2.takeWhile Char.isDigit
      if fs.isEmpty then some (ds, r)
      else some (ds ++ '.' :: fs, r2.dropWhile Char.isDigit)
    | _ => some (ds, r)

/-- Drops leading whitespace. -/
def dropWS (l : List Char) : List Char := l.dropWhile isPySpace

/-- Consumes one optional straight or curly closing double quote. -/
def quoteOpt : List Char → List Char
  | c :: cs => if c == '\"' || c == '”' then cs else c :: cs
  | [] => []

/-- Consumes one optional parenthesised single-letter marker, matched
case-insensitively, as in the width and length markers of the source. -/
def parenOpt (letter : Char) : List Char → List Char
  | '(' :: c :: ')' :: cs => if c.toLower == letter then cs else '(' :: c :: ')' :: cs
  | l => l

/-- The pair separator of the dimension patterns: the letter x in either case
or the multiplication sign. -/
def isXChar (c : Char) : Bool := c == 'x' || c == 'X' || c == '×'

/-- Matcher of the inch-pair dimension pattern at one position: a numeral,
optional quote, optional width marker, the pair separator, a numeral, optional
quote, optional length marker, with optional whitespace between the parts.
Returns the two numerals and the remainder after the matched span. -/
def matchInchAt (l : List Char) : Option (String × String × List Char) :=
  match matchNumber l with
  | none => none
  | some (w, r1) =>
    match dropWS (parenOpt 'w' (dropWS (quoteOpt (dropWS r1)))) with
    | c :: r7 =>
      if isXChar c then
        match matchNumber (dropWS r7) with
        | none => none
        | some (ln, r9) =>
          some (String.mk w, String.mk ln,
            parenOpt 'l' (dropWS (quoteOpt (dropWS r9))))
      else none
    | [] => none

/-- Matcher of the centimeter-pair dimension pattern at one position: a
numeral, the unit cm, the pair separator, a numeral, the unit cm, with
optional whitespace between the parts. -/
def matchCmAt (l : List Char) : Option (String × String × List Char) :=
  match matchNumber l with
  | none => none
  | some (w, r1) =>
    match matchLitCI "cm".toList (dropWS r1) with
    | none => none
    | some r2 =>
      match dropWS r2 with
      | c :: r3 =>
        if isXChar c then
          match matchNumber (dropWS r3) with
          | none => none
          | some (ln, r4) =>
            match matchLitCI "cm".toList (dropWS r4) with
            | none => none
            | some r5 => some (String.mk w, String.mk ln, r5)
        else none
      | [] => none

/-- Unit alternatives of the thickness pattern, in the order the source tries
them: the word inch, the word in, or a straight double quote. -/
def matchThickUnit (l : List Char) : Option (List Char) :=
  match matchLitCI "inch".toList l with
  | some r => some r
  | none =>
    match matchLitCI "in".toList l with
    | some r => some r
    | none =>
      match l with
      | '\"' :: r => some r
      | _ => none

/-- Matcher of the thickness pattern at one position: an optional thickness
keyword with colons and whitespace, a numeral, optional whitespace and a unit.
When the keyword is present but no numeral follows, the position fails, since
without the keyword the position would have to start with a digit. -/
def matchThickAt (l : List Char) : Option (String × List Char) :=
  match matchLitCI "thickness".toList l with
  | some r =>
    match matchNumber (r.dropWhile (fun c => c == ':' || isPySpace c)) with
    | some (t, r2) =>
      match matchThickUnit (dropWS r2) with
      | some rest => some (String.mk t, rest)
      | none => none
    | none => none
  | none =>
    match matchNumber l with
    | some (t, r2) =>
      match matchThickUnit (dropWS r2) with
      | some rest => some (String.mk t, rest)
      | none => none
    | none => none

/-- Position scan for the inch-pair pattern: returns the text before the first
match, the two numerals and the remainder after the match. -/
def findInchGo : Nat → List Char → Option (List Char × String × String × List Char)
  | 0, _ => none
  | _ + 1, [] => none
  | fuel + 1, c :: cs =>
    match matchInchAt (c :: cs) with
    | some (w, ln, rest) => some ([], w, ln, rest)
    | none =>
      match findInchGo fuel cs with
      | some (pre, w, ln, rest) => some (c :: pre, w, ln, rest)
      | none => none

/-- Position scan for the centimeter-pair pattern. -/
def findCmGo : Nat → List Char → Option (List Char × String × String × List Char)
  | 0, _ => none
  | _ + 1, [] => none
  | fuel + 1, c :: cs =>
    match matchCmAt (c :: cs) with
    | some (w, ln, rest) => some ([], w, ln, rest)
    | none =>
      match findCmGo fuel cs with
      | some (pre, w, ln, rest) => some (c :: pre, w, ln, rest)
      | none => none

/-- Position scan for the thickness pattern. -/
def findThickGo : Nat → List Char → Option (List Char × String × List Char)
  | 0, _ => none
  | _ + 1, [] => none
  | fuel + 1, c :: cs =>
    match matchThickAt (c :: cs) with
    | some (t, rest) => some ([], t, rest)
    | none =>
      match findThickGo fuel cs with
      | some (pre, t, rest) => some (c :: pre, t, rest)
      | none => none

/-- The partial mapping of extracted dimensions, over the fixed key set of the
source; a field is none exactly when the key is absent from the mapping. -/
structure Dimensions where
  width_in : Option String := none
  length_in : Option String := none
  width_cm : Option String := none
  length_cm : Option String := none
  thickness_in : Option String := none
deriving DecidableEq, Repr

/-- The dimension extractor of the source: finds at most one inch pair, one
centimeter pair and one thickness value, in that order, records them in the
mapping and rewrites each first occurrence in the text. -/
def normalize_dimensions (l : List Char) : List Char × Dimensions :=
  let step1 :
      List Char × Dimensions :=
    match findInchGo (l.length + 1) l with
    | some (pre, w, ln, rest) =>
      (pre ++ (w.toList ++ ('\"' :: ' ' :: '×' :: ' ' :: ln.toList) ++ ['\"']) ++ rest,
       { width_in := some w, length_in := some ln })
    | none => (l, {})
  let step2 :
      List Char × Dimensions :=
    match findCmGo (step1.1.length + 1) step1.1 with
    | some (pre, w, ln, rest) =>
      (pre ++ (w.toList ++ (' ' :: '×' :: ' ' :: ln.toList) ++ ' ' :: 'c' :: 'm' :: []) ++ rest,
       { step1.2 with width_cm := some w, length_cm := some ln })
    | none => step1
  match findThickGo (step2.1.length + 1) step2.1 with
  | some (pre, t, rest) =>
    (pre ++ (t.toList ++ ('\"' :: " thickness".toList)) ++ rest,
     { step2.2 with thickness_in := some t })
  | none => step2

/-- True when the text starts at a position where a word may not continue:
the list is empty or its head is not a word character. -/
def boundaryAfter : List Char → Bool
  | [] => true
  | c :: _ => !isWordChar c

/-- Consumes one or more repetitions of whitespace followed by the given word
matched case-insensitively and ending at a word boundary, greedily; returns
the remainder after the last repetition, or none when no repetition matches. -/
def wordRepsGo (word : List Char) : Nat → List Char → Option (List Char)
  | 0, _ => none
  | fuel + 1, l =>
    if (l.takeWhile isPySpace).isEmpty then none
    else
      match matchLitCI word (l.dropWhile isPySpace) with
      | some r =>
        if boundaryAfter r then
          match wordRepsGo word fuel r with
          | some r2 => some r2
          | none => some r
        else none
      | none => none

/-- Scanner for the repeated-word pattern of the source: at a word boundary,
a word followed by one or more whitespace-separated case-insensitive copies of
itself collapses to its first occurrence.  The flag tracks whether the
previous character was a word character, which decides the boundary. -/
def wordDedupGo : Nat → Bool → List Char → List Char
  | 0, _, l => l
  | _ + 1, _, [] => []
  | fuel + 1, prevWord, c :: cs =>
    if !prevWord && isWordChar c then
      let word := (c :: cs).takeWhile isWordChar
      match wordRepsGo word (cs.length + 1) ((c :: cs).dropWhile isWordChar) with
      | some r => word ++ wordDedupGo fuel true r
      | none => c :: wordDedupGo fuel true cs
    else c :: wordDedupGo fuel (isWordChar c) cs

/-- The repeated-word substitution of the source. -/
def wordDedupSub (l : List Char) : List Char := wordDedupGo (l.length + 1) false l

/-- Star glyphs of the star-removal rule. -/
def isStarChar (c : Char) : Bool := c == '★' || c == '☆'

/-- Matcher of the star-removal pattern at one position: optional whitespace,
one or more star glyphs; replaced by one space. -/
def matchStarAt (l : List Char) : Option (List Char) :=
  let r := l.dropWhile isPySpace
  match r with
  | c :: _ => if isStarChar c then some (r.dropWhile isStarChar) else none
  | [] => none

/-- Scanner for the star-removal substitution. -/
def starGo : Nat → List Char → List Char
  | 0, l => l
  | _ + 1, [] => []
  | fuel + 1, c :: cs =>
    match matchStarAt (c :: cs) with
    | some rest => ' ' :: starGo fuel rest
    | none => c :: starGo fuel cs

/-- The star-removal substitution of the source. -/
def starSub (l : List Char) : List Char := starGo (l.length + 1) l

/-- Matcher of the comma-before-period pattern at one position: optional
whitespace, a comma, optional whitespace, a period; replaced by a period. -/
def matchCommaPeriodAt (l : List Char) : Option (List Char) :=
  match l.dropWhile isPySpace with
  | ',' :: r2 =>
    match r2.dropWhile isPySpace with
    | '.' :: r3 => some r3
    | _ => none
  | _ => none

/-- Scanner for the comma-before-period substitution. -/
def commaPeriodGo : Nat → List Char → List Char
  | 0, l => l
  | _ + 1, [] => []
  | fuel + 1, c :: cs =>
    match matchCommaPeriodAt (c :: cs) with
    | some rest => '.' :: commaPeriodGo fuel rest
    | none => c :: commaPeriodGo fuel cs

/-- The comma-before-period substitution of the source. -/
def commaPeriodSub (l : List Char) : List Char := commaPeriodGo (l.length + 1) l

/-- Matcher of the comma-comma pattern at one position: optional whitespace,
a comma, optional whitespace, a comma; replaced by a comma and a space. -/
def matchCommaCommaAt (l : List Char) : Option (List Char) :=
  match l.dropWhile isPySpace with
  | ',' :: r2 =>
    match r2.dropWhile isPySpace with
    | ',' :: r3 => some r3
    | _ => none
  | _ => none

/-- Scanner for the comma-comma substitution. -/
def commaCommaGo : Nat → List Char → List Char
  | 0, l => l
  | _ + 1, [] => []
  | fuel + 1, c :: cs =>
    match matchCommaCommaAt (c :: cs) with
    | some rest => ',' :: ' ' :: commaCommaGo fuel rest
    | none => c :: commaCommaGo fuel cs

/-- The comma-comma substitution of the source. -/
def commaCommaSub (l : List Char) : List Char := commaCommaGo (l.length + 1) l

/-- Sentence-ending characters of the sentence splitter: period, exclamation
mark, question mark, or a straight double quote. -/
def isSentEnd (c : Char) : Bool := c == '.' || c == '!' || c == '?' || c == '\"'

/-- Uppercase ASCII letters and digits, the class that may open a sentence. -/
def isCapOrDigit (c : Char) : Bool := ('A' ≤ c && c ≤ 'Z') || c.isDigit

/-- Splitter of the sentence builder: breaks at every whitespace run whose
preceding character ends a sentence and whose following character is an
uppercase letter or digit.  The current segment is accumulated in reverse. -/
def sentSplitGo : Nat → List Char → List Char → List (List Char)
  | 0, cur, l => [cur.reverse ++ l]
  | _ + 1, cur, [] => [cur.reverse]
  | fuel + 1, cur, c :: cs =>
    if isPySpace c then
      let run := (c :: cs).takeWhile isPySpace
      let rest := (c :: cs).dropWhile isPySpace
      match cur, rest with
      | p :: _, n :: _ =>
        if isSentEnd p && isCapOrDigit n then
          cur.reverse :: sentSplitGo fuel [] rest
        else sentSplitGo fuel (run.reverse ++ cur) rest
      | _, _ => sentSplitGo fuel (run.reverse ++ cur) rest
    else sentSplitGo fuel (c :: cur) cs

/-- Strips trailing commas and semicolons, as the per-segment cleanup of the
sentence builder does. -/
def rstripCommaSemi (l : List Char) : List Char :=
  (l.reverse.dropWhile (fun c => c == ',' || c == ';')).reverse

/-- Per-segment processing of the sentence builder: trim, skip empty
segments, uppercase the first character unless it is already an uppercase
letter, digit or quote, and strip trailing commas and semicolons. -/
def sentPart (p : List Char) : Option (List Char) :=
  let p := pyStrip p
  match p with
  | [] => none
  | c :: cs =>
    if isCapOrDigit c || c == '\"' then some (rstripCommaSemi (c :: cs))
    else some (rstripCommaSemi (c.toUpper :: cs))

/-- Joins segments with single spaces. -/
def joinSpace : List (List Char) → List Char
  | [] => []
  | [p] => p
  | p :: ps => p ++ ' ' :: joinSpace ps

/-- The sentence builder of the source: trim, split into sentence-like
segments, process each segment and rejoin with single spaces. -/
def sentenceize (l : List Char) : List Char :=
  let t := pyStrip l
  joinSpace ((sentSplitGo (t.length + 1) [] t).filterMap sentPart)

/-- Consumes one optional hyphen or space, as in the anti-slip patterns. -/
def dashSpaceOpt : List Char → List Char
  | c :: cs => if c == '-' || c == ' ' then cs else c :: cs
  | [] => []

/-- Matcher of the anti-slip pattern at one position.  The first alternative
requires a word boundary before the word anti; the second alternative
requires a word boundary after the word slip, exactly as the grouping of the
source pattern places them. -/
def matchAntiSlipAt (prevWord : Bool) (l : List Char) : Bool :=
  (!prevWord &&
    (match matchLitCI "anti".toList l with
     | some r =>
       (matchLitCI "slip".toList (dashSpaceOpt r)).isSome
     | none => false)) ||
  (match matchLitCI "non".toList l with
   | some r =>
     match matchLitCI "slip".toList (dashSpaceOpt r) with
     | some r2 => boundaryAfter r2
     | none => false
   | none => false)

/-- Search for the anti-slip pattern anywhere in the text. -/
def hasAntiSlipGo : Nat → Bool → List Char → Bool
  | 0, _, _ => false
  | _ + 1, _, [] => false
  | fuel + 1, prevWord, c :: cs =>
    matchAntiSlipAt prevWord (c :: cs) || hasAntiSlipGo fuel (isWordChar c) cs

/-- Search for a single word with boundaries on both sides, matched
case-insensitively. -/
def hasWordGo (word : List Char) : Nat → Bool → List Char → Bool
  | 0, _, _ => false
  | _ + 1, _, [] => false
  | fuel + 1, prevWord, c :: cs =>
    (!prevWord &&
      (match matchLitCI word (c :: cs) with
       | some r => boundaryAfter r
       | none => false)) || hasWordGo word fuel (isWordChar c) cs

/-- Search for either of two phrases with boundaries on both sides, matched
case-insensitively, first alternative tried first. -/
def hasEitherGo (w1 w2 : List Char) : Nat → Bool → List Char → Bool
  | 0, _, _ => false
  | _ + 1, _, [] => false
  | fuel + 1, prevWord, c :: cs =>
    (!prevWord &&
      ((match matchLitCI w1 (c :: cs) with
        | some r => boundaryAfter r
        | none => false) ||
       (match matchLitCI w2 (c :: cs) with
        | some r => boundaryAfter r
        | none => false))) || hasEitherGo w1 w2 fuel (isWordChar c) cs

/-- Python truthiness of an optional string: present and non-empty. -/
def pyTruthy (o : Option String) : Bool :=
  match o with
  | some s => !s.isEmpty
  | none => false

/-- Value of an optional string, used only after a truthiness test. -/
def optStr (o : Option String) : String := o.getD ""

/-- Deduplication preserving first occurrences, with an explicit seen set, as
the final loop of the feature synthesizer does. -/
def dedupFirst (seen : List String) : List String → List String
  | [] => []
  | b :: bs =>
    if seen.contains b then dedupFirst seen bs
    else b :: dedupFirst (seen ++ [b]) bs

/-- The feature synthesizer of the source: size and thickness bullets from
the dimensions mapping, then keyword bullets from the cleaned text, then
deduplication preserving first occurrences. -/
def synthesize_bullets (cleanText : List Char) (dims : Dimensions) : List String :=
  let bullets : List String :=
    (if pyTruthy dims.width_in && pyTruthy dims.length_in then
      let inch := optStr dims.width_in ++ "\" × " ++ optStr dims.length_in ++ "\""
      if pyTruthy dims.width_cm && pyTruthy dims.length_cm then
        ["Size: " ++ inch ++ " (" ++ optStr dims.width_cm ++ " × " ++
          optStr dims.length_cm ++ " cm)"]
      else ["Size: " ++ inch]
    else if pyTruthy dims.width_cm && pyTruthy dims.length_cm then
      ["Size: " ++ optStr dims.width_cm ++ " × " ++ optStr dims.length_cm ++ " cm"]
    else []) ++
    (if pyTruthy dims.thickness_in then
      ["Thickness: " ++ optStr dims.thickness_in ++ "\" (low profile)"]
    else []) ++
    (if hasAntiSlipGo (cleanText.length + 1) false cleanText then
      ["Backing: Anti-slip rubber"] else []) ++
    (if hasWordGo "polyester".toList (cleanText.length + 1) false cleanText then
      ["Surface: Non-woven polyester"] else []) ++
    (if hasEitherGo "machine washable".toList "washable".toList
        (cleanText.length + 1) false cleanText then
      ["Care: Machine washable"] else []) ++
    (if hasEitherGo "hardwood".toList "wood floor".toList
        (cleanText.length + 1) false cleanText then
      ["Floor Safety: Suitable for hardwood"] else [])
  dedupFirst [] bullets

/-- Punctuation class of the trailing-punctuation rule applied to the
creative text: a character that is neither a word character nor whitespace,
or an underscore. -/
def isPunctChar (c : Char) : Bool := (!isWordChar c && !isPySpace c) || c == '_'

/-- Matcher of the trailing-punctuation pattern at one position: optional
whitespace, two or more punctuation characters, optional whitespace, end of
text.  The whole span is removed. -/
def matchTrailPunctAt (l : List Char) : Bool :=
  let r1 := l.dropWhile isPySpace
  2 ≤ (r1.takeWhile isPunctChar).length &&
    ((r1.dropWhile isPunctChar).dropWhile isPySpace).isEmpty

/-- Scanner for the trailing-punctuation removal. -/
def trailPunctGo : Nat → List Char → List Char
  | 0, l => l
  | _ + 1, [] => []
  | fuel + 1, c :: cs =>
    if matchTrailPunctAt (c :: cs) then []
    else c :: trailPunctGo fuel cs

/-- The trailing-punctuation removal applied to the creative text. -/
def trailPunctSub (l : List Char) : List Char := trailPunctGo (l.length + 1) l

/-- The fixed fallback title of the source. -/
def fallbackTitle : String := "Doormat, Low-Profile, Anti-Slip"

/-- Body of the title cleaner applied to a present, non-empty title:
delimiter-normalize, scrub, collapse repeated words, sentence-build. -/
def titleBody (s : String) : String :=
  String.mk (sentenceize (wordDedupSub (strip_controls (normalize_delims s.toList))))

/-- The title cleaner of the source: a missing or empty title becomes the
fixed fallback; otherwise the title is delimiter-normalized, scrubbed, has
repeated words collapsed and is sentence-built. -/
def clean_title (t : Option String) : String :=
  match t with
  | none => fallbackTitle
  | some s => if s.isEmpty then fallbackTitle else titleBody s

/-- Strips every trailing period, as Python rstrip with a period argument
does. -/
def rstripDots (l : List Char) : List Char :=
  (l.reverse.dropWhile (fun c => c == '.')).reverse

/-- The output record of the pipeline. -/
structure NormalizedListing where
  title : String
  description : String
  creative : Option String
  features : List String
  dimensions : Dimensions
deriving DecidableEq, Repr

/-- Final description assembly of the source: when features exist, all
trailing periods of the cleaned description are stripped and one bullet
clause per feature is appended, space-joined after a period. -/
def descWithBullets (clean : List Char) (features : List String) : List Char :=
  if features.isEmpty then clean
  else
    rstripDots clean ++ ('.' :: ' ' ::
      joinSpace (features.map (fun b => ("• " ++ b ++ ".").toList)))

/-- The description text fed to the dimension extractor: boilerplate filter,
delimiter normalization, then scrub. -/
def descPrepared (raw_description : String) : List Char :=
  strip_controls (normalize_delims (drop_boiler raw_description.toList))

/-- The sentence-built description before bullets are appended: dimension
rewrite of the prepared text, repeated-word collapse, star removal, comma
cleanups and sentence building. -/
def listingCleanDesc (raw_description : String) : List Char :=
  sentenceize (commaCommaSub (commaPeriodSub (starSub (wordDedupSub
    (normalize_dimensions (descPrepared raw_description)).1))))

/-- The dimensions mapping extracted while cleaning the description. -/
def listingDims (raw_description : String) : Dimensions :=
  (normalize_dimensions (descPrepared raw_description)).2

/-- The features synthesized over the sentence-built description, before
bullets are appended to it. -/
def listingFeatures (raw_description : String) : List String :=
  synthesize_bullets (listingCleanDesc raw_description) (listingDims raw_description)

/-- The cleaned creative text: strip, scrub, trailing-punctuation removal and
sentence building. -/
def cleanCreative (raw_creative : Option String) : List Char :=
  sentenceize (trailPunctSub (strip_controls (pyStrip (raw_creative.getD "").toList)))

/-- The pipeline orchestrator of the source, normalize_listing: cleans the
description and extracts dimensions, synthesizes features over the cleaned
description, appends bullets when features exist, cleans the creative text
with an empty result becoming absent, and cleans the title. -/
def normalize_listing (title : Option String) (raw_description : String)
    (raw_creative : Option String) : NormalizedListing :=
  { title := clean_title title
    description := String.mk (descWithBullets (listingCleanDesc raw_description)
      (listingFeatures raw_description))
    creative :=
      if (cleanCreative raw_creative).isEmpty then none
      else some (String.mk (cleanCreative raw_creative))
    features := listingFeatures raw_description
    dimensions := listingDims raw_description }

/-- The dimension-extraction example description from the specification. -/
def dimensionExampleDesc : String := "Size 24\" x 36\" (60cm x 90cm), thickness 0.2 inch"

/-- Strips at most one trailing period, following the words of the
specification for the bullet-appending step; the source strips all of them. -/
def rstripOneDot (l : List Char) : List Char :=
  match l.reverse with
  | '.' :: r => r.reverse
  | _ => l

/-- Final description assembly as the specification words it: one trailing
period stripped, then one bullet clause per feature, space-joined after a
period.  This follows the claim text and is compared against the assembly of
the source. -/
def specDescWithBullets (clean : List Char) (features : List String) : List Char :=
  rstripOneDot clean ++ ('.' :: ' ' ::
    joinSpace (features.map (fun b => ("• " ++ b ++ ".").toList)))

/-- Characters on which every non-whitespace stage of the scrubber acts as
the identity: not a control character, not a separator, not an ampersand and
not rewritten by the bad-token table. -/
def plainChar (c : Char) : Bool :=
  !isCtrlChar c && !isSepChar c && !(c == '&') && badTokSub c == [c]

/-- Text of the size bullet as the feature synthesizer would build it from
the given dimensions. -/
def sizeBulletText (dims : Dimensions) : String :=
  if pyTruthy dims.width_in && pyTruthy dims.length_in then
    let inch := optStr dims.width_in ++ "\" × " ++ optStr dims.length_in ++ "\""
    if pyTruthy dims.width_cm && pyTruthy dims.length_cm then
      "Size: " ++ inch ++ " (" ++ optStr dims.width_cm ++ " × " ++
        optStr dims.length_cm ++ " cm)"
    else "Size: " ++ inch
  else "Size: " ++ optStr dims.width_cm ++ " × " ++ optStr dims.length_cm ++ " cm"

/-- Text of the thickness bullet for the given dimensions. -/
def thickBulletText (dims : Dimensions) : String :=
  "Thickness: " ++ optStr dims.thickness_in ++ "\" (low profile)"

/-- The candidate bullets in the fixed rule order of the feature synthesizer:
size, thickness, backing, surface, care, floor safety. -/
def ruleBullets (dims : Dimensions) : List String :=
  [sizeBulletText dims, thickBulletText dims,
   "Backing: Anti-slip rubber", "Surface: Non-woven polyester",
   "Care: Machine washable", "Floor Safety: Suitable for hardwood"]

/-- Characters the delimiter normalizer may rewrite: whitespace, comma, pipe
and slash.  Maximal runs of these are the gaps between the characters the
dimension patterns key on. -/
def chunkChar (c : Char) : Bool := isPySpace c || c == ',' || c == '|' || c == '/'

/-- Shape token of a text: an interesting character, a pure-whitespace gap,
or a gap containing a comma, pipe or slash. -/
inductive Key where
  | chr (c : Char)
  | ws
  | blocked
deriving DecidableEq, Repr

/-- Shape of a text: interesting characters are kept and each maximal run of
gap characters is abstracted to whether it is pure whitespace.  Dimension
extraction depends only on this shape, and delimiter normalization preserves
it. -/
def sig : List Char → List Key
  | [] => []
  | c :: cs =>
    if chunkChar c then
      match sig cs with
      | Key.ws :: v => (if isPySpace c then Key.ws else Key.blocked) :: v
      | Key.blocked :: v => Key.blocked :: v
      | v => (if isPySpace c then Key.ws else Key.blocked) :: v
    else Key.chr c :: sig cs

/-- The gap token of one nonempty gap run. -/
def runKey (r : List Char) : Key := if r.all isPySpace then Key.ws else Key.blocked

/-- The text is empty or starts with an interesting character. -/
def headNonChunk : List Char → Prop
  | [] => True
  | c :: _ => chunkChar c = false

/-- Two adjacent characters are not both whitespace. -/
def wsApart (a b : Char) : Prop := ¬(isPySpace a = true ∧ isPySpace b = true)

/-- Every whitespace character of the text is a plain space, and no two
adjacent characters are both whitespace. -/
def SpacedText (l : List Char) : Prop :=
  (∀ c ∈ l, isPySpace c = true → c = ' ') ∧ List.Chain' wsApart l


set_option maxRecDepth 40000

/-! Helper lemmas about deduplication. -/

theorem dedupFirst_sublist : ∀ (l seen : List String), List.Sublist (dedupFirst seen l) l := by
  intro l
  induction l with
  | nil => intro seen; simp [dedupFirst]
  | cons b bs ih =>
    intro seen
    unfold dedupFirst
    by_cases h : seen.contains b = true
    · simp only [h, if_true]
      exact (ih seen).cons b
    · simp only [h, if_false]
      exact (ih (seen ++ [b])).cons₂ b

theorem mem_dedupFirst_not_seen : ∀ (l seen : List String) (x : String),
    x ∈ dedupFirst seen l → x ∉ seen := by
  intro l
  induction l with
  | nil => intro seen x h; simp [dedupFirst] at h
  | cons b bs ih =>
    intro seen x h
    unfold dedupFirst at h
    by_cases hc : seen.contains b = true
    · rw [if_pos hc] at h
      exact ih seen x h
    · rw [if_neg hc] at h
      rcases List.mem_cons.mp h with rfl | h2
      · intro hb
        exact hc (List.elem_iff.mpr hb)
      · intro hb
        exact ih (seen ++ [b]) x h2 (List.mem_append_left _ hb)

theorem dedupFirst_nodup : ∀ (l seen : List String), (dedupFirst seen l).Nodup := by
  intro l
  induction l with
  | nil => intro seen; simp [dedupFirst]
  | cons b bs ih =>
    intro seen
    unfold dedupFirst
    by_cases hc : seen.contains b = true
    · rw [if_pos hc]; exact ih seen
    · rw [if_neg hc]
      refine List.nodup_cons.mpr ⟨?_, ih (seen ++ [b])⟩
      intro hb
      exact mem_dedupFirst_not_seen bs (seen ++ [b]) b hb
        (List.mem_append_right _ (List.mem_singleton.mpr rfl))

/-! Helper lemmas about the feature synthesizer. -/

theorem synthesize_bullets_nodup (ct : List Char) (dims : Dimensions) :
    (synthesize_bullets ct dims).Nodup := by
  unfold synthesize_bullets
  exact dedupFirst_nodup _ _

theorem synthesize_bullets_sublist_rule (ct : List Char) (dims : Dimensions) :
    List.Sublist (synthesize_bullets ct dims) (ruleBullets dims) := by
  unfold synthesize_bullets
  refine List.Sublist.trans (dedupFirst_sublist _ _) ?_
  have hr : ruleBullets dims =
      [sizeBulletText dims] ++ [thickBulletText dims] ++ ["Backing: Anti-slip rubber"] ++
      ["Surface: Non-woven polyester"] ++ ["Care: Machine washable"] ++
      ["Floor Safety: Suitable for hardwood"] := rfl
  rw [hr]
  have h1 : List.Sublist
      (if pyTruthy dims.width_in && pyTruthy dims.length_in then
        let inch := optStr dims.width_in ++ "\" × " ++ optStr dims.length_in ++ "\""
        if pyTruthy dims.width_cm && pyTruthy dims.length_cm then
          ["Size: " ++ inch ++ " (" ++ optStr dims.width_cm ++ " × " ++
            optStr dims.length_cm ++ " cm)"]
        else ["Size: " ++ inch]
      else if pyTruthy dims.width_cm && pyTruthy dims.length_cm then
        ["Size: " ++ optStr dims.width_cm ++ " × " ++ optStr dims.length_cm ++ " cm"]
      else []) [sizeBulletText dims] := by
    unfold sizeBulletText
    split_ifs <;> simp
  have h2 : List.Sublist
      (if pyTruthy dims.thickness_in then
        ["Thickness: " ++ optStr dims.thickness_in ++ "\" (low profile)"] else [])
      [thickBulletText dims] := by
    unfold thickBulletText
    split_ifs <;> simp
  have h3 : ∀ (cond : Bool) (s : String), List.Sublist (if cond then [s] else []) [s] := by
    intro cond s
    cases cond <;> simp
  exact ((((h1.append h2).append (h3 _ _)).append (h3 _ _)).append (h3 _ _)).append (h3 _ _)

/-- C9: for every input, the dimensions mapping contains width and length of
the inch pair together and width and length of the centimeter pair together:
a width is never recorded without its length, nor vice versa. -/
theorem normalize_dimensions_pairs_lifted (t : Option String) (d : String) (c : Option String) :
    (((normalize_listing t d c).dimensions.width_in).isSome ↔
      ((normalize_listing t d c).dimensions.length_in).isSome) ∧
    (((normalize_listing t d c).dimensions.width_cm).isSome ↔
      ((normalize_listing t d c).dimensions.length_cm).isSome) := by
  dsimp only [normalize_listing]
  unfold listingDims
  generalize descPrepared d = l
  unfold normalize_dimensions
  dsimp only
  split <;> split <;> split <;> simp

/-- C10: for every input, the synthesized feature list has at most six
elements: at most one size bullet, one thickness bullet and one bullet per
keyword rule. -/
theorem features_at_most_six (t : Option String) (d : String) (c : Option String) :
    (normalize_listing t d c).features.length ≤ 6 := by
  dsimp only [normalize_listing]
  unfold listingFeatures
  have h := (synthesize_bullets_sublist_rule (listingCleanDesc d) (listingDims d)).length_le
  simpa [ruleBullets] using h

/-- C6: for every input, the feature list has no duplicates and its elements
appear in the fixed rule order, size before thickness before the keyword
bullets, as witnessed by being a sublist of the rule-ordered candidates. -/
theorem features_nodup_rule_order (t : Option String) (d : String) (c : Option String) :
    (normalize_listing t d c).features.Nodup ∧
    List.Sublist (normalize_listing t d c).features
      (ruleBullets (normalize_listing t d c).dimensions) := by
  dsimp only [normalize_listing]
  unfold listingFeatures
  exact ⟨synthesize_bullets_nodup _ _, synthesize_bullets_sublist_rule _ _⟩

/-- C7: a missing or empty title yields exactly the fixed fallback title,
regardless of the description and creative inputs. -/
theorem title_fallback (t : Option String) (d : String) (c : Option String)
    (h : t = none ∨ t = some "") :
    (normalize_listing t d c).title = fallbackTitle := by
  dsimp only [normalize_listing]
  rcases h with rfl | rfl <;> decide

/-- Witness for the title fallback theorem at a concrete input. -/
theorem title_fallback_witness : (normalize_listing none "x" none).title = fallbackTitle :=
  title_fallback none "x" none (Or.inl rfl)

/-- C8: the creative field is absent when the raw creative is missing, empty
or cleans to nothing, and whenever it is present it is non-empty. -/
theorem creative_absent_or_nonempty (t : Option String) (d : String) (c : Option String) :
    ((c = none ∨ c = some "" ∨ cleanCreative c = []) →
      (normalize_listing t d c).creative = none) ∧
    (∀ x, (normalize_listing t d c).creative = some x → x ≠ "") := by
  dsimp only [normalize_listing]
  constructor
  · intro h
    rcases h with rfl | rfl | h
    · rfl
    · rfl
    · rw [h]; rfl
  · intro x hx
    revert hx
    generalize cleanCreative c = lc
    intro hx
    by_cases hb : lc.isEmpty
    · rw [if_pos hb] at hx
      exact absurd hx (by simp)
    · rw [if_neg hb] at hx
      have hx2 : String.mk lc = x := Option.some.inj hx
      intro hxe
      apply hb
      have h3 : lc = [] := congrArg String.data (hx2.trans hxe)
      simp [h3]

/-- Witness for the creative theorem: a missing creative yields an absent
creative field. -/
theorem creative_absent_witness : (normalize_listing none "x" none).creative = none :=
  (creative_absent_or_nonempty none "x" none).1 (Or.inl rfl)

/-- C2 counterexample: a whitespace-only title is neither missing nor empty,
escapes the fallback, cleans to nothing, and the output title is empty. -/
theorem whitespace_title_empty : (normalize_listing (some " ") "" none).title = "" := by
  decide

/-- C2 amended: the title is non-empty whenever the raw title is missing,
empty, or cleans to a non-empty string; a non-empty title whose cleaned form
is blank escapes the fallback and yields an empty title. -/
theorem title_nonempty_unless_blank_clean (t : Option String) (d : String) (c : Option String)
    (h : t = none ∨ t = some "" ∨ ∃ s, t = some s ∧ titleBody s ≠ "") :
    (normalize_listing t d c).title ≠ "" := by
  dsimp only [normalize_listing]
  rcases h with rfl | rfl | ⟨s, rfl, hs⟩
  · decide
  · decide
  · show (if s.isEmpty then fallbackTitle else titleBody s) ≠ ""
    by_cases he : s.isEmpty
    · rw [if_pos he]; decide
    · rw [if_neg he]; exact hs

/-- Witness for the amended title theorem at a concrete input. -/
theorem title_nonempty_witness : (normalize_listing none "" none).title ≠ "" :=
  title_nonempty_unless_blank_clean none "" none (Or.inl rfl)

/-- C1 counterexample: on the specification example description, the
thickness regex first matches the quoted width, so the extracted thickness is
24 rather than 0.2, refuting the claimed mapping and thickness bullet. -/
theorem dimension_example_refuted :
    ¬((normalize_listing none dimensionExampleDesc none).dimensions =
        { width_in := some "24", length_in := some "36", width_cm := some "60",
          length_cm := some "90", thickness_in := some "0.2" } ∧
      "Size: 24\" × 36\" (60 × 90 cm)" ∈
        (normalize_listing none dimensionExampleDesc none).features ∧
      "Thickness: 0.2\" (low profile)" ∈
        (normalize_listing none dimensionExampleDesc none).features) := by
  decide

/-- C1 amended: on the specification example description the extracted
dimensions are width 24, length 36, width 60 cm, length 90 cm and thickness
24, and the features contain the size bullet and the thickness bullet for
24, for any title and creative inputs. -/
theorem dimension_example_amended (t : Option String) (c : Option String) :
    (normalize_listing t dimensionExampleDesc c).dimensions =
      { width_in := some "24", length_in := some "36", width_cm := some "60",
        length_cm := some "90", thickness_in := some "24" } ∧
    "Size: 24\" × 36\" (60 × 90 cm)" ∈ (normalize_listing t dimensionExampleDesc c).features ∧
    "Thickness: 24\" (low profile)" ∈ (normalize_listing t dimensionExampleDesc c).features := by
  refine ⟨?_, ?_, ?_⟩
  · show listingDims dimensionExampleDesc = _
    decide
  · show _ ∈ listingFeatures dimensionExampleDesc
    decide
  · show _ ∈ listingFeatures dimensionExampleDesc
    decide

/-- C4 counterexample: a description whose cleaned form ends in two periods
and synthesizes a feature; the source strips both periods, while the claimed
assembly keeps one, so the description differs from the claimed one. -/
theorem one_period_strip_refuted :
    (normalize_listing none "washable.." none).features ≠ [] ∧
    (normalize_listing none "washable.." none).description ≠
      String.mk (specDescWithBullets (listingCleanDesc "washable..")
        (normalize_listing none "washable.." none).features) := by
  decide

/-- C4 amended: whenever features are non-empty, the final description is the
sentence-built description with all trailing periods stripped, followed by a
period, a space, and the space-joined bullet clauses. -/
theorem all_trailing_periods_stripped (t : Option String) (d : String) (c : Option String)
    (h : (normalize_listing t d c).features ≠ []) :
    (normalize_listing t d c).description =
      String.mk (rstripDots (listingCleanDesc d) ++ ('.' :: ' ' ::
        joinSpace ((normalize_listing t d c).features.map
          (fun b => ("• " ++ b ++ ".").toList)))) := by
  dsimp only [normalize_listing] at h ⊢
  unfold descWithBullets
  rw [if_neg (by simpa using h)]

/-- Witness for the amended bullet-assembly theorem at a concrete input. -/
theorem all_trailing_periods_stripped_witness :
    (normalize_listing none "washable mat" none).description =
      String.mk (rstripDots (listingCleanDesc "washable mat") ++ ('.' :: ' ' ::
        joinSpace ((normalize_listing none "washable mat" none).features.map
          (fun b => ("• " ++ b ++ ".").toList)))) :=
  all_trailing_periods_stripped none "washable mat" none (by decide)

/-- C3 counterexample: scrubbing is not idempotent; on this input the first
pass leaves a separator pair that only the second pass collapses. -/
theorem scrub_not_idempotent :
    strip_controls (strip_controls ",, ,".toList) ≠ strip_controls ",, ,".toList := by
  decide


/-! Lemmas supporting the restricted idempotence of the scrubber. -/

theorem dropWhile_head_false (q : Char → Bool) :
    ∀ (l : List Char) (d : Char) (ds : List Char), l.dropWhile q = d :: ds → q d = false := by
  intro l
  induction l with
  | nil => intro d ds h; simp [List.dropWhile] at h
  | cons c cs ih =>
    intro d ds h
    by_cases hq : q c = true
    · rw [List.dropWhile_cons_of_pos hq] at h
      exact ih d ds h
    · rw [List.dropWhile_cons_of_neg hq] at h
      injection h with h1 _
      subst h1
      cases hqb : q c with
      | false => rfl
      | true => exact absurd hqb hq

theorem dropWhile_dropWhile (q : Char → Bool) (l : List Char) :
    (l.dropWhile q).dropWhile q = l.dropWhile q := by
  induction l with
  | nil => simp
  | cons c cs ih =>
    by_cases hq : q c = true
    · rw [List.dropWhile_cons_of_pos hq]; exact ih
    · rw [List.dropWhile_cons_of_neg hq, List.dropWhile_cons_of_neg hq]

theorem dropWhile_eq_self_of_head (q : Char → Bool) (l : List Char)
    (h : ∀ d ds, l = d :: ds → q d = false) : l.dropWhile q = l := by
  cases l with
  | nil => simp
  | cons c cs => rw [List.dropWhile_cons_of_neg (by simp [h c cs rfl])]

theorem pyStrip_prefix_drop (l : List Char) :
    ∃ t, pyStrip l ++ t = l.dropWhile isPySpace := by
  have ht : List.IsSuffix ((l.dropWhile isPySpace).reverse.dropWhile isPySpace)
      ((l.dropWhile isPySpace).reverse) := List.dropWhile_suffix isPySpace
  obtain ⟨t, ht⟩ := ht
  refine ⟨t.reverse, ?_⟩
  have h2 := congrArg List.reverse ht
  simpa [pyStrip] using h2

theorem pyStrip_middle (l : List Char) : pyStrip l <:+: l := by
  obtain ⟨t, ht⟩ := pyStrip_prefix_drop l
  have hu : List.IsSuffix (l.dropWhile isPySpace) l := List.dropWhile_suffix isPySpace
  obtain ⟨u, hu⟩ := hu
  refine ⟨u, t, ?_⟩
  rw [List.append_assoc, ht, hu]

theorem pyStrip_head_false (l : List Char) (d : Char) (ds : List Char)
    (h : pyStrip l = d :: ds) : isPySpace d = false := by
  obtain ⟨t, ht⟩ := pyStrip_prefix_drop l
  rw [h] at ht
  exact dropWhile_head_false isPySpace l d (ds ++ t) (by rw [← ht]; simp)

theorem pyStrip_idem (l : List Char) : pyStrip (pyStrip l) = pyStrip l := by
  have h1 : (pyStrip l).dropWhile isPySpace = pyStrip l :=
    dropWhile_eq_self_of_head _ _ (fun d ds h => pyStrip_head_false l d ds h)
  show (((pyStrip l).dropWhile isPySpace).reverse.dropWhile isPySpace).reverse = pyStrip l
  rw [h1]
  conv_lhs => rw [show pyStrip l =
    ((l.dropWhile isPySpace).reverse.dropWhile isPySpace).reverse from rfl]
  rw [List.reverse_reverse, dropWhile_dropWhile]
  rfl

theorem ctrlMap_id (l : List Char) (h : ∀ c ∈ l, isCtrlChar c = false) :
    l.map (fun c => if isCtrlChar c then ' ' else c) = l := by
  induction l with
  | nil => simp
  | cons c cs ih =>
    simp only [List.map_cons]
    rw [if_neg (by simp [h c (by simp)]), ih (fun d hd => h d (by simp [hd]))]

theorem translate_id (l : List Char) (h : ∀ c ∈ l, badTokSub c = [c]) :
    translateBadToks l = l := by
  induction l with
  | nil => simp [translateBadToks]
  | cons c cs ih =>
    unfold translateBadToks at ih ⊢
    simp only [List.flatMap_cons]
    rw [h c (by simp), ih (fun d hd => h d (by simp [hd]))]
    simp

theorem unescape_id (fuel : Nat) : ∀ (l : List Char), (∀ c ∈ l, c ≠ '&') →
    htmlUnescapeGo fuel l = l := by
  induction fuel with
  | zero => intro l _; rfl
  | succ f ih =>
    intro l h
    cases l with
    | nil => rfl
    | cons c cs =>
      have hc : (c == '&') = false := by
        have := h c (by simp)
        simpa using this
      simp only [htmlUnescapeGo, hc, Bool.false_eq_true, if_false]
      rw [ih cs (fun d hd => h d (by simp [hd]))]

theorem trailSeps_id (fuel : Nat) : ∀ (l : List Char), (∀ c ∈ l, isSepChar c = false) →
    trailSepsGo fuel l = l := by
  induction fuel with
  | zero => intro l _; rfl
  | succ f ih =>
    intro l h
    cases l with
    | nil => rfl
    | cons c cs =>
      have hm : matchTrailSepsAt (c :: cs) = none := by
        simp [matchTrailSepsAt, h c (by simp)]
      simp only [trailSepsGo, hm]
      rw [ih cs (fun d hd => h d (by simp [hd]))]

theorem narrow_isPySpace (c : Char) (h : isNarrowSpace c = true) : isPySpace c = true := by
  unfold isNarrowSpace at h
  rcases Bool.or_eq_true_iff.mp h with h' | h'
  · rcases Bool.or_eq_true_iff.mp h' with h2 | h2
    · unfold isPySpace; simp [h2]
    · unfold isPySpace; simp [h2]
  · unfold isPySpace; simp [h']

theorem multiSpace_id_of_apart (fuel : Nat) : ∀ (l : List Char), List.Chain' wsApart l →
    multiSpaceGo fuel l = l := by
  induction fuel with
  | zero => intro l _; rfl
  | succ f ih =>
    intro l h
    cases l with
    | nil => rfl
    | cons c cs =>
      by_cases hc : isNarrowSpace c = true
      · cases cs with
        | nil =>
          simp only [multiSpaceGo, hc, if_true]
          rw [ih [] (by simp)]
        | cons d ds =>
          have hrel : wsApart c d := (List.chain'_cons.mp h).1
          have hd : isNarrowSpace d = false := by
            cases hdb : isNarrowSpace d with
            | false => rfl
            | true =>
              exact absurd ⟨narrow_isPySpace c hc, narrow_isPySpace d hdb⟩ hrel
          simp only [multiSpaceGo, hc, if_true, hd, Bool.false_eq_true, if_false]
          rw [ih (d :: ds) h.tail]
      · simp only [multiSpaceGo, hc, Bool.false_eq_true, if_false]
        rw [ih cs h.tail]

theorem ws_id_of_spaced (fuel : Nat) : ∀ (l : List Char), SpacedText l →
    wsGo fuel l = l := by
  induction fuel with
  | zero => intro l _; rfl
  | succ f ih =>
    intro l h
    obtain ⟨hsp, hch⟩ := h
    cases l with
    | nil => rfl
    | cons c cs =>
      by_cases hc : isPySpace c = true
      · have hcs : cs.dropWhile isPySpace = cs := by
          apply dropWhile_eq_self_of_head
          intro d ds hdd
          subst hdd
          have hrel : wsApart c d := (List.chain'_cons.mp hch).1
          cases hdb : isPySpace d with
          | false => rfl
          | true => exact absurd ⟨hc, hdb⟩ hrel
        simp only [wsGo, hc, if_true, hcs]
        rw [ih cs ⟨fun d hd hds => hsp d (by simp [hd]) hds, hch.tail⟩]
        rw [hsp c (by simp) hc]
      · simp only [wsGo, hc, Bool.false_eq_true, if_false]
        rw [ih cs ⟨fun d hd hds => hsp d (by simp [hd]) hds, hch.tail⟩]

theorem wsGo_head (fuel : Nat) (l : List Char) (h : 0 < fuel) :
    (wsGo fuel l).head? = l.head?.map (fun c => if isPySpace c then ' ' else c) := by
  cases fuel with
  | zero => omega
  | succ f =>
    cases l with
    | nil => rfl
    | cons c cs =>
      by_cases hc : isPySpace c = true
      · simp [wsGo, hc]
      · simp [wsGo, hc]

theorem wsGo_spaced (fuel : Nat) : ∀ (l : List Char), l.length < fuel →
    SpacedText (wsGo fuel l) := by
  induction fuel with
  | zero => intro l hl; omega
  | succ f ih =>
    intro l hl
    cases l with
    | nil => exact ⟨by simp [wsGo], by simp [wsGo]⟩
    | cons c cs =>
      by_cases hc : isPySpace c = true
      · have hgoal : wsGo (f + 1) (c :: cs) = ' ' :: wsGo f (cs.dropWhile isPySpace) := by
          simp [wsGo, hc]
        rw [hgoal]
        have hlen : (cs.dropWhile isPySpace).length < f := by
          have h1 : (cs.dropWhile isPySpace).length ≤ cs.length :=
            (List.dropWhile_sublist _).length_le
          simp only [List.length_cons] at hl
          omega
        obtain ⟨ih1, ih2⟩ := ih (cs.dropWhile isPySpace) hlen
        refine ⟨?_, ?_⟩
        · intro d hd hds
          rcases List.mem_cons.mp hd with rfl | hd2
          · rfl
          · exact ih1 d hd2 hds
        · refine List.chain'_cons'.mpr ⟨?_, ih2⟩
          intro b hb
          cases hcs : cs.dropWhile isPySpace with
          | nil =>
            rw [hcs] at hb
            have hnil : wsGo f ([] : List Char) = [] := by cases f <;> rfl
            rw [hnil] at hb
            simp at hb
          | cons e es =>
            have he : isPySpace e = false := dropWhile_head_false isPySpace cs e es hcs
            rw [hcs] at hb
            have hfpos : 0 < f := by
              rw [hcs] at hlen
              simp only [List.length_cons] at hlen
              omega
            rw [wsGo_head f (e :: es) hfpos] at hb
            simp [he] at hb
            subst hb
            intro hcon
            exact absurd hcon.2 (by simp [he])
      · have hgoal : wsGo (f + 1) (c :: cs) = c :: wsGo f cs := by
          simp [wsGo, hc]
        rw [hgoal]
        have hlen : cs.length < f := by
          simp only [List.length_cons] at hl
          omega
        obtain ⟨ih1, ih2⟩ := ih cs hlen
        refine ⟨?_, ?_⟩
        · intro d hd hds
          rcases List.mem_cons.mp hd with rfl | hd2
          · exact absurd hds (by simp [hc])
          · exact ih1 d hd2 hds
        · refine List.chain'_cons'.mpr ⟨?_, ih2⟩
          intro b _
          intro hcon
          exact absurd hcon.1 (by simp [hc])

theorem spaced_of_infix (l m : List Char) (h : SpacedText l) (hm : m <:+: l) :
    SpacedText m :=
  ⟨fun c hc => h.1 c (hm.sublist.subset hc), List.Chain'.infix h.2 hm⟩

theorem mem_multiSpaceGo (fuel : Nat) : ∀ (l : List Char) (c : Char),
    c ∈ multiSpaceGo fuel l → c ∈ l ∨ c = ' ' := by
  induction fuel with
  | zero => intro l c hc; exact Or.inl hc
  | succ f ih =>
    intro l c hc
    cases l with
    | nil => simp [multiSpaceGo] at hc
    | cons a cs =>
      by_cases ha : isNarrowSpace a = true
      · cases cs with
        | nil =>
          simp only [multiSpaceGo, ha, if_true] at hc
          rcases List.mem_cons.mp hc with rfl | h2
          · exact Or.inl (by simp)
          · rcases ih [] c h2 with h3 | h3
            · simp at h3
            · exact Or.inr h3
        | cons d ds =>
          by_cases hd : isNarrowSpace d = true
          · simp only [multiSpaceGo, ha, if_true, hd] at hc
            rcases List.mem_cons.mp hc with rfl | h2
            · exact Or.inr rfl
            · rcases ih _ c h2 with h3 | h3
              · exact Or.inl ((List.dropWhile_sublist _).subset h3)
              · exact Or.inr h3
          · simp only [multiSpaceGo, ha, if_true, hd, Bool.false_eq_true, if_false] at hc
            rcases List.mem_cons.mp hc with rfl | h2
            · exact Or.inl (by simp)
            · rcases ih _ c h2 with h3 | h3
              · exact Or.inl (by simp [h3])
              · exact Or.inr h3
      · simp only [multiSpaceGo, ha, Bool.false_eq_true, if_false] at hc
        rcases List.mem_cons.mp hc with rfl | h2
        · exact Or.inl (by simp)
        · rcases ih _ c h2 with h3 | h3
          · exact Or.inl (by simp [h3])
          · exact Or.inr h3

theorem mem_wsGo (fuel : Nat) : ∀ (l : List Char) (c : Char),
    c ∈ wsGo fuel l → c ∈ l ∨ c = ' ' := by
  induction fuel with
  | zero => intro l c hc; exact Or.inl hc
  | succ f ih =>
    intro l c hc
    cases l with
    | nil => simp [wsGo] at hc
    | cons a cs =>
      by_cases ha : isPySpace a = true
      · simp only [wsGo, ha, if_true] at hc
        rcases List.mem_cons.mp hc with rfl | h2
        · exact Or.inr rfl
        · rcases ih _ c h2 with h3 | h3
          · exact Or.inl (by simp [(List.dropWhile_sublist _).subset h3])
          · exact Or.inr h3
      · simp only [wsGo, ha, Bool.false_eq_true, if_false] at hc
        rcases List.mem_cons.mp hc with rfl | h2
        · exact Or.inl (by simp)
        · rcases ih _ c h2 with h3 | h3
          · exact Or.inl (by simp [h3])
          · exact Or.inr h3

theorem plainChar_space : plainChar ' ' = true := by decide

theorem plainChar_split (c : Char) (h : plainChar c = true) :
    isCtrlChar c = false ∧ isSepChar c = false ∧ c ≠ '&' ∧ badTokSub c = [c] := by
  unfold plainChar at h
  rw [Bool.and_eq_true, Bool.and_eq_true, Bool.and_eq_true] at h
  obtain ⟨⟨⟨h1, h2⟩, h3⟩, h4⟩ := h
  refine ⟨by simpa using h1, by simpa using h2, ?_, by simpa using h4⟩
  intro hc
  subst hc
  simp at h3

theorem strip_controls_plain (l : List Char) (h : ∀ c ∈ l, plainChar c = true) :
    strip_controls l = pyStrip (subWS (subMultiSpace l)) := by
  unfold strip_controls htmlUnescape subTrailSeps
  rw [ctrlMap_id l (fun c hc => (plainChar_split c (h c hc)).1)]
  rw [translate_id l (fun c hc => (plainChar_split c (h c hc)).2.2.2)]
  rw [unescape_id _ l (fun c hc => (plainChar_split c (h c hc)).2.2.1)]
  rw [trailSeps_id _ l (fun c hc => (plainChar_split c (h c hc)).2.1)]

/-- C3 amended: the scrub transform is idempotent on text whose characters
are all plain: no control characters, no separators, no ampersand and nothing
rewritten by the canonicalization table. -/
theorem scrub_idempotent_on_plain (l : List Char) (h : ∀ c ∈ l, plainChar c = true) :
    strip_controls (strip_controls l) = strip_controls l := by
  have hmem : ∀ c ∈ strip_controls l, plainChar c = true := by
    intro c hc
    rw [strip_controls_plain l h] at hc
    have h1 := (pyStrip_middle _).sublist.subset hc
    rcases mem_wsGo _ _ c h1 with h2 | h2
    · rcases mem_multiSpaceGo _ _ c h2 with h3 | h3
      · exact h c h3
      · rw [h3]; exact plainChar_space
    · rw [h2]; exact plainChar_space
  have hspaced : SpacedText (strip_controls l) := by
    rw [strip_controls_plain l h]
    exact spaced_of_infix _ _ (wsGo_spaced _ _ (by omega)) (pyStrip_middle _)
  rw [strip_controls_plain (strip_controls l) hmem]
  unfold subMultiSpace subWS
  rw [multiSpace_id_of_apart _ _ hspaced.2]
  rw [ws_id_of_spaced _ _ hspaced]
  rw [strip_controls_plain l h]
  exact pyStrip_idem _

/-- Witness for the restricted idempotence theorem on a concrete plain
string. -/
theorem scrub_idempotent_witness :
    strip_controls (strip_controls "hello  world".toList) =
      strip_controls "hello  world".toList :=
  scrub_idempotent_on_plain "hello  world".toList (by decide)


/-! Structure lemmas for the text shape used by the delimiter-commutation
proof. -/

theorem sig_cons_nonchunk (c : Char) (s : List Char) (hc : chunkChar c = false) :
    sig (c :: s) = Key.chr c :: sig s := by
  simp only [sig, hc, Bool.false_eq_true, if_false]

theorem sig_cons_chunk_nil (c : Char) (s : List Char) (hc : chunkChar c = true)
    (h : sig s = []) : sig (c :: s) = [if isPySpace c = true then Key.ws else Key.blocked] := by
  simp only [sig, hc, if_true, h]

theorem sig_cons_chunk_ws (c : Char) (s : List Char) (v : List Key) (hc : chunkChar c = true)
    (h : sig s = Key.ws :: v) :
    sig (c :: s) = (if isPySpace c = true then Key.ws else Key.blocked) :: v := by
  simp only [sig, hc, if_true, h]

theorem sig_cons_chunk_blocked (c : Char) (s : List Char) (v : List Key) (hc : chunkChar c = true)
    (h : sig s = Key.blocked :: v) :
    sig (c :: s) = Key.blocked :: v := by
  simp only [sig, hc, if_true, h]

theorem sig_cons_chunk_chr (c d : Char) (s : List Char) (v : List Key) (hc : chunkChar c = true)
    (h : sig s = Key.chr d :: v) :
    sig (c :: s) = (if isPySpace c = true then Key.ws else Key.blocked) :: Key.chr d :: v := by
  simp only [sig, hc, if_true, h]

theorem sig_eq_nil : ∀ (s : List Char), sig s = [] → s = [] := by
  intro s h
  cases s with
  | nil => rfl
  | cons c cs =>
    exfalso
    by_cases hc : chunkChar c = true
    · cases hv : sig cs with
      | nil => rw [sig_cons_chunk_nil c cs hc hv] at h; simp at h
      | cons k v =>
        cases k with
        | chr d => rw [sig_cons_chunk_chr c d cs v hc hv] at h; simp at h
        | ws => rw [sig_cons_chunk_ws c cs v hc hv] at h; simp at h
        | blocked => rw [sig_cons_chunk_blocked c cs v hc hv] at h; simp at h
    · rw [sig_cons_nonchunk c cs (by simpa using hc)] at h; simp at h

theorem sig_chr_inv (s : List Char) (c : Char) (v : List Key)
    (h : sig s = Key.chr c :: v) :
    ∃ s', s = c :: s' ∧ chunkChar c = false ∧ sig s' = v := by
  cases s with
  | nil => simp [sig] at h
  | cons d ds =>
    by_cases hd : chunkChar d = true
    · exfalso
      cases hv : sig ds with
      | nil =>
        rw [sig_cons_chunk_nil d ds hd hv] at h
        injection h with h1 _
        split at h1 <;> exact Key.noConfusion h1
      | cons k v' =>
        cases k with
        | chr e =>
          rw [sig_cons_chunk_chr d e ds v' hd hv] at h
          injection h with h1 _
          split at h1 <;> exact Key.noConfusion h1
        | ws =>
          rw [sig_cons_chunk_ws d ds v' hd hv] at h
          injection h with h1 _
          split at h1 <;> exact Key.noConfusion h1
        | blocked =>
          rw [sig_cons_chunk_blocked d ds v' hd hv] at h
          injection h with h1 _
          exact Key.noConfusion h1
    · rw [sig_cons_nonchunk d ds (by simpa using hd)] at h
      injection h with h1 h2
      injection h1 with h1
      subst h1
      exact ⟨ds, rfl, by simpa using hd, h2⟩

theorem headNonChunk_of_sig_top (s : List Char)
    (h : sig s = [] ∨ ∃ c v, sig s = Key.chr c :: v) : headNonChunk s := by
  rcases h with h | ⟨c, v, h⟩
  · rw [sig_eq_nil s h]; trivial
  · obtain ⟨s', rfl, hc, _⟩ := sig_chr_inv s c v h
    exact hc

theorem sig_run_append : ∀ (r : List Char) (s : List Char), r ≠ [] →
    (∀ c ∈ r, chunkChar c = true) → headNonChunk s →
    sig (r ++ s) = runKey r :: sig s := by
  intro r
  induction r with
  | nil => intro s h; exact absurd rfl h
  | cons c r' ih =>
    intro s _ hall hs
    have hc : chunkChar c = true := hall c (by simp)
    cases r' with
    | nil =>
      have hsig : sig s = [] ∨ ∃ d v, sig s = Key.chr d :: v := by
        cases s with
        | nil => exact Or.inl rfl
        | cons d ds =>
          have hd : chunkChar d = false := hs
          exact Or.inr ⟨d, sig ds, sig_cons_nonchunk d ds hd⟩
      have hrk : runKey [c] = if isPySpace c = true then Key.ws else Key.blocked := by
        simp [runKey]
      rcases hsig with h | ⟨d, v, h⟩
      · rw [List.singleton_append, sig_cons_chunk_nil c s hc h, hrk, h]
      · rw [List.singleton_append, sig_cons_chunk_chr c d s v hc h, hrk, h]
    | cons c2 r2 =>
      have hih := ih s (by simp) (fun d hd => hall d (by simp [hd])) hs
      rw [List.cons_append]
      by_cases hall2 : (c2 :: r2).all isPySpace = true
      · have h2 : sig ((c2 :: r2) ++ s) = Key.ws :: sig s := by
          rw [hih]; simp [runKey, hall2]
        rw [sig_cons_chunk_ws c _ _ hc h2]
        congr 1
        by_cases hcw : isPySpace c = true
        · simp [runKey, List.all_cons, hcw, hall2]
        · simp [runKey, List.all_cons, hcw]
      · have hbf : (c2 :: r2).all isPySpace = false := by simpa using hall2
        have h2 : sig ((c2 :: r2) ++ s) = Key.blocked :: sig s := by
          rw [hih]; simp [runKey, hbf]
        rw [sig_cons_chunk_blocked c _ _ hc h2]
        congr 1
        simp [runKey, List.all_cons, hbf]

theorem sig_gap_inv : ∀ (s : List Char) (k : Key) (v : List Key),
    (k = Key.ws ∨ k = Key.blocked) → sig s = k :: v →
    ∃ r s', s = r ++ s' ∧ r ≠ [] ∧ (∀ c ∈ r, chunkChar c = true) ∧
      runKey r = k ∧ headNonChunk s' ∧ sig s' = v := by
  intro s
  induction s with
  | nil => intro k v _ h; simp [sig] at h
  | cons c cs ih =>
    intro k v hk h
    by_cases hc : chunkChar c = true
    · cases hv : sig cs with
      | nil =>
        rw [sig_cons_chunk_nil c cs hc hv] at h
        injection h with h1 h2
        have hcs : cs = [] := sig_eq_nil cs hv
        subst hcs
        refine ⟨[c], [], by simp, by simp, by simp [hc], ?_, trivial, ?_⟩
        · rw [← h1]; simp [runKey]
        · rw [← h2]; rfl
      | cons k' v' =>
        cases k' with
        | chr d =>
          rw [sig_cons_chunk_chr c d cs v' hc hv] at h
          injection h with h1 h2
          obtain ⟨cs', hcs, hd, _⟩ := sig_chr_inv cs d v' hv
          refine ⟨[c], cs, by simp, by simp, by simp [hc], ?_, ?_, ?_⟩
          · rw [← h1]; simp [runKey]
          · rw [hcs]; exact hd
          · rw [← h2]; exact hv
        | ws =>
          rw [sig_cons_chunk_ws c cs v' hc hv] at h
          injection h with h1 h2
          obtain ⟨r', s', rfl, hr'ne, hr'all, hr'key, hhead, hsig'⟩ :=
            ih Key.ws v' (Or.inl rfl) hv
          have hr'ws : r'.all isPySpace = true := by
            by_contra hcon
            have hbf : r'.all isPySpace = false := by simpa using hcon
            simp [runKey, hbf] at hr'key
          refine ⟨c :: r', s', by simp, by simp, ?_, ?_, hhead, ?_⟩
          · intro d hd
            rcases List.mem_cons.mp hd with rfl | hd2
            · exact hc
            · exact hr'all d hd2
          · rw [← h1]
            by_cases hcw : isPySpace c = true
            · simp [runKey, List.all_cons, hcw, hr'ws]
            · simp [runKey, List.all_cons, hcw]
          · rw [← h2]; exact hsig'
        | blocked =>
          rw [sig_cons_chunk_blocked c cs v' hc hv] at h
          injection h with h1 h2
          obtain ⟨r', s', rfl, hr'ne, hr'all, hr'key, hhead, hsig'⟩ :=
            ih Key.blocked v' (Or.inr rfl) hv
          have hr'bl : r'.all isPySpace = false := by
            by_contra hcon
            have hws : r'.all isPySpace = true := by simpa using hcon
            simp [runKey, hws] at hr'key
          refine ⟨c :: r', s', by simp, by simp, ?_, ?_, hhead, ?_⟩
          · intro d hd
            rcases List.mem_cons.mp hd with rfl | hd2
            · exact hc
            · exact hr'all d hd2
          · rw [← h1]
            simp [runKey, List.all_cons, hr'bl]
          · rw [← h2]; exact hsig'
    · rw [sig_cons_nonchunk c cs (by simpa using hc)] at h
      injection h with h1 _
      rcases hk with rfl | rfl <;> exact Key.noConfusion h1

theorem sig_congr_append : ∀ (a s t : List Char), sig s = sig t →
    sig (a ++ s) = sig (a ++ t) := by
  intro a
  induction a with
  | nil => intro s t h; simpa using h
  | cons x a' ih =>
    intro s t h
    have hih := ih s t h
    rw [List.cons_append, List.cons_append]
    by_cases hx : chunkChar x = true
    · cases hv : sig (a' ++ s) with
      | nil =>
        rw [sig_cons_chunk_nil x _ hx hv, sig_cons_chunk_nil x _ hx (by rw [← hih, hv])]
      | cons k v =>
        cases k with
        | chr d =>
          rw [sig_cons_chunk_chr x d _ v hx hv,
            sig_cons_chunk_chr x d _ v hx (by rw [← hih, hv])]
        | ws =>
          rw [sig_cons_chunk_ws x _ v hx hv, sig_cons_chunk_ws x _ v hx (by rw [← hih, hv])]
        | blocked =>
          rw [sig_cons_chunk_blocked x _ v hx hv,
            sig_cons_chunk_blocked x _ v hx (by rw [← hih, hv])]
    · rw [sig_cons_nonchunk x _ (by simpa using hx), sig_cons_nonchunk x _ (by simpa using hx),
        hih]

theorem headNonChunk_append (x y : List Char) (hx : headNonChunk x)
    (hy : x = [] → headNonChunk y) : headNonChunk (x ++ y) := by
  cases x with
  | nil => simpa using hy rfl
  | cons c cs => exact hx


/-! Character-class facts and gap-run behaviour of whitespace dropping. -/

theorem pySpace_toNat (c : Char) (h : isPySpace c = true) :
    c.val.toNat = 32 ∨ (9 ≤ c.val.toNat ∧ c.val.toNat ≤ 13) ∨
    (28 ≤ c.val.toNat ∧ c.val.toNat ≤ 31) ∨ c.val.toNat = 133 ∨ c.val.toNat = 160 ∨
    c.val.toNat = 5760 ∨ (8192 ≤ c.val.toNat ∧ c.val.toNat ≤ 8202) ∨
    c.val.toNat = 8232 ∨ c.val.toNat = 8233 ∨ c.val.toNat = 8239 ∨
    c.val.toNat = 8287 ∨ c.val.toNat = 12288 := by
  simp only [isPySpace, Bool.or_eq_true, beq_iff_eq, Bool.and_eq_true,
    decide_eq_true_eq] at h
  rcases h with
    (((((((((((((((((h | h) | h) | h) | h) | h) | h) | h) | h) | h) | h) | h) | h) |
      ⟨h1, h2⟩) | h) | h) | h) | h) | h
  · subst h; decide
  · subst h; decide
  · subst h; decide
  · have hn : c.val.toNat = 11 := by rw [h]; decide
    omega
  · have hn : c.val.toNat = 12 := by rw [h]; decide
    omega
  · subst h; decide
  · have hn : c.val.toNat = 28 := by rw [h]; decide
    omega
  · have hn : c.val.toNat = 29 := by rw [h]; decide
    omega
  · have hn : c.val.toNat = 30 := by rw [h]; decide
    omega
  · have hn : c.val.toNat = 31 := by rw [h]; decide
    omega
  · have hn : c.val.toNat = 133 := by rw [h]; decide
    omega
  · have hn : c.val.toNat = 160 := by rw [h]; decide
    omega
  · have hn : c.val.toNat = 5760 := by rw [h]; decide
    omega
  · have ha : 8192 ≤ c.val.toNat := h1
    have hb : c.val.toNat ≤ 8202 := h2
    omega
  · have hn : c.val.toNat = 8232 := by rw [h]; decide
    omega
  · have hn : c.val.toNat = 8233 := by rw [h]; decide
    omega
  · have hn : c.val.toNat = 8239 := by rw [h]; decide
    omega
  · have hn : c.val.toNat = 8287 := by rw [h]; decide
    omega
  · have hn : c.val.toNat = 12288 := by rw [h]; decide
    omega

theorem chunk_toNat (c : Char) (h : chunkChar c = true) :
    c.val.toNat = 32 ∨ (9 ≤ c.val.toNat ∧ c.val.toNat ≤ 13) ∨
    (28 ≤ c.val.toNat ∧ c.val.toNat ≤ 31) ∨ c.val.toNat = 133 ∨ c.val.toNat = 160 ∨
    c.val.toNat = 5760 ∨ (8192 ≤ c.val.toNat ∧ c.val.toNat ≤ 8202) ∨
    c.val.toNat = 8232 ∨ c.val.toNat = 8233 ∨ c.val.toNat = 8239 ∨
    c.val.toNat = 8287 ∨ c.val.toNat = 12288 ∨ c.val.toNat = 44 ∨
    c.val.toNat = 124 ∨ c.val.toNat = 47 := by
  simp only [chunkChar, Bool.or_eq_true, beq_iff_eq] at h
  rcases h with ((h | h) | h) | h
  · have := pySpace_toNat c h
    omega
  · subst h; decide
  · subst h; decide
  · subst h; decide

theorem chunk_not_digit (c : Char) (hc : chunkChar c = true) : c.isDigit = false := by
  cases hd : c.isDigit with
  | false => rfl
  | true =>
    exfalso
    simp only [Char.isDigit, Bool.and_eq_true, decide_eq_true_eq] at hd
    have h1 : 48 ≤ c.val.toNat := hd.1
    have h2 : c.val.toNat ≤ 57 := hd.2
    have := chunk_toNat c hc
    omega

theorem chunk_toLower_self (c : Char) (hc : chunkChar c = true) : c.toLower = c := by
  unfold Char.toLower
  rw [if_neg]
  intro hcon
  have h1 : 65 ≤ c.val.toNat := hcon.1
  have := chunk_toNat c hc
  have h2 : c.val.toNat ≤ 90 := hcon.2
  omega

theorem chunk_ne (c x : Char) (hc : chunkChar c = true) (hx : chunkChar x = false) :
    (c == x) = false := by
  cases h : c == x with
  | false => rfl
  | true =>
    have hce : c = x := by simpa using h
    rw [hce] at hc
    rw [hc] at hx
    exact Bool.noConfusion hx

theorem nonchunk_not_ws (c : Char) (h : chunkChar c = false) : isPySpace c = false := by
  simp only [chunkChar, Bool.or_eq_false_iff] at h
  exact h.1.1.1

theorem runKey_ws_all (r : List Char) (h : runKey r = Key.ws) : r.all isPySpace = true := by
  by_contra hcon
  have hb : r.all isPySpace = false := by simpa using hcon
  simp [runKey, hb] at h

theorem runKey_blocked_not_all (r : List Char) (h : runKey r = Key.blocked) :
    r.all isPySpace = false := by
  by_contra hcon
  have hb : r.all isPySpace = true := by simpa using hcon
  simp [runKey, hb] at h

theorem dropWhile_append_all (p : Char → Bool) :
    ∀ (r x : List Char), (∀ c ∈ r, p c = true) → (r ++ x).dropWhile p = x.dropWhile p := by
  intro r
  induction r with
  | nil => intro x _; rfl
  | cons c r' ih =>
    intro x h
    rw [List.cons_append, List.dropWhile_cons_of_pos (h c (by simp))]
    exact ih x (fun d hd => h d (by simp [hd]))

theorem dropWhile_append_stop (p : Char → Bool) :
    ∀ (r x : List Char), (∃ c ∈ r, p c = false) →
      (r ++ x).dropWhile p = r.dropWhile p ++ x ∧ r.dropWhile p ≠ [] := by
  intro r
  induction r with
  | nil => intro x h; simp at h
  | cons c r' ih =>
    intro x h
    by_cases hc : p c = true
    · have hw : ∃ d ∈ r', p d = false := by
        obtain ⟨d, hd, hdp⟩ := h
        rcases List.mem_cons.mp hd with rfl | hd2
        · rw [hc] at hdp; exact Bool.noConfusion hdp
        · exact ⟨d, hd2, hdp⟩
      obtain ⟨ih1, ih2⟩ := ih x hw
      rw [List.cons_append, List.dropWhile_cons_of_pos hc, ih1,
        List.dropWhile_cons_of_pos hc]
      exact ⟨rfl, ih2⟩
    · rw [List.cons_append, List.dropWhile_cons_of_neg hc, List.dropWhile_cons_of_neg hc]
      exact ⟨rfl, by simp⟩

theorem dropWS_headNonChunk (x : List Char) (hx : headNonChunk x) :
    x.dropWhile isPySpace = x := by
  cases x with
  | nil => rfl
  | cons c cs =>
    exact List.dropWhile_cons_of_neg (by simp [nonchunk_not_ws c hx])

theorem exists_false_of_all_false (p : Char → Bool) (l : List Char) (h : l.all p = false) :
    ∃ x ∈ l, p x = false := by
  by_contra hcon
  push_neg at hcon
  have hall : l.all p = true := by
    rw [List.all_eq_true]
    intro x hx
    simpa using hcon x hx
  rw [hall] at h
  exact Bool.noConfusion h

theorem blocked_run_dropWS (r : List Char) (hall : ∀ c ∈ r, chunkChar c = true)
    (hbl : runKey r = Key.blocked) :
    r.dropWhile isPySpace ≠ [] ∧ (∀ c ∈ r.dropWhile isPySpace, chunkChar c = true) ∧
      runKey (r.dropWhile isPySpace) = Key.blocked ∧
      (∃ c ∈ r, isPySpace c = false) := by
  have hex : ∃ c ∈ r, isPySpace c = false :=
    exists_false_of_all_false isPySpace r (runKey_blocked_not_all r hbl)
  have hstop := dropWhile_append_stop isPySpace r [] hex
  have hne : r.dropWhile isPySpace ≠ [] := hstop.2
  refine ⟨hne, ?_, ?_, hex⟩
  · intro c hc
    exact hall c ((List.dropWhile_sublist _).subset hc)
  · cases hd3 : r.dropWhile isPySpace with
    | nil => exact absurd hd3 hne
    | cons e es =>
      have he : isPySpace e = false := dropWhile_head_false isPySpace r e es hd3
      simp [runKey, List.all_cons, he]

theorem sig_dropWS_pair (s t : List Char) (h : sig s = sig t) :
    sig (dropWS s) = sig (dropWS t) := by
  unfold dropWS
  cases hv : sig s with
  | nil =>
    rw [sig_eq_nil s hv, sig_eq_nil t (by rw [← h, hv])]
  | cons k v =>
    cases k with
    | chr c =>
      obtain ⟨s', rfl, hc, _⟩ := sig_chr_inv s c v hv
      obtain ⟨t', rfl, _, _⟩ := sig_chr_inv t c v (by rw [← h, hv])
      rw [List.dropWhile_cons_of_neg (by simp [nonchunk_not_ws c hc]),
        List.dropWhile_cons_of_neg (by simp [nonchunk_not_ws c hc])]
      exact h
    | ws =>
      obtain ⟨rs, s', rfl, _, _, hkey_s, hhead_s, hsig_s⟩ :=
        sig_gap_inv s Key.ws v (Or.inl rfl) hv
      obtain ⟨rt, t', rfl, _, _, hkey_t, hhead_t, hsig_t⟩ :=
        sig_gap_inv t Key.ws v (Or.inl rfl) (by rw [← h, hv])
      have hall_s : ∀ c ∈ rs, isPySpace c = true :=
        fun c hc => List.all_eq_true.mp (runKey_ws_all rs hkey_s) c hc
      have hall_t : ∀ c ∈ rt, isPySpace c = true :=
        fun c hc => List.all_eq_true.mp (runKey_ws_all rt hkey_t) c hc
      rw [dropWhile_append_all isPySpace rs s' hall_s,
        dropWhile_append_all isPySpace rt t' hall_t,
        dropWS_headNonChunk s' hhead_s, dropWS_headNonChunk t' hhead_t]
      rw [hsig_s, hsig_t]
    | blocked =>
      obtain ⟨rs, s', rfl, _, hall_s, hkey_s, hhead_s, hsig_s⟩ :=
        sig_gap_inv s Key.blocked v (Or.inr rfl) hv
      obtain ⟨rt, t', rfl, _, hall_t, hkey_t, hhead_t, hsig_t⟩ :=
        sig_gap_inv t Key.blocked v (Or.inr rfl) (by rw [← h, hv])
      obtain ⟨hne_s, hch_s, hbk_s, hex_s⟩ := blocked_run_dropWS rs hall_s hkey_s
      obtain ⟨hne_t, hch_t, hbk_t, hex_t⟩ := blocked_run_dropWS rt hall_t hkey_t
      rw [(dropWhile_append_stop isPySpace rs s' hex_s).1,
        (dropWhile_append_stop isPySpace rt t' hex_t).1]
      rw [sig_run_append _ s' hne_s hch_s hhead_s,
        sig_run_append _ t' hne_t hch_t hhead_t]
      rw [hbk_s, hbk_t, hsig_s, hsig_t]


/-! Pair lemmas: equal shapes are preserved by the micro-steps of the
dimension matchers. -/

theorem sig_chunk_head_gap (c : Char) (s : List Char) (hc : chunkChar c = true) :
    ∃ k v, sig (c :: s) = k :: v ∧ (k = Key.ws ∨ k = Key.blocked) := by
  cases hv : sig s with
  | nil =>
    refine ⟨_, _, sig_cons_chunk_nil c s hc hv, ?_⟩
    by_cases hw : isPySpace c = true <;> simp [hw]
  | cons k' v' =>
    cases k' with
    | chr d =>
      refine ⟨_, _, sig_cons_chunk_chr c d s v' hc hv, ?_⟩
      by_cases hw : isPySpace c = true <;> simp [hw]
    | ws =>
      refine ⟨_, _, sig_cons_chunk_ws c s v' hc hv, ?_⟩
      by_cases hw : isPySpace c = true <;> simp [hw]
    | blocked =>
      exact ⟨_, _, sig_cons_chunk_blocked c s v' hc hv, Or.inr rfl⟩

theorem gap_head_of_sig (t : List Char) (k : Key) (v : List Key)
    (hk : k = Key.ws ∨ k = Key.blocked) (h : sig t = k :: v) :
    ∃ ct t2, t = ct :: t2 ∧ chunkChar ct = true := by
  obtain ⟨rt, t'', rfl, hne, hall, _, _, _⟩ := sig_gap_inv t k v hk h
  cases rt with
  | nil => exact absurd rfl hne
  | cons ct rt' => exact ⟨ct, rt' ++ t'', by simp, hall ct (by simp)⟩

theorem blocked_run_dropP (p : Char → Bool)
    (hpb : ∀ c, chunkChar c = true → isPySpace c = false → p c = false)
    (hpw : ∀ c, isPySpace c = true → p c = true)
    (r : List Char) (hall : ∀ c ∈ r, chunkChar c = true)
    (hbl : runKey r = Key.blocked) :
    r.dropWhile p ≠ [] ∧ (∀ c ∈ r.dropWhile p, chunkChar c = true) ∧
      runKey (r.dropWhile p) = Key.blocked ∧ (∃ c ∈ r, p c = false) := by
  have hex : ∃ c ∈ r, p c = false := by
    obtain ⟨c, hc, hcw⟩ :=
      exists_false_of_all_false isPySpace r (runKey_blocked_not_all r hbl)
    exact ⟨c, hc, hpb c (hall c hc) hcw⟩
  have hne : r.dropWhile p ≠ [] := (dropWhile_append_stop p r [] hex).2
  refine ⟨hne, ?_, ?_, hex⟩
  · intro c hc
    exact hall c ((List.dropWhile_sublist _).subset hc)
  · cases hd3 : r.dropWhile p with
    | nil => exact absurd hd3 hne
    | cons e es =>
      have he : p e = false := dropWhile_head_false p r e es hd3
      have hew : isPySpace e = false := by
        cases hw : isPySpace e with
        | false => rfl
        | true => rw [hpw e hw] at he; exact Bool.noConfusion he
      simp [runKey, List.all_cons, hew]

theorem sig_dropColonWS_pair : ∀ (n : Nat) (s t : List Char), s.length ≤ n →
    sig s = sig t →
    sig (s.dropWhile (fun c => c == ':' || isPySpace c)) =
      sig (t.dropWhile (fun c => c == ':' || isPySpace c)) := by
  intro n
  induction n with
  | zero =>
    intro s t hl h
    have hs : s = [] := List.length_eq_zero.mp (Nat.le_zero.mp hl)
    subst hs
    rw [sig_eq_nil t (by rw [← h]; rfl)]
  | succ n ih =>
    intro s t hl h
    cases hv : sig s with
    | nil =>
      rw [sig_eq_nil s hv, sig_eq_nil t (by rw [← h, hv])]
    | cons k v =>
      cases k with
      | chr c =>
        obtain ⟨s', rfl, hc, hs'⟩ := sig_chr_inv s c v hv
        obtain ⟨t', rfl, _, ht'⟩ := sig_chr_inv t c v (by rw [← h, hv])
        by_cases hcol : (c == ':') = true
        · rw [List.dropWhile_cons_of_pos (by simp [hcol]),
            List.dropWhile_cons_of_pos (by simp [hcol])]
          exact ih s' t' (by simpa using Nat.le_of_succ_le_succ (by simpa using hl))
            (by rw [hs', ht'])
        · have hp : ((c == ':') || isPySpace c) = false := by
            simp [hcol, nonchunk_not_ws c hc]
          rw [List.dropWhile_cons_of_neg (by simp [hp]),
            List.dropWhile_cons_of_neg (by simp [hp])]
          exact h
      | ws =>
        obtain ⟨rs, s', rfl, hne_s, _, hkey_s, hhead_s, hsig_s⟩ :=
          sig_gap_inv s Key.ws v (Or.inl rfl) hv
        obtain ⟨rt, t', rfl, hne_t, _, hkey_t, hhead_t, hsig_t⟩ :=
          sig_gap_inv t Key.ws v (Or.inl rfl) (by rw [← h, hv])
        have hall_s : ∀ c ∈ rs, ((c == ':') || isPySpace c) = true := by
          intro c hc
          simp [List.all_eq_true.mp (runKey_ws_all rs hkey_s) c hc]
        have hall_t : ∀ c ∈ rt, ((c == ':') || isPySpace c) = true := by
          intro c hc
          simp [List.all_eq_true.mp (runKey_ws_all rt hkey_t) c hc]
        rw [dropWhile_append_all _ rs s' hall_s, dropWhile_append_all _ rt t' hall_t]
        have hls : s'.length ≤ n := by
          have h1 : 1 ≤ rs.length := by
            cases rs with
            | nil => exact absurd rfl hne_s
            | cons a b => simp
          have h2 : (rs ++ s').length ≤ n + 1 := hl
          simp only [List.length_append] at h2
          omega
        have hdt : t'.dropWhile (fun c => c == ':' || isPySpace c) =
            t'.dropWhile (fun c => c == ':' || isPySpace c) := rfl
        exact ih s' t' hls (by rw [hsig_s, hsig_t])
      | blocked =>
        obtain ⟨rs, s', rfl, _, hall_s, hkey_s, hhead_s, hsig_s⟩ :=
          sig_gap_inv s Key.blocked v (Or.inr rfl) hv
        obtain ⟨rt, t', rfl, _, hall_t, hkey_t, hhead_t, hsig_t⟩ :=
          sig_gap_inv t Key.blocked v (Or.inr rfl) (by rw [← h, hv])
        have hpb : ∀ c, chunkChar c = true → isPySpace c = false →
            ((c == ':') || isPySpace c) = false := by
          intro c hcc hcw
          simp [chunk_ne c ':' hcc (by decide), hcw]
        have hpw : ∀ c, isPySpace c = true → ((c == ':') || isPySpace c) = true := by
          intro c hcw
          simp [hcw]
        obtain ⟨hne_s2, hch_s, hbk_s, hex_s⟩ := blocked_run_dropP _ hpb hpw rs hall_s hkey_s
        obtain ⟨hne_t2, hch_t, hbk_t, hex_t⟩ := blocked_run_dropP _ hpb hpw rt hall_t hkey_t
        rw [(dropWhile_append_stop _ rs s' hex_s).1, (dropWhile_append_stop _ rt t' hex_t).1]
        rw [sig_run_append _ s' hne_s2 hch_s hhead_s,
          sig_run_append _ t' hne_t2 hch_t hhead_t]
        rw [hbk_s, hbk_t, hsig_s, hsig_t]

theorem digits_pair : ∀ (s t : List Char), sig s = sig t →
    s.takeWhile Char.isDigit = t.takeWhile Char.isDigit ∧
      sig (s.dropWhile Char.isDigit) = sig (t.dropWhile Char.isDigit) := by
  intro s
  induction s with
  | nil =>
    intro t h
    rw [sig_eq_nil t (by rw [← h]; rfl)]
    exact ⟨rfl, rfl⟩
  | cons c s' ih =>
    intro t h
    by_cases hc : chunkChar c = true
    · obtain ⟨k, v, hv, hk⟩ := sig_chunk_head_gap c s' hc
      obtain ⟨ct, t2, rfl, hct⟩ := gap_head_of_sig t k v hk (by rw [← h, hv])
      rw [List.takeWhile_cons_of_neg (by simp [chunk_not_digit c hc]),
        List.takeWhile_cons_of_neg (by simp [chunk_not_digit ct hct]),
        List.dropWhile_cons_of_neg (by simp [chunk_not_digit c hc]),
        List.dropWhile_cons_of_neg (by simp [chunk_not_digit ct hct])]
      exact ⟨rfl, h⟩
    · have hv := sig_cons_nonchunk c s' (by simpa using hc)
      obtain ⟨t', rfl, _, ht'⟩ := sig_chr_inv t c (sig s') (by rw [← h, hv])
      have hsig' : sig s' = sig t' := by rw [ht']
      by_cases hd : c.isDigit = true
      · obtain ⟨ih1, ih2⟩ := ih t' hsig'
        rw [List.takeWhile_cons_of_pos hd, List.takeWhile_cons_of_pos hd,
          List.dropWhile_cons_of_pos hd, List.dropWhile_cons_of_pos hd]
        exact ⟨by rw [ih1], ih2⟩
      · rw [List.takeWhile_cons_of_neg (by simpa using hd),
          List.takeWhile_cons_of_neg (by simpa using hd),
          List.dropWhile_cons_of_neg (by simpa using hd),
          List.dropWhile_cons_of_neg (by simpa using hd)]
        exact ⟨rfl, h⟩

/-! Shape-preservation of the numeral, literal and quote matchers. -/

theorem chunk_head_ne (c x : Char) (hc : chunkChar c = true) (hx : chunkChar x = false) :
    c ≠ x := by
  intro h
  rw [h] at hc
  rw [hc] at hx
  exact Bool.noConfusion hx

theorem nonchunk_beq_chunk (x c : Char) (hx : chunkChar x = false) (hc : chunkChar c = true) :
    (x == c) = false := by
  cases h : x == c with
  | false => rfl
  | true =>
    have hxe : x = c := by simpa using h
    rw [hxe] at hx
    rw [hc] at hx
    exact Bool.noConfusion hx

theorem matchNumber_none (l : List Char) (h : (l.takeWhile Char.isDigit).isEmpty = true) :
    matchNumber l = none := by
  simp [matchNumber, h]

theorem matchNumber_dot_nofrac (l r2 : List Char)
    (hne : (l.takeWhile Char.isDigit).isEmpty = false)
    (hr : l.dropWhile Char.isDigit = '.' :: r2)
    (hfs : (r2.takeWhile Char.isDigit).isEmpty = true) :
    matchNumber l = some (l.takeWhile Char.isDigit, '.' :: r2) := by
  simp [matchNumber, hne, hr, hfs]

theorem matchNumber_dot_frac (l r2 : List Char)
    (hne : (l.takeWhile Char.isDigit).isEmpty = false)
    (hr : l.dropWhile Char.isDigit = '.' :: r2)
    (hfs : (r2.takeWhile Char.isDigit).isEmpty = false) :
    matchNumber l = some (l.takeWhile Char.isDigit ++ '.' :: r2.takeWhile Char.isDigit,
      r2.dropWhile Char.isDigit) := by
  simp [matchNumber, hne, hr, hfs]

theorem matchNumber_nodot (l : List Char)
    (hne : (l.takeWhile Char.isDigit).isEmpty = false)
    (hshape : ∀ r2, l.dropWhile Char.isDigit ≠ '.' :: r2) :
    matchNumber l = some (l.takeWhile Char.isDigit, l.dropWhile Char.isDigit) := by
  cases hr : l.dropWhile Char.isDigit with
  | nil => simp [matchNumber, hne, hr]
  | cons c r2 =>
    have hc : c ≠ '.' := by
      intro hcon
      exact hshape r2 (by rw [hr, hcon])
    simp only [matchNumber, hne, Bool.false_eq_true, if_false, hr]
    split
    · next r3 heq =>
      exfalso
      injection heq with h1 _
      exact hc h1
    · rfl

theorem matchNumber_pair (s t : List Char) (h : sig s = sig t) :
    (matchNumber s = none ∧ matchNumber t = none) ∨
    ∃ n rs rt, matchNumber s = some (n, rs) ∧ matchNumber t = some (n, rt) ∧
      sig rs = sig rt := by
  obtain ⟨htake, hdrop⟩ := digits_pair s t h
  by_cases hds : (s.takeWhile Char.isDigit).isEmpty = true
  · exact Or.inl ⟨matchNumber_none s hds, matchNumber_none t (by rw [← htake]; exact hds)⟩
  · have hne_s : (s.takeWhile Char.isDigit).isEmpty = false := by simpa using hds
    have hne_t : (t.takeWhile Char.isDigit).isEmpty = false := by rw [← htake]; exact hne_s
    right
    cases hv : sig (s.dropWhile Char.isDigit) with
    | nil =>
      have hs0 : s.dropWhile Char.isDigit = [] := sig_eq_nil _ hv
      have ht0 : t.dropWhile Char.isDigit = [] := sig_eq_nil _ (by rw [← hdrop, hv])
      refine ⟨s.takeWhile Char.isDigit, s.dropWhile Char.isDigit, t.dropWhile Char.isDigit,
        ?_, ?_, hdrop⟩
      · exact matchNumber_nodot s hne_s (by rw [hs0]; intro r2 hcon; exact List.noConfusion hcon)
      · rw [matchNumber_nodot t hne_t (by rw [ht0]; intro r2 hcon; exact List.noConfusion hcon),
          htake]
    | cons k v =>
      cases k with
      | chr c =>
        obtain ⟨s2, hs2, hcnc, hsig_s2⟩ := sig_chr_inv _ c v hv
        obtain ⟨t2, ht2, _, hsig_t2⟩ := sig_chr_inv _ c v (by rw [← hdrop, hv])
        by_cases hcd : c = '.'
        · subst hcd
          have hst2 : sig s2 = sig t2 := by rw [hsig_s2, hsig_t2]
          obtain ⟨htake2, hdrop2⟩ := digits_pair s2 t2 hst2
          by_cases hfs : (s2.takeWhile Char.isDigit).isEmpty = true
          · refine ⟨s.takeWhile Char.isDigit, '.' :: s2, '.' :: t2,
              matchNumber_dot_nofrac s s2 hne_s hs2 hfs, ?_, ?_⟩
            · rw [matchNumber_dot_nofrac t t2 hne_t ht2 (by rw [← htake2]; exact hfs), htake]
            · rw [← hs2, ← ht2]
              exact hdrop
          · have hfs_s : (s2.takeWhile Char.isDigit).isEmpty = false := by simpa using hfs
            have hfs_t : (t2.takeWhile Char.isDigit).isEmpty = false := by
              rw [← htake2]; exact hfs_s
            refine ⟨s.takeWhile Char.isDigit ++ '.' :: s2.takeWhile Char.isDigit,
              s2.dropWhile Char.isDigit, t2.dropWhile Char.isDigit,
              matchNumber_dot_frac s s2 hne_s hs2 hfs_s, ?_, hdrop2⟩
            rw [matchNumber_dot_frac t t2 hne_t ht2 hfs_t, htake, htake2]
        · refine ⟨s.takeWhile Char.isDigit, s.dropWhile Char.isDigit, t.dropWhile Char.isDigit,
            ?_, ?_, hdrop⟩
          · refine matchNumber_nodot s hne_s ?_
            rw [hs2]
            intro r2 hcon
            injection hcon with h1 _
            exact hcd h1
          · rw [matchNumber_nodot t hne_t ?_, htake]
            rw [ht2]
            intro r2 hcon
            injection hcon with h1 _
            exact hcd h1
      | ws =>
        obtain ⟨cs2, s2, hs2, hcs⟩ := gap_head_of_sig _ Key.ws v (Or.inl rfl) hv
        obtain ⟨ct2, t2, ht2, hct⟩ :=
          gap_head_of_sig _ Key.ws v (Or.inl rfl) (by rw [← hdrop, hv])
        refine ⟨s.takeWhile Char.isDigit, s.dropWhile Char.isDigit, t.dropWhile Char.isDigit,
          ?_, ?_, hdrop⟩
        · refine matchNumber_nodot s hne_s ?_
          rw [hs2]
          intro r2 hcon
          injection hcon with h1 _
          exact chunk_head_ne cs2 '.' hcs (by decide) h1
        · rw [matchNumber_nodot t hne_t ?_, htake]
          rw [ht2]
          intro r2 hcon
          injection hcon with h1 _
          exact chunk_head_ne ct2 '.' hct (by decide) h1
      | blocked =>
        obtain ⟨cs2, s2, hs2, hcs⟩ := gap_head_of_sig _ Key.blocked v (Or.inr rfl) hv
        obtain ⟨ct2, t2, ht2, hct⟩ :=
          gap_head_of_sig _ Key.blocked v (Or.inr rfl) (by rw [← hdrop, hv])
        refine ⟨s.takeWhile Char.isDigit, s.dropWhile Char.isDigit, t.dropWhile Char.isDigit,
          ?_, ?_, hdrop⟩
        · refine matchNumber_nodot s hne_s ?_
          rw [hs2]
          intro r2 hcon
          injection hcon with h1 _
          exact chunk_head_ne cs2 '.' hcs (by decide) h1
        · rw [matchNumber_nodot t hne_t ?_, htake]
          rw [ht2]
          intro r2 hcon
          injection hcon with h1 _
          exact chunk_head_ne ct2 '.' hct (by decide) h1

theorem matchLitCI_cons_pos (p c : Char) (ps cs : List Char)
    (h : (p.toLower == c.toLower) = true) :
    matchLitCI (p :: ps) (c :: cs) = matchLitCI ps cs := by
  simp [matchLitCI, h]

theorem matchLitCI_cons_neg (p c : Char) (ps cs : List Char)
    (h : (p.toLower == c.toLower) = false) :
    matchLitCI (p :: ps) (c :: cs) = none := by
  simp [matchLitCI, h]

theorem matchLitCI_pair : ∀ (pat s t : List Char),
    (∀ p ∈ pat, chunkChar p.toLower = false) → sig s = sig t →
    (matchLitCI pat s = none ∧ matchLitCI pat t = none) ∨
    ∃ rs rt, matchLitCI pat s = some rs ∧ matchLitCI pat t = some rt ∧ sig rs = sig rt := by
  intro pat
  induction pat with
  | nil =>
    intro s t _ h
    exact Or.inr ⟨s, t, rfl, rfl, h⟩
  | cons p ps ih =>
    intro s t hpat h
    cases hv : sig s with
    | nil =>
      left
      rw [sig_eq_nil s hv, sig_eq_nil t (by rw [← h, hv])]
      exact ⟨rfl, rfl⟩
    | cons k v =>
      cases k with
      | chr c =>
        obtain ⟨s2, rfl, hcnc, hsig_s2⟩ := sig_chr_inv s c v hv
        obtain ⟨t2, rfl, _, hsig_t2⟩ := sig_chr_inv t c v (by rw [← h, hv])
        by_cases htest : (p.toLower == c.toLower) = true
        · rw [matchLitCI_cons_pos p c ps s2 htest, matchLitCI_cons_pos p c ps t2 htest]
          exact ih s2 t2 (fun q hq => hpat q (by simp [hq])) (by rw [hsig_s2, hsig_t2])
        · have hf : (p.toLower == c.toLower) = false := by simpa using htest
          exact Or.inl ⟨matchLitCI_cons_neg p c ps s2 hf, matchLitCI_cons_neg p c ps t2 hf⟩
      | ws =>
        obtain ⟨cs2, s2, rfl, hcs⟩ := gap_head_of_sig _ Key.ws v (Or.inl rfl) hv
        obtain ⟨ct2, t2, rfl, hct⟩ :=
          gap_head_of_sig _ Key.ws v (Or.inl rfl) (by rw [← h, hv])
        have hps : (p.toLower == cs2.toLower) = false := by
          rw [chunk_toLower_self cs2 hcs]
          exact nonchunk_beq_chunk _ _ (hpat p (by simp)) hcs
        have hpt : (p.toLower == ct2.toLower) = false := by
          rw [chunk_toLower_self ct2 hct]
          exact nonchunk_beq_chunk _ _ (hpat p (by simp)) hct
        exact Or.inl ⟨matchLitCI_cons_neg p cs2 ps s2 hps, matchLitCI_cons_neg p ct2 ps t2 hpt⟩
      | blocked =>
        obtain ⟨cs2, s2, rfl, hcs⟩ := gap_head_of_sig _ Key.blocked v (Or.inr rfl) hv
        obtain ⟨ct2, t2, rfl, hct⟩ :=
          gap_head_of_sig _ Key.blocked v (Or.inr rfl) (by rw [← h, hv])
        have hps : (p.toLower == cs2.toLower) = false := by
          rw [chunk_toLower_self cs2 hcs]
          exact nonchunk_beq_chunk _ _ (hpat p (by simp)) hcs
        have hpt : (p.toLower == ct2.toLower) = false := by
          rw [chunk_toLower_self ct2 hct]
          exact nonchunk_beq_chunk _ _ (hpat p (by simp)) hct
        exact Or.inl ⟨matchLitCI_cons_neg p cs2 ps s2 hps, matchLitCI_cons_neg p ct2 ps t2 hpt⟩

theorem quoteOpt_pair (s t : List Char) (h : sig s = sig t) :
    sig (quoteOpt s) = sig (quoteOpt t) := by
  cases hv : sig s with
  | nil =>
    rw [sig_eq_nil s hv, sig_eq_nil t (by rw [← h, hv])]
  | cons k v =>
    cases k with
    | chr c =>
      obtain ⟨s2, rfl, hcnc, hsig_s2⟩ := sig_chr_inv s c v hv
      obtain ⟨t2, rfl, _, hsig_t2⟩ := sig_chr_inv t c v (by rw [← h, hv])
      by_cases htest : (c == '\"' || c == '”') = true
      · simp only [quoteOpt, htest, if_true]
        rw [hsig_s2, hsig_t2]
      · have hf : (c == '\"' || c == '”') = false := by simpa using htest
        simp only [quoteOpt, hf, Bool.false_eq_true, if_false]
        exact h
    | ws =>
      obtain ⟨cs2, s2, rfl, hcs⟩ := gap_head_of_sig _ Key.ws v (Or.inl rfl) hv
      obtain ⟨ct2, t2, rfl, hct⟩ := gap_head_of_sig _ Key.ws v (Or.inl rfl) (by rw [← h, hv])
      have hfs : (cs2 == '\"' || cs2 == '”') = false := by
        simp [chunk_ne cs2 '\"' hcs (by decide), chunk_ne cs2 '”' hcs (by decide)]
      have hft : (ct2 == '\"' || ct2 == '”') = false := by
        simp [chunk_ne ct2 '\"' hct (by decide), chunk_ne ct2 '”' hct (by decide)]
      simp only [quoteOpt, hfs, hft, Bool.false_eq_true, if_false]
      exact h
    | blocked =>
      obtain ⟨cs2, s2, rfl, hcs⟩ := gap_head_of_sig _ Key.blocked v (Or.inr rfl) hv
      obtain ⟨ct2, t2, rfl, hct⟩ := gap_head_of_sig _ Key.blocked v (Or.inr rfl) (by rw [← h, hv])
      have hfs : (cs2 == '\"' || cs2 == '”') = false := by
        simp [chunk_ne cs2 '\"' hcs (by decide), chunk_ne cs2 '”' hcs (by decide)]
      have hft : (ct2 == '\"' || ct2 == '”') = false := by
        simp [chunk_ne ct2 '\"' hct (by decide), chunk_ne ct2 '”' hct (by decide)]
      simp only [quoteOpt, hfs, hft, Bool.false_eq_true, if_false]
      exact h

/-! Shape-preservation of the optional parenthesised marker and of the
thickness unit alternatives. -/

theorem parenOpt_shape (letter c2 : Char) (cs2 : List Char) :
    parenOpt letter ('(' :: c2 :: ')' :: cs2) =
      if c2.toLower == letter then cs2 else '(' :: c2 :: ')' :: cs2 := rfl

theorem parenOpt_no3 (letter : Char) (l : List Char)
    (h : ∀ c2 cs2, l ≠ '(' :: c2 :: ')' :: cs2) : parenOpt letter l = l := by
  unfold parenOpt
  split
  · exact absurd rfl (h _ _)
  · rfl

theorem parenOpt_chunk_mid (letter : Char) (hl : chunkChar letter = false)
    (c2 : Char) (hc2 : chunkChar c2 = true) (rest : List Char) :
    parenOpt letter ('(' :: c2 :: rest) = '(' :: c2 :: rest := by
  cases rest with
  | nil =>
    apply parenOpt_no3
    intro d2 ds2 hcon
    injection hcon with _ h2
    injection h2 with _ h3
    exact List.noConfusion h3
  | cons c3 rest2 =>
    by_cases h3 : c3 = ')'
    · subst h3
      rw [parenOpt_shape, if_neg]
      intro hcon
      have ht : (c2.toLower == letter) = true := hcon
      rw [chunk_toLower_self c2 hc2, chunk_ne c2 letter hc2 hl] at ht
      exact Bool.noConfusion ht
    · apply parenOpt_no3
      intro d2 ds2 hcon
      injection hcon with _ hc2'
      injection hc2' with _ hc3'
      injection hc3' with hc3'' _
      exact h3 hc3''

theorem parenOpt_pair (letter : Char) (hl : chunkChar letter = false)
    (s t : List Char) (h : sig s = sig t) :
    sig (parenOpt letter s) = sig (parenOpt letter t) := by
  cases hv : sig s with
  | nil =>
    rw [sig_eq_nil s hv, sig_eq_nil t (by rw [← h, hv])]
  | cons k v =>
    cases k with
    | ws =>
      obtain ⟨cs2, s2, rfl, hcs⟩ := gap_head_of_sig _ Key.ws v (Or.inl rfl) hv
      obtain ⟨ct2, t2, rfl, hct⟩ := gap_head_of_sig _ Key.ws v (Or.inl rfl) (by rw [← h, hv])
      rw [parenOpt_no3 letter _ (fun d2 ds2 hcon => by
          injection hcon with h1 _
          exact chunk_head_ne cs2 '(' hcs (by decide) h1),
        parenOpt_no3 letter _ (fun d2 ds2 hcon => by
          injection hcon with h1 _
          exact chunk_head_ne ct2 '(' hct (by decide) h1)]
      exact h
    | blocked =>
      obtain ⟨cs2, s2, rfl, hcs⟩ := gap_head_of_sig _ Key.blocked v (Or.inr rfl) hv
      obtain ⟨ct2, t2, rfl, hct⟩ := gap_head_of_sig _ Key.blocked v (Or.inr rfl) (by rw [← h, hv])
      rw [parenOpt_no3 letter _ (fun d2 ds2 hcon => by
          injection hcon with h1 _
          exact chunk_head_ne cs2 '(' hcs (by decide) h1),
        parenOpt_no3 letter _ (fun d2 ds2 hcon => by
          injection hcon with h1 _
          exact chunk_head_ne ct2 '(' hct (by decide) h1)]
      exact h
    | chr c =>
      obtain ⟨s2, rfl, hcnc, hsig_s2⟩ := sig_chr_inv s c v hv
      obtain ⟨t2, rfl, _, hsig_t2⟩ := sig_chr_inv t c v (by rw [← h, hv])
      have hst : sig s2 = sig t2 := by rw [hsig_s2, hsig_t2]
      by_cases hpar : c = '('
      · subst hpar
        cases hv2 : sig s2 with
        | nil =>
          rw [sig_eq_nil s2 hv2, sig_eq_nil t2 (by rw [← hst, hv2])]
        | cons k2 v2 =>
          cases k2 with
          | ws =>
            obtain ⟨cs3, s3, rfl, hcs3⟩ := gap_head_of_sig _ Key.ws v2 (Or.inl rfl) hv2
            obtain ⟨ct3, t3, rfl, hct3⟩ :=
              gap_head_of_sig _ Key.ws v2 (Or.inl rfl) (by rw [← hst, hv2])
            rw [parenOpt_chunk_mid letter hl cs3 hcs3, parenOpt_chunk_mid letter hl ct3 hct3]
            exact h
          | blocked =>
            obtain ⟨cs3, s3, rfl, hcs3⟩ := gap_head_of_sig _ Key.blocked v2 (Or.inr rfl) hv2
            obtain ⟨ct3, t3, rfl, hct3⟩ :=
              gap_head_of_sig _ Key.blocked v2 (Or.inr rfl) (by rw [← hst, hv2])
            rw [parenOpt_chunk_mid letter hl cs3 hcs3, parenOpt_chunk_mid letter hl ct3 hct3]
            exact h
          | chr c2 =>
            obtain ⟨s3, rfl, hc2nc, hsig_s3⟩ := sig_chr_inv s2 c2 v2 hv2
            obtain ⟨t3, rfl, _, hsig_t3⟩ := sig_chr_inv t2 c2 v2 (by rw [← hst, hv2])
            have hst3 : sig s3 = sig t3 := by rw [hsig_s3, hsig_t3]
            cases hv3 : sig s3 with
            | nil =>
              rw [sig_eq_nil s3 hv3, sig_eq_nil t3 (by rw [← hst3, hv3])]
            | cons k3 v3 =>
              cases k3 with
              | ws =>
                obtain ⟨cs4, s4, rfl, hcs4⟩ := gap_head_of_sig _ Key.ws v3 (Or.inl rfl) hv3
                obtain ⟨ct4, t4, rfl, hct4⟩ :=
                  gap_head_of_sig _ Key.ws v3 (Or.inl rfl) (by rw [← hst3, hv3])
                rw [parenOpt_no3 letter _ (fun d2 ds2 hcon => by
                    injection hcon with _ hx
                    injection hx with _ hy
                    injection hy with hy1 _
                    exact chunk_head_ne cs4 ')' hcs4 (by decide) hy1),
                  parenOpt_no3 letter _ (fun d2 ds2 hcon => by
                    injection hcon with _ hx
                    injection hx with _ hy
                    injection hy with hy1 _
                    exact chunk_head_ne ct4 ')' hct4 (by decide) hy1)]
                exact h
              | blocked =>
                obtain ⟨cs4, s4, rfl, hcs4⟩ := gap_head_of_sig _ Key.blocked v3 (Or.inr rfl) hv3
                obtain ⟨ct4, t4, rfl, hct4⟩ :=
                  gap_head_of_sig _ Key.blocked v3 (Or.inr rfl) (by rw [← hst3, hv3])
                rw [parenOpt_no3 letter _ (fun d2 ds2 hcon => by
                    injection hcon with _ hx
                    injection hx with _ hy
                    injection hy with hy1 _
                    exact chunk_head_ne cs4 ')' hcs4 (by decide) hy1),
                  parenOpt_no3 letter _ (fun d2 ds2 hcon => by
                    injection hcon with _ hx
                    injection hx with _ hy
                    injection hy with hy1 _
                    exact chunk_head_ne ct4 ')' hct4 (by decide) hy1)]
                exact h
              | chr c3 =>
                obtain ⟨s4, rfl, hc3nc, hsig_s4⟩ := sig_chr_inv s3 c3 v3 hv3
                obtain ⟨t4, rfl, _, hsig_t4⟩ := sig_chr_inv t3 c3 v3 (by rw [← hst3, hv3])
                by_cases hrp : c3 = ')'
                · subst hrp
                  rw [parenOpt_shape, parenOpt_shape]
                  by_cases htest : (c2.toLower == letter) = true
                  · rw [if_pos htest, if_pos htest, hsig_s4, hsig_t4]
                  · rw [if_neg htest, if_neg htest]
                    exact h
                · rw [parenOpt_no3 letter _ (fun d2 ds2 hcon => by
                      injection hcon with _ hx
                      injection hx with _ hy
                      injection hy with hy1 _
                      exact hrp hy1),
                    parenOpt_no3 letter _ (fun d2 ds2 hcon => by
                      injection hcon with _ hx
                      injection hx with _ hy
                      injection hy with hy1 _
                      exact hrp hy1)]
                  exact h
      · rw [parenOpt_no3 letter _ (fun d2 ds2 hcon => by
            injection hcon with h1 _
            exact hpar h1),
          parenOpt_no3 letter _ (fun d2 ds2 hcon => by
            injection hcon with h1 _
            exact hpar h1)]
        exact h

theorem matchThickUnit_inch (l r : List Char)
    (h1 : matchLitCI "inch".toList l = some r) : matchThickUnit l = some r := by
  unfold matchThickUnit
  rw [h1]

theorem matchThickUnit_in (l r : List Char)
    (h1 : matchLitCI "inch".toList l = none)
    (h2 : matchLitCI "in".toList l = some r) : matchThickUnit l = some r := by
  unfold matchThickUnit
  rw [h1, h2]

theorem matchThickUnit_quote (r : List Char)
    (h1 : matchLitCI "inch".toList ('\"' :: r) = none)
    (h2 : matchLitCI "in".toList ('\"' :: r) = none) :
    matchThickUnit ('\"' :: r) = some r := by
  unfold matchThickUnit
  rw [h1, h2]
  rfl

theorem matchThickUnit_none_shape (l : List Char)
    (h1 : matchLitCI "inch".toList l = none)
    (h2 : matchLitCI "in".toList l = none)
    (h3 : ∀ r, l ≠ '\"' :: r) :
    matchThickUnit l = none := by
  unfold matchThickUnit
  rw [h1, h2]
  show (match l with | '\"' :: r => some r | _ => none) = none
  split
  · exact absurd rfl (h3 _)
  · rfl

theorem matchThickUnit_pair (s t : List Char) (h : sig s = sig t) :
    (matchThickUnit s = none ∧ matchThickUnit t = none) ∨
    ∃ rs rt, matchThickUnit s = some rs ∧ matchThickUnit t = some rt ∧ sig rs = sig rt := by
  have hinch : ∀ p ∈ "inch".toList, chunkChar p.toLower = false := by decide
  have hin : ∀ p ∈ "in".toList, chunkChar p.toLower = false := by decide
  rcases matchLitCI_pair "inch".toList s t hinch h with ⟨hs1, ht1⟩ | ⟨rs, rt, hs1, ht1, hsig1⟩
  · rcases matchLitCI_pair "in".toList s t hin h with ⟨hs2, ht2⟩ | ⟨rs, rt, hs2, ht2, hsig2⟩
    · cases hv : sig s with
      | nil =>
        left
        rw [sig_eq_nil s hv, sig_eq_nil t (by rw [← h, hv])]
        exact ⟨rfl, rfl⟩
      | cons k v =>
        cases k with
        | chr c =>
          obtain ⟨s2, rfl, hcnc, hsig_s2⟩ := sig_chr_inv s c v hv
          obtain ⟨t2, rfl, _, hsig_t2⟩ := sig_chr_inv t c v (by rw [← h, hv])
          by_cases hq : c = '\"'
          · subst hq
            exact Or.inr ⟨s2, t2, matchThickUnit_quote s2 hs1 hs2,
              matchThickUnit_quote t2 ht1 ht2, by rw [hsig_s2, hsig_t2]⟩
          · refine Or.inl ⟨matchThickUnit_none_shape _ hs1 hs2 ?_,
              matchThickUnit_none_shape _ ht1 ht2 ?_⟩
            · intro r hcon
              injection hcon with h1 _
              exact hq h1
            · intro r hcon
              injection hcon with h1 _
              exact hq h1
        | ws =>
          obtain ⟨cs2, s2, rfl, hcs⟩ := gap_head_of_sig _ Key.ws v (Or.inl rfl) hv
          obtain ⟨ct2, t2, rfl, hct⟩ :=
            gap_head_of_sig _ Key.ws v (Or.inl rfl) (by rw [← h, hv])
          refine Or.inl ⟨matchThickUnit_none_shape _ hs1 hs2 ?_,
            matchThickUnit_none_shape _ ht1 ht2 ?_⟩
          · intro r hcon
            injection hcon with h1 _
            exact chunk_head_ne cs2 '\"' hcs (by decide) h1
          · intro r hcon
            injection hcon with h1 _
            exact chunk_head_ne ct2 '\"' hct (by decide) h1
        | blocked =>
          obtain ⟨cs2, s2, rfl, hcs⟩ := gap_head_of_sig _ Key.blocked v (Or.inr rfl) hv
          obtain ⟨ct2, t2, rfl, hct⟩ :=
            gap_head_of_sig _ Key.blocked v (Or.inr rfl) (by rw [← h, hv])
          refine Or.inl ⟨matchThickUnit_none_shape _ hs1 hs2 ?_,
            matchThickUnit_none_shape _ ht1 ht2 ?_⟩
          · intro r hcon
            injection hcon with h1 _
            exact chunk_head_ne cs2 '\"' hcs (by decide) h1
          · intro r hcon
            injection hcon with h1 _
            exact chunk_head_ne ct2 '\"' hct (by decide) h1
    · exact Or.inr ⟨rs, rt, matchThickUnit_in s rs hs1 hs2, matchThickUnit_in t rt ht1 ht2,
        hsig2⟩
  · exact Or.inr ⟨rs, rt, matchThickUnit_inch s rs hs1, matchThickUnit_inch t rt ht1, hsig1⟩

/-! Shape-preservation of the three dimension matchers at one position. -/

theorem chunk_not_x (c : Char) (hc : chunkChar c = true) : isXChar c = false := by
  simp [isXChar, chunk_ne c 'x' hc (by decide), chunk_ne c 'X' hc (by decide),
    chunk_ne c '×' hc (by decide)]

theorem matchNumber_chunk_head (c : Char) (cs : List Char) (hc : chunkChar c = true) :
    matchNumber (c :: cs) = none := by
  apply matchNumber_none
  rw [List.takeWhile_cons_of_neg (by simp [chunk_not_digit c hc])]
  rfl

theorem matchInchAt_none_num (l : List Char) (h : matchNumber l = none) :
    matchInchAt l = none := by
  simp only [matchInchAt, h]

theorem matchInchAt_mid_nil (l w r1 : List Char) (hn : matchNumber l = some (w, r1))
    (hm : dropWS (parenOpt 'w' (dropWS (quoteOpt (dropWS r1)))) = []) :
    matchInchAt l = none := by
  simp only [matchInchAt, hn, hm]

theorem matchInchAt_mid_notx (l w r1 : List Char) (c : Char) (r7 : List Char)
    (hn : matchNumber l = some (w, r1))
    (hm : dropWS (parenOpt 'w' (dropWS (quoteOpt (dropWS r1)))) = c :: r7)
    (hx : isXChar c = false) :
    matchInchAt l = none := by
  simp only [matchInchAt, hn, hm, hx, Bool.false_eq_true, if_false]

theorem matchInchAt_num2_none (l w r1 : List Char) (c : Char) (r7 : List Char)
    (hn : matchNumber l = some (w, r1))
    (hm : dropWS (parenOpt 'w' (dropWS (quoteOpt (dropWS r1)))) = c :: r7)
    (hx : isXChar c = true)
    (hn2 : matchNumber (dropWS r7) = none) :
    matchInchAt l = none := by
  simp only [matchInchAt, hn, hm, hx, if_true, hn2]

theorem matchInchAt_some (l w r1 : List Char) (c : Char) (r7 ln r9 : List Char)
    (hn : matchNumber l = some (w, r1))
    (hm : dropWS (parenOpt 'w' (dropWS (quoteOpt (dropWS r1)))) = c :: r7)
    (hx : isXChar c = true)
    (hn2 : matchNumber (dropWS r7) = some (ln, r9)) :
    matchInchAt l =
      some (String.mk w, String.mk ln, parenOpt 'l' (dropWS (quoteOpt (dropWS r9)))) := by
  simp only [matchInchAt, hn, hm, hx, if_true, hn2]

theorem matchInchAt_chunk_head (c : Char) (cs : List Char) (hc : chunkChar c = true) :
    matchInchAt (c :: cs) = none :=
  matchInchAt_none_num _ (matchNumber_chunk_head c cs hc)

theorem matchInchAt_pair (s t : List Char) (h : sig s = sig t) :
    (matchInchAt s = none ∧ matchInchAt t = none) ∨
    ∃ w ln rs rt, matchInchAt s = some (w, ln, rs) ∧ matchInchAt t = some (w, ln, rt) ∧
      sig rs = sig rt := by
  rcases matchNumber_pair s t h with ⟨hns, hnt⟩ | ⟨n1, rs1, rt1, hns, hnt, hsig1⟩
  · exact Or.inl ⟨matchInchAt_none_num s hns, matchInchAt_none_num t hnt⟩
  · have h6 : sig (dropWS (parenOpt 'w' (dropWS (quoteOpt (dropWS rs1))))) =
        sig (dropWS (parenOpt 'w' (dropWS (quoteOpt (dropWS rt1))))) :=
      sig_dropWS_pair _ _ (parenOpt_pair 'w' (by decide) _ _
        (sig_dropWS_pair _ _ (quoteOpt_pair _ _ (sig_dropWS_pair _ _ hsig1))))
    cases hv : sig (dropWS (parenOpt 'w' (dropWS (quoteOpt (dropWS rs1))))) with
    | nil =>
      have hms : dropWS (parenOpt 'w' (dropWS (quoteOpt (dropWS rs1)))) = [] := sig_eq_nil _ hv
      have hmt : dropWS (parenOpt 'w' (dropWS (quoteOpt (dropWS rt1)))) = [] :=
        sig_eq_nil _ (by rw [← h6, hv])
      exact Or.inl ⟨matchInchAt_mid_nil s n1 rs1 hns hms, matchInchAt_mid_nil t n1 rt1 hnt hmt⟩
    | cons k v =>
      cases k with
      | chr c =>
        obtain ⟨us2, hus, hcnc, hsig_us⟩ := sig_chr_inv _ c v hv
        obtain ⟨ut2, hut, _, hsig_ut⟩ := sig_chr_inv _ c v (by rw [← h6, hv])
        by_cases hx : isXChar c = true
        · have h7 : sig (dropWS us2) = sig (dropWS ut2) :=
            sig_dropWS_pair us2 ut2 (by rw [hsig_us, hsig_ut])
          rcases matchNumber_pair (dropWS us2) (dropWS ut2) h7 with
            ⟨hn2s, hn2t⟩ | ⟨n2, rs9, rt9, hn2s, hn2t, hsig9⟩
          · exact Or.inl ⟨matchInchAt_num2_none s n1 rs1 c us2 hns hus hx hn2s,
              matchInchAt_num2_none t n1 rt1 c ut2 hnt hut hx hn2t⟩
          · refine Or.inr ⟨String.mk n1, String.mk n2, _, _,
              matchInchAt_some s n1 rs1 c us2 n2 rs9 hns hus hx hn2s,
              matchInchAt_some t n1 rt1 c ut2 n2 rt9 hnt hut hx hn2t, ?_⟩
            exact parenOpt_pair 'l' (by decide) _ _
              (sig_dropWS_pair _ _ (quoteOpt_pair _ _ (sig_dropWS_pair _ _ hsig9)))
        · have hxf : isXChar c = false := by simpa using hx
          exact Or.inl ⟨matchInchAt_mid_notx s n1 rs1 c us2 hns hus hxf,
            matchInchAt_mid_notx t n1 rt1 c ut2 hnt hut hxf⟩
      | ws =>
        obtain ⟨cu, us2, hus, hcu⟩ := gap_head_of_sig _ Key.ws v (Or.inl rfl) hv
        obtain ⟨cv, ut2, hut, hcv⟩ := gap_head_of_sig _ Key.ws v (Or.inl rfl) (by rw [← h6, hv])
        exact Or.inl ⟨matchInchAt_mid_notx s n1 rs1 cu us2 hns hus (chunk_not_x cu hcu),
          matchInchAt_mid_notx t n1 rt1 cv ut2 hnt hut (chunk_not_x cv hcv)⟩
      | blocked =>
        obtain ⟨cu, us2, hus, hcu⟩ := gap_head_of_sig _ Key.blocked v (Or.inr rfl) hv
        obtain ⟨cv, ut2, hut, hcv⟩ :=
          gap_head_of_sig _ Key.blocked v (Or.inr rfl) (by rw [← h6, hv])
        exact Or.inl ⟨matchInchAt_mid_notx s n1 rs1 cu us2 hns hus (chunk_not_x cu hcu),
          matchInchAt_mid_notx t n1 rt1 cv ut2 hnt hut (chunk_not_x cv hcv)⟩

theorem matchCmAt_none_num (l : List Char) (h : matchNumber l = none) :
    matchCmAt l = none := by
  simp only [matchCmAt, h]

theorem matchCmAt_none_cm1 (l w r1 : List Char) (hn : matchNumber l = some (w, r1))
    (hc : matchLitCI "cm".toList (dropWS r1) = none) :
    matchCmAt l = none := by
  simp only [matchCmAt, hn, hc]

theorem matchCmAt_mid_nil (l w r1 r2 : List Char) (hn : matchNumber l = some (w, r1))
    (hc : matchLitCI "cm".toList (dropWS r1) = some r2)
    (hm : dropWS r2 = []) :
    matchCmAt l = none := by
  simp only [matchCmAt, hn, hc, hm]

theorem matchCmAt_mid_notx (l w r1 r2 : List Char) (c : Char) (r3 : List Char)
    (hn : matchNumber l = some (w, r1))
    (hc : matchLitCI "cm".toList (dropWS r1) = some r2)
    (hm : dropWS r2 = c :: r3)
    (hx : isXChar c = false) :
    matchCmAt l = none := by
  simp only [matchCmAt, hn, hc, hm, hx, Bool.false_eq_true, if_false]

theorem matchCmAt_num2_none (l w r1 r2 : List Char) (c : Char) (r3 : List Char)
    (hn : matchNumber l = some (w, r1))
    (hc : matchLitCI "cm".toList (dropWS r1) = some r2)
    (hm : dropWS r2 = c :: r3)
    (hx : isXChar c = true)
    (hn2 : matchNumber (dropWS r3) = none) :
    matchCmAt l = none := by
  simp only [matchCmAt, hn, hc, hm, hx, if_true, hn2]

theorem matchCmAt_none_cm2 (l w r1 r2 : List Char) (c : Char) (r3 ln r4 : List Char)
    (hn : matchNumber l = some (w, r1))
    (hc : matchLitCI "cm".toList (dropWS r1) = some r2)
    (hm : dropWS r2 = c :: r3)
    (hx : isXChar c = true)
    (hn2 : matchNumber (dropWS r3) = some (ln, r4))
    (hc2 : matchLitCI "cm".toList (dropWS r4) = none) :
    matchCmAt l = none := by
  simp only [matchCmAt, hn, hc, hm, hx, if_true, hn2, hc2]

theorem matchCmAt_some (l w r1 r2 : List Char) (c : Char) (r3 ln r4 r5 : List Char)
    (hn : matchNumber l = some (w, r1))
    (hc : matchLitCI "cm".toList (dropWS r1) = some r2)
    (hm : dropWS r2 = c :: r3)
    (hx : isXChar c = true)
    (hn2 : matchNumber (dropWS r3) = some (ln, r4))
    (hc2 : matchLitCI "cm".toList (dropWS r4) = some r5) :
    matchCmAt l = some (String.mk w, String.mk ln, r5) := by
  simp only [matchCmAt, hn, hc, hm, hx, if_true, hn2, hc2]

theorem matchCmAt_chunk_head (c : Char) (cs : List Char) (hc : chunkChar c = true) :
    matchCmAt (c :: cs) = none :=
  matchCmAt_none_num _ (matchNumber_chunk_head c cs hc)

theorem matchCmAt_pair (s t : List Char) (h : sig s = sig t) :
    (matchCmAt s = none ∧ matchCmAt t = none) ∨
    ∃ w ln rs rt, matchCmAt s = some (w, ln, rs) ∧ matchCmAt t = some (w, ln, rt) ∧
      sig rs = sig rt := by
  have hcm : ∀ p ∈ "cm".toList, chunkChar p.toLower = false := by decide
  rcases matchNumber_pair s t h with ⟨hns, hnt⟩ | ⟨n1, rs1, rt1, hns, hnt, hsig1⟩
  · exact Or.inl ⟨matchCmAt_none_num s hns, matchCmAt_none_num t hnt⟩
  · rcases matchLitCI_pair "cm".toList (dropWS rs1) (dropWS rt1) hcm
      (sig_dropWS_pair _ _ hsig1) with ⟨hcs, hct⟩ | ⟨r2s, r2t, hcs, hct, hsig2⟩
    · exact Or.inl ⟨matchCmAt_none_cm1 s n1 rs1 hns hcs, matchCmAt_none_cm1 t n1 rt1 hnt hct⟩
    · have h6 : sig (dropWS r2s) = sig (dropWS r2t) := sig_dropWS_pair _ _ hsig2
      cases hv : sig (dropWS r2s) with
      | nil =>
        have hms : dropWS r2s = [] := sig_eq_nil _ hv
        have hmt : dropWS r2t = [] := sig_eq_nil _ (by rw [← h6, hv])
        exact Or.inl ⟨matchCmAt_mid_nil s n1 rs1 r2s hns hcs hms,
          matchCmAt_mid_nil t n1 rt1 r2t hnt hct hmt⟩
      | cons k v =>
        cases k with
        | chr c =>
          obtain ⟨us2, hus, hcnc, hsig_us⟩ := sig_chr_inv _ c v hv
          obtain ⟨ut2, hut, _, hsig_ut⟩ := sig_chr_inv _ c v (by rw [← h6, hv])
          by_cases hx : isXChar c = true
          · have h7 : sig (dropWS us2) = sig (dropWS ut2) :=
              sig_dropWS_pair us2 ut2 (by rw [hsig_us, hsig_ut])
            rcases matchNumber_pair (dropWS us2) (dropWS ut2) h7 with
              ⟨hn2s, hn2t⟩ | ⟨n2, rs4, rt4, hn2s, hn2t, hsig4⟩
            · exact Or.inl ⟨matchCmAt_num2_none s n1 rs1 r2s c us2 hns hcs hus hx hn2s,
                matchCmAt_num2_none t n1 rt1 r2t c ut2 hnt hct hut hx hn2t⟩
            · rcases matchLitCI_pair "cm".toList (dropWS rs4) (dropWS rt4) hcm
                (sig_dropWS_pair _ _ hsig4) with ⟨hc2s, hc2t⟩ | ⟨r5s, r5t, hc2s, hc2t, hsig5⟩
              · exact Or.inl
                  ⟨matchCmAt_none_cm2 s n1 rs1 r2s c us2 n2 rs4 hns hcs hus hx hn2s hc2s,
                   matchCmAt_none_cm2 t n1 rt1 r2t c ut2 n2 rt4 hnt hct hut hx hn2t hc2t⟩
              · exact Or.inr ⟨String.mk n1, String.mk n2, r5s, r5t,
                  matchCmAt_some s n1 rs1 r2s c us2 n2 rs4 r5s hns hcs hus hx hn2s hc2s,
                  matchCmAt_some t n1 rt1 r2t c ut2 n2 rt4 r5t hnt hct hut hx hn2t hc2t,
                  hsig5⟩
          · have hxf : isXChar c = false := by simpa using hx
            exact Or.inl ⟨matchCmAt_mid_notx s n1 rs1 r2s c us2 hns hcs hus hxf,
              matchCmAt_mid_notx t n1 rt1 r2t c ut2 hnt hct hut hxf⟩
        | ws =>
          obtain ⟨cu, us2, hus, hcu⟩ := gap_head_of_sig _ Key.ws v (Or.inl rfl) hv
          obtain ⟨cv, ut2, hut, hcv⟩ :=
            gap_head_of_sig _ Key.ws v (Or.inl rfl) (by rw [← h6, hv])
          exact Or.inl ⟨matchCmAt_mid_notx s n1 rs1 r2s cu us2 hns hcs hus (chunk_not_x cu hcu),
            matchCmAt_mid_notx t n1 rt1 r2t cv ut2 hnt hct hut (chunk_not_x cv hcv)⟩
        | blocked =>
          obtain ⟨cu, us2, hus, hcu⟩ := gap_head_of_sig _ Key.blocked v (Or.inr rfl) hv
          obtain ⟨cv, ut2, hut, hcv⟩ :=
            gap_head_of_sig _ Key.blocked v (Or.inr rfl) (by rw [← h6, hv])
          exact Or.inl ⟨matchCmAt_mid_notx s n1 rs1 r2s cu us2 hns hcs hus (chunk_not_x cu hcu),
            matchCmAt_mid_notx t n1 rt1 r2t cv ut2 hnt hct hut (chunk_not_x cv hcv)⟩

theorem thickAt_kw_num_none (l r : List Char)
    (hkw : matchLitCI "thickness".toList l = some r)
    (hn : matchNumber (r.dropWhile (fun c => c == ':' || isPySpace c)) = none) :
    matchThickAt l = none := by
  simp only [matchThickAt, hkw, hn]

theorem thickAt_kw_unit_none (l r tk r2 : List Char)
    (hkw : matchLitCI "thickness".toList l = some r)
    (hn : matchNumber (r.dropWhile (fun c => c == ':' || isPySpace c)) = some (tk, r2))
    (hu : matchThickUnit (dropWS r2) = none) :
    matchThickAt l = none := by
  simp only [matchThickAt, hkw, hn, hu]

theorem thickAt_kw_some (l r tk r2 rest : List Char)
    (hkw : matchLitCI "thickness".toList l = some r)
    (hn : matchNumber (r.dropWhile (fun c => c == ':' || isPySpace c)) = some (tk, r2))
    (hu : matchThickUnit (dropWS r2) = some rest) :
    matchThickAt l = some (String.mk tk, rest) := by
  simp only [matchThickAt, hkw, hn, hu]

theorem thickAt_nokw_num_none (l : List Char)
    (hkw : matchLitCI "thickness".toList l = none)
    (hn : matchNumber l = none) :
    matchThickAt l = none := by
  simp only [matchThickAt, hkw, hn]

theorem thickAt_nokw_unit_none (l tk r2 : List Char)
    (hkw : matchLitCI "thickness".toList l = none)
    (hn : matchNumber l = some (tk, r2))
    (hu : matchThickUnit (dropWS r2) = none) :
    matchThickAt l = none := by
  simp only [matchThickAt, hkw, hn, hu]

theorem thickAt_nokw_some (l tk r2 rest : List Char)
    (hkw : matchLitCI "thickness".toList l = none)
    (hn : matchNumber l = some (tk, r2))
    (hu : matchThickUnit (dropWS r2) = some rest) :
    matchThickAt l = some (String.mk tk, rest) := by
  simp only [matchThickAt, hkw, hn, hu]

theorem matchThickAt_chunk_head (c : Char) (cs : List Char) (hc : chunkChar c = true) :
    matchThickAt (c :: cs) = none := by
  have hkw : matchLitCI "thickness".toList (c :: cs) = none := by
    show matchLitCI ('t' :: "hickness".toList) (c :: cs) = none
    exact matchLitCI_cons_neg 't' c _ cs
      (by rw [chunk_toLower_self c hc]; exact nonchunk_beq_chunk _ c (by decide) hc)
  exact thickAt_nokw_num_none _ hkw (matchNumber_chunk_head c cs hc)

theorem matchThickAt_pair (s t : List Char) (h : sig s = sig t) :
    (matchThickAt s = none ∧ matchThickAt t = none) ∨
    ∃ tk rs rt, matchThickAt s = some (tk, rs) ∧ matchThickAt t = some (tk, rt) ∧
      sig rs = sig rt := by
  have hth : ∀ p ∈ "thickness".toList, chunkChar p.toLower = false := by decide
  rcases matchLitCI_pair "thickness".toList s t hth h with
    ⟨hkws, hkwt⟩ | ⟨rs0, rt0, hkws, hkwt, hsig0⟩
  · rcases matchNumber_pair s t h with ⟨hns, hnt⟩ | ⟨tk, rs2, rt2, hns, hnt, hsig2⟩
    · exact Or.inl ⟨thickAt_nokw_num_none s hkws hns, thickAt_nokw_num_none t hkwt hnt⟩
    · rcases matchThickUnit_pair (dropWS rs2) (dropWS rt2) (sig_dropWS_pair _ _ hsig2)
        with ⟨hus, hut⟩ | ⟨rests, restt, hus, hut, hsigr⟩
      · exact Or.inl ⟨thickAt_nokw_unit_none s tk rs2 hkws hns hus,
          thickAt_nokw_unit_none t tk rt2 hkwt hnt hut⟩
      · exact Or.inr ⟨String.mk tk, rests, restt,
          thickAt_nokw_some s tk rs2 rests hkws hns hus,
          thickAt_nokw_some t tk rt2 restt hkwt hnt hut, hsigr⟩
  · have hcol : sig (rs0.dropWhile (fun c => c == ':' || isPySpace c)) =
        sig (rt0.dropWhile (fun c => c == ':' || isPySpace c)) :=
      sig_dropColonWS_pair rs0.length rs0 rt0 (Nat.le_refl _) hsig0
    rcases matchNumber_pair _ _ hcol with ⟨hns, hnt⟩ | ⟨tk, rs2, rt2, hns, hnt, hsig2⟩
    · exact Or.inl ⟨thickAt_kw_num_none s rs0 hkws hns, thickAt_kw_num_none t rt0 hkwt hnt⟩
    · rcases matchThickUnit_pair (dropWS rs2) (dropWS rt2) (sig_dropWS_pair _ _ hsig2)
        with ⟨hus, hut⟩ | ⟨rests, restt, hus, hut, hsigr⟩
      · exact Or.inl ⟨thickAt_kw_unit_none s rs0 tk rs2 hkws hns hus,
          thickAt_kw_unit_none t rt0 tk rt2 hkwt hnt hut⟩
      · exact Or.inr ⟨String.mk tk, rests, restt,
          thickAt_kw_some s rs0 tk rs2 rests hkws hns hus,
          thickAt_kw_some t rt0 tk rt2 restt hkwt hnt hut, hsigr⟩

/-! Correspondence of the inch-pair position scan on shape-equal texts. -/

theorem findInchGo_cons (fuel : Nat) (c : Char) (cs : List Char) :
    findInchGo (fuel + 1) (c :: cs) =
      match matchInchAt (c :: cs) with
      | some (w, ln, rest) => some ([], w, ln, rest)
      | none =>
        match findInchGo fuel cs with
        | some (pre, w, ln, rest) => some (c :: pre, w, ln, rest)
        | none => none := rfl

theorem findInchGo_skip : ∀ (r s2 : List Char), (∀ c ∈ r, chunkChar c = true) →
    findInchGo ((r ++ s2).length + 1) (r ++ s2) =
      match findInchGo (s2.length + 1) s2 with
      | some (pre, w, ln, rest) => some (r ++ pre, w, ln, rest)
      | none => none := by
  intro r
  induction r with
  | nil =>
    intro s2 _
    simp only [List.nil_append]
    cases hf : findInchGo (s2.length + 1) s2 with
    | none => rfl
    | some x =>
      obtain ⟨pre, w, ln, rest⟩ := x
      rfl
  | cons c r2 ih =>
    intro s2 hall
    have hc : chunkChar c = true := hall c (by simp)
    rw [List.cons_append,
      show (c :: (r2 ++ s2)).length + 1 = ((r2 ++ s2).length + 1) + 1 by simp,
      findInchGo_cons ((r2 ++ s2).length + 1) c (r2 ++ s2),
      matchInchAt_chunk_head c _ hc,
      ih s2 (fun d hd => hall d (by simp [hd]))]
    cases hf : findInchGo (s2.length + 1) s2 with
    | none => rfl
    | some x =>
      obtain ⟨pre, w, ln, rest⟩ := x
      rfl

theorem findInch_pair : ∀ (n : Nat) (s t : List Char), s.length ≤ n → sig s = sig t →
    (findInchGo (s.length + 1) s = none ∧ findInchGo (t.length + 1) t = none) ∨
    ∃ ps pt w ln rs rt,
      findInchGo (s.length + 1) s = some (ps, w, ln, rs) ∧
      findInchGo (t.length + 1) t = some (pt, w, ln, rt) ∧
      sig rs = sig rt ∧
      (headNonChunk s → headNonChunk ps) ∧ (headNonChunk t → headNonChunk pt) ∧
      (∀ Zs Zt, sig Zs = sig Zt → headNonChunk Zs → headNonChunk Zt →
        sig (ps ++ Zs) = sig (pt ++ Zt)) := by
  intro n
  induction n with
  | zero =>
    intro s t hl h
    have hs : s = [] := List.length_eq_zero.mp (Nat.le_zero.mp hl)
    subst hs
    have ht : t = [] := sig_eq_nil t (by rw [← h]; rfl)
    subst ht
    exact Or.inl ⟨rfl, rfl⟩
  | succ n ih =>
    intro s t hl h
    cases hv : sig s with
    | nil =>
      have hs : s = [] := sig_eq_nil s hv
      subst hs
      have ht : t = [] := sig_eq_nil t (by rw [← h, hv])
      subst ht
      exact Or.inl ⟨rfl, rfl⟩
    | cons k v =>
      cases k with
      | chr c =>
        obtain ⟨s2, rfl, hcnc, hsig_s2⟩ := sig_chr_inv s c v hv
        obtain ⟨t2, rfl, _, hsig_t2⟩ := sig_chr_inv t c v (by rw [← h, hv])
        have hst2 : sig s2 = sig t2 := by rw [hsig_s2, hsig_t2]
        rw [show (c :: s2).length + 1 = (s2.length + 1) + 1 by simp,
          show (c :: t2).length + 1 = (t2.length + 1) + 1 by simp,
          findInchGo_cons (s2.length + 1) c s2, findInchGo_cons (t2.length + 1) c t2]
        rcases matchInchAt_pair (c :: s2) (c :: t2) h with
          ⟨hms, hmt⟩ | ⟨w, ln, rs, rt, hms, hmt, hsigr⟩
        · rw [hms, hmt]
          have hl2 : s2.length ≤ n := by
            have : s2.length + 1 ≤ n + 1 := by simpa using hl
            omega
          rcases ih s2 t2 hl2 hst2 with
            ⟨hfs, hft⟩ | ⟨ps, pt, w, ln, rs, rt, hfs, hft, hsigr, hhs, hht, hcont⟩
          · rw [hfs, hft]
            exact Or.inl ⟨rfl, rfl⟩
          · right
            refine ⟨c :: ps, c :: pt, w, ln, rs, rt, ?_, ?_, hsigr, ?_, ?_, ?_⟩
            · rw [hfs]
            · rw [hft]
            · intro _
              exact hcnc
            · intro _
              exact hcnc
            · intro Zs Zt hZ hhz hht2
              rw [List.cons_append, List.cons_append, sig_cons_nonchunk c _ hcnc,
                sig_cons_nonchunk c _ hcnc, hcont Zs Zt hZ hhz hht2]
        · rw [hms, hmt]
          right
          refine ⟨[], [], w, ln, rs, rt, rfl, rfl, hsigr,
            fun _ => trivial, fun _ => trivial, ?_⟩
          intro Zs Zt hZ _ _
          simpa using hZ
      | ws =>
        obtain ⟨rrs, s2, rfl, hne_s, hall_s, hkey_s, hhead_s, hsig_s⟩ :=
          sig_gap_inv s Key.ws v (Or.inl rfl) hv
        obtain ⟨rrt, t2, rfl, hne_t, hall_t, hkey_t, hhead_t, hsig_t⟩ :=
          sig_gap_inv t Key.ws v (Or.inl rfl) (by rw [← h, hv])
        rw [findInchGo_skip rrs s2 hall_s, findInchGo_skip rrt t2 hall_t]
        have hl2 : s2.length ≤ n := by
          have h1 : 1 ≤ rrs.length := by
            cases rrs with
            | nil => exact absurd rfl hne_s
            | cons a b => simp
          have h2 : (rrs ++ s2).length ≤ n + 1 := hl
          simp only [List.length_append] at h2
          omega
        rcases ih s2 t2 hl2 (by rw [hsig_s, hsig_t]) with
          ⟨hfs, hft⟩ | ⟨ps, pt, w, ln, rs, rt, hfs, hft, hsigr, hhs, hht, hcont⟩
        · rw [hfs, hft]
          exact Or.inl ⟨rfl, rfl⟩
        · right
          refine ⟨rrs ++ ps, rrt ++ pt, w, ln, rs, rt, ?_, ?_, hsigr, ?_, ?_, ?_⟩
          · rw [hfs]
          · rw [hft]
          · intro hcon
            exfalso
            cases rrs with
            | nil => exact hne_s rfl
            | cons a b =>
              have ha : chunkChar a = false := hcon
              rw [hall_s a (by simp)] at ha
              exact Bool.noConfusion ha
          · intro hcon
            exfalso
            cases rrt with
            | nil => exact hne_t rfl
            | cons a b =>
              have ha : chunkChar a = false := hcon
              rw [hall_t a (by simp)] at ha
              exact Bool.noConfusion ha
          · intro Zs Zt hZ hhz hht2
            have hx : headNonChunk (ps ++ Zs) :=
              headNonChunk_append ps Zs (hhs hhead_s) (fun _ => hhz)
            have hxt : headNonChunk (pt ++ Zt) :=
              headNonChunk_append pt Zt (hht hhead_t) (fun _ => hht2)
            rw [List.append_assoc, List.append_assoc,
              sig_run_append rrs (ps ++ Zs) hne_s hall_s hx,
              sig_run_append rrt (pt ++ Zt) hne_t hall_t hxt,
              hkey_s, hkey_t, hcont Zs Zt hZ hhz hht2]
      | blocked =>
        obtain ⟨rrs, s2, rfl, hne_s, hall_s, hkey_s, hhead_s, hsig_s⟩ :=
          sig_gap_inv s Key.blocked v (Or.inr rfl) hv
        obtain ⟨rrt, t2, rfl, hne_t, hall_t, hkey_t, hhead_t, hsig_t⟩ :=
          sig_gap_inv t Key.blocked v (Or.inr rfl) (by rw [← h, hv])
        rw [findInchGo_skip rrs s2 hall_s, findInchGo_skip rrt t2 hall_t]
        have hl2 : s2.length ≤ n := by
          have h1 : 1 ≤ rrs.length := by
            cases rrs with
            | nil => exact absurd rfl hne_s
            | cons a b => simp
          have h2 : (rrs ++ s2).length ≤ n + 1 := hl
          simp only [List.length_append] at h2
          omega
        rcases ih s2 t2 hl2 (by rw [hsig_s, hsig_t]) with
          ⟨hfs, hft⟩ | ⟨ps, pt, w, ln, rs, rt, hfs, hft, hsigr, hhs, hht, hcont⟩
        · rw [hfs, hft]
          exact Or.inl ⟨rfl, rfl⟩
        · right
          refine ⟨rrs ++ ps, rrt ++ pt, w, ln, rs, rt, ?_, ?_, hsigr, ?_, ?_, ?_⟩
          · rw [hfs]
          · rw [hft]
          · intro hcon
            exfalso
            cases rrs with
            | nil => exact hne_s rfl
            | cons a b =>
              have ha : chunkChar a = false := hcon
              rw [hall_s a (by simp)] at ha
              exact Bool.noConfusion ha
          · intro hcon
            exfalso
            cases rrt with
            | nil => exact hne_t rfl
            | cons a b =>
              have ha : chunkChar a = false := hcon
              rw [hall_t a (by simp)] at ha
              exact Bool.noConfusion ha
          · intro Zs Zt hZ hhz hht2
            have hx : headNonChunk (ps ++ Zs) :=
              headNonChunk_append ps Zs (hhs hhead_s) (fun _ => hhz)
            have hxt : headNonChunk (pt ++ Zt) :=
              headNonChunk_append pt Zt (hht hhead_t) (fun _ => hht2)
            rw [List.append_assoc, List.append_assoc,
              sig_run_append rrs (ps ++ Zs) hne_s hall_s hx,
              sig_run_append rrt (pt ++ Zt) hne_t hall_t hxt,
              hkey_s, hkey_t, hcont Zs Zt hZ hhz hht2]

/-! Correspondence of the centimeter and thickness position scans on
shape-equal texts. -/

theorem findCmGo_cons (fuel : Nat) (c : Char) (cs : List Char) :
    findCmGo (fuel + 1) (c :: cs) =
      match matchCmAt (c :: cs) with
      | some (w, ln, rest) => some ([], w, ln, rest)
      | none =>
        match findCmGo fuel cs with
        | some (pre, w, ln, rest) => some (c :: pre, w, ln, rest)
        | none => none := rfl

theorem findCmGo_skip : ∀ (r s2 : List Char), (∀ c ∈ r, chunkChar c = true) →
    findCmGo ((r ++ s2).length + 1) (r ++ s2) =
      match findCmGo (s2.length + 1) s2 with
      | some (pre, w, ln, rest) => some (r ++ pre, w, ln, rest)
      | none => none := by
  intro r
  induction r with
  | nil =>
    intro s2 _
    simp only [List.nil_append]
    cases hf : findCmGo (s2.length + 1) s2 with
    | none => rfl
    | some x =>
      obtain ⟨pre, w, ln, rest⟩ := x
      rfl
  | cons c r2 ih =>
    intro s2 hall
    have hc : chunkChar c = true := hall c (by simp)
    rw [List.cons_append,
      show (c :: (r2 ++ s2)).length + 1 = ((r2 ++ s2).length + 1) + 1 by simp,
      findCmGo_cons ((r2 ++ s2).length + 1) c (r2 ++ s2),
      matchCmAt_chunk_head c _ hc,
      ih s2 (fun d hd => hall d (by simp [hd]))]
    cases hf : findCmGo (s2.length + 1) s2 with
    | none => rfl
    | some x =>
      obtain ⟨pre, w, ln, rest⟩ := x
      rfl

theorem findCm_pair : ∀ (n : Nat) (s t : List Char), s.length ≤ n → sig s = sig t →
    (findCmGo (s.length + 1) s = none ∧ findCmGo (t.length + 1) t = none) ∨
    ∃ ps pt w ln rs rt,
      findCmGo (s.length + 1) s = some (ps, w, ln, rs) ∧
      findCmGo (t.length + 1) t = some (pt, w, ln, rt) ∧
      sig rs = sig rt ∧
      (headNonChunk s → headNonChunk ps) ∧ (headNonChunk t → headNonChunk pt) ∧
      (∀ Zs Zt, sig Zs = sig Zt → headNonChunk Zs → headNonChunk Zt →
        sig (ps ++ Zs) = sig (pt ++ Zt)) := by
  intro n
  induction n with
  | zero =>
    intro s t hl h
    have hs : s = [] := List.length_eq_zero.mp (Nat.le_zero.mp hl)
    subst hs
    have ht : t = [] := sig_eq_nil t (by rw [← h]; rfl)
    subst ht
    exact Or.inl ⟨rfl, rfl⟩
  | succ n ih =>
    intro s t hl h
    cases hv : sig s with
    | nil =>
      have hs : s = [] := sig_eq_nil s hv
      subst hs
      have ht : t = [] := sig_eq_nil t (by rw [← h, hv])
      subst ht
      exact Or.inl ⟨rfl, rfl⟩
    | cons k v =>
      cases k with
      | chr c =>
        obtain ⟨s2, rfl, hcnc, hsig_s2⟩ := sig_chr_inv s c v hv
        obtain ⟨t2, rfl, _, hsig_t2⟩ := sig_chr_inv t c v (by rw [← h, hv])
        have hst2 : sig s2 = sig t2 := by rw [hsig_s2, hsig_t2]
        rw [show (c :: s2).length + 1 = (s2.length + 1) + 1 by simp,
          show (c :: t2).length + 1 = (t2.length + 1) + 1 by simp,
          findCmGo_cons (s2.length + 1) c s2, findCmGo_cons (t2.length + 1) c t2]
        rcases matchCmAt_pair (c :: s2) (c :: t2) h with
          ⟨hms, hmt⟩ | ⟨w, ln, rs, rt, hms, hmt, hsigr⟩
        · rw [hms, hmt]
          have hl2 : s2.length ≤ n := by
            have : s2.length + 1 ≤ n + 1 := by simpa using hl
            omega
          rcases ih s2 t2 hl2 hst2 with
            ⟨hfs, hft⟩ | ⟨ps, pt, w, ln, rs, rt, hfs, hft, hsigr, hhs, hht, hcont⟩
          · rw [hfs, hft]
            exact Or.inl ⟨rfl, rfl⟩
          · right
            refine ⟨c :: ps, c :: pt, w, ln, rs, rt, ?_, ?_, hsigr, ?_, ?_, ?_⟩
            · rw [hfs]
            · rw [hft]
            · intro _
              exact hcnc
            · intro _
              exact hcnc
            · intro Zs Zt hZ hhz hht2
              rw [List.cons_append, List.cons_append, sig_cons_nonchunk c _ hcnc,
                sig_cons_nonchunk c _ hcnc, hcont Zs Zt hZ hhz hht2]
        · rw [hms, hmt]
          right
          refine ⟨[], [], w, ln, rs, rt, rfl, rfl, hsigr,
            fun _ => trivial, fun _ => trivial, ?_⟩
          intro Zs Zt hZ _ _
          simpa using hZ
      | ws =>
        obtain ⟨rrs, s2, rfl, hne_s, hall_s, hkey_s, hhead_s, hsig_s⟩ :=
          sig_gap_inv s Key.ws v (Or.inl rfl) hv
        obtain ⟨rrt, t2, rfl, hne_t, hall_t, hkey_t, hhead_t, hsig_t⟩ :=
          sig_gap_inv t Key.ws v (Or.inl rfl) (by rw [← h, hv])
        rw [findCmGo_skip rrs s2 hall_s, findCmGo_skip rrt t2 hall_t]
        have hl2 : s2.length ≤ n := by
          have h1 : 1 ≤ rrs.length := by
            cases rrs with
            | nil => exact absurd rfl hne_s
            | cons a b => simp
          have h2 : (rrs ++ s2).length ≤ n + 1 := hl
          simp only [List.length_append] at h2
          omega
        rcases ih s2 t2 hl2 (by rw [hsig_s, hsig_t]) with
          ⟨hfs, hft⟩ | ⟨ps, pt, w, ln, rs, rt, hfs, hft, hsigr, hhs, hht, hcont⟩
        · rw [hfs, hft]
          exact Or.inl ⟨rfl, rfl⟩
        · right
          refine ⟨rrs ++ ps, rrt ++ pt, w, ln, rs, rt, ?_, ?_, hsigr, ?_, ?_, ?_⟩
          · rw [hfs]
          · rw [hft]
          · intro hcon
            exfalso
            cases rrs with
            | nil => exact hne_s rfl
            | cons a b =>
              have ha : chunkChar a = false := hcon
              rw [hall_s a (by simp)] at ha
              exact Bool.noConfusion ha
          · intro hcon
            exfalso
            cases rrt with
            | nil => exact hne_t rfl
            | cons a b =>
              have ha : chunkChar a = false := hcon
              rw [hall_t a (by simp)] at ha
              exact Bool.noConfusion ha
          · intro Zs Zt hZ hhz hht2
            have hx : headNonChunk (ps ++ Zs) :=
              headNonChunk_append ps Zs (hhs hhead_s) (fun _ => hhz)
            have hxt : headNonChunk (pt ++ Zt) :=
              headNonChunk_append pt Zt (hht hhead_t) (fun _ => hht2)
            rw [List.append_assoc, List.append_assoc,
              sig_run_append rrs (ps ++ Zs) hne_s hall_s hx,
              sig_run_append rrt (pt ++ Zt) hne_t hall_t hxt,
              hkey_s, hkey_t, hcont Zs Zt hZ hhz hht2]
      | blocked =>
        obtain ⟨rrs, s2, rfl, hne_s, hall_s, hkey_s, hhead_s, hsig_s⟩ :=
          sig_gap_inv s Key.blocked v (Or.inr rfl) hv
        obtain ⟨rrt, t2, rfl, hne_t, hall_t, hkey_t, hhead_t, hsig_t⟩ :=
          sig_gap_inv t Key.blocked v (Or.inr rfl) (by rw [← h, hv])
        rw [findCmGo_skip rrs s2 hall_s, findCmGo_skip rrt t2 hall_t]
        have hl2 : s2.length ≤ n := by
          have h1 : 1 ≤ rrs.length := by
            cases rrs with
            | nil => exact absurd rfl hne_s
            | cons a b => simp
          have h2 : (rrs ++ s2).length ≤ n + 1 := hl
          simp only [List.length_append] at h2
          omega
        rcases ih s2 t2 hl2 (by rw [hsig_s, hsig_t]) with
          ⟨hfs, hft⟩ | ⟨ps, pt, w, ln, rs, rt, hfs, hft, hsigr, hhs, hht, hcont⟩
        · rw [hfs, hft]
          exact Or.inl ⟨rfl, rfl⟩
        · right
          refine ⟨rrs ++ ps, rrt ++ pt, w, ln, rs, rt, ?_, ?_, hsigr, ?_, ?_, ?_⟩
          · rw [hfs]
          · rw [hft]
          · intro hcon
            exfalso
            cases rrs with
            | nil => exact hne_s rfl
            | cons a b =>
              have ha : chunkChar a = false := hcon
              rw [hall_s a (by simp)] at ha
              exact Bool.noConfusion ha
          · intro hcon
            exfalso
            cases rrt with
            | nil => exact hne_t rfl
            | cons a b =>
              have ha : chunkChar a = false := hcon
              rw [hall_t a (by simp)] at ha
              exact Bool.noConfusion ha
          · intro Zs Zt hZ hhz hht2
            have hx : headNonChunk (ps ++ Zs) :=
              headNonChunk_append ps Zs (hhs hhead_s) (fun _ => hhz)
            have hxt : headNonChunk (pt ++ Zt) :=
              headNonChunk_append pt Zt (hht hhead_t) (fun _ => hht2)
            rw [List.append_assoc, List.append_assoc,
              sig_run_append rrs (ps ++ Zs) hne_s hall_s hx,
              sig_run_append rrt (pt ++ Zt) hne_t hall_t hxt,
              hkey_s, hkey_t, hcont Zs Zt hZ hhz hht2]

theorem findThickGo_cons (fuel : Nat) (c : Char) (cs : List Char) :
    findThickGo (fuel + 1) (c :: cs) =
      match matchThickAt (c :: cs) with
      | some (tk, rest) => some ([], tk, rest)
      | none =>
        match findThickGo fuel cs with
        | some (pre, tk, rest) => some (c :: pre, tk, rest)
        | none => none := rfl

theorem findThickGo_skip : ∀ (r s2 : List Char), (∀ c ∈ r, chunkChar c = true) →
    findThickGo ((r ++ s2).length + 1) (r ++ s2) =
      match findThickGo (s2.length + 1) s2 with
      | some (pre, tk, rest) => some (r ++ pre, tk, rest)
      | none => none := by
  intro r
  induction r with
  | nil =>
    intro s2 _
    simp only [List.nil_append]
    cases hf : findThickGo (s2.length + 1) s2 with
    | none => rfl
    | some x =>
      obtain ⟨pre, tk, rest⟩ := x
      rfl
  | cons c r2 ih =>
    intro s2 hall
    have hc : chunkChar c = true := hall c (by simp)
    rw [List.cons_append,
      show (c :: (r2 ++ s2)).length + 1 = ((r2 ++ s2).length + 1) + 1 by simp,
      findThickGo_cons ((r2 ++ s2).length + 1) c (r2 ++ s2),
      matchThickAt_chunk_head c _ hc,
      ih s2 (fun d hd => hall d (by simp [hd]))]
    cases hf : findThickGo (s2.length + 1) s2 with
    | none => rfl
    | some x =>
      obtain ⟨pre, tk, rest⟩ := x
      rfl

theorem findThick_pair : ∀ (n : Nat) (s t : List Char), s.length ≤ n → sig s = sig t →
    (findThickGo (s.length + 1) s = none ∧ findThickGo (t.length + 1) t = none) ∨
    ∃ ps pt tk rs rt,
      findThickGo (s.length + 1) s = some (ps, tk, rs) ∧
      findThickGo (t.length + 1) t = some (pt, tk, rt) := by
  intro n
  induction n with
  | zero =>
    intro s t hl h
    have hs : s = [] := List.length_eq_zero.mp (Nat.le_zero.mp hl)
    subst hs
    have ht : t = [] := sig_eq_nil t (by rw [← h]; rfl)
    subst ht
    exact Or.inl ⟨rfl, rfl⟩
  | succ n ih =>
    intro s t hl h
    cases hv : sig s with
    | nil =>
      have hs : s = [] := sig_eq_nil s hv
      subst hs
      have ht : t = [] := sig_eq_nil t (by rw [← h, hv])
      subst ht
      exact Or.inl ⟨rfl, rfl⟩
    | cons k v =>
      cases k with
      | chr c =>
        obtain ⟨s2, rfl, hcnc, hsig_s2⟩ := sig_chr_inv s c v hv
        obtain ⟨t2, rfl, _, hsig_t2⟩ := sig_chr_inv t c v (by rw [← h, hv])
        have hst2 : sig s2 = sig t2 := by rw [hsig_s2, hsig_t2]
        rw [show (c :: s2).length + 1 = (s2.length + 1) + 1 by simp,
          show (c :: t2).length + 1 = (t2.length + 1) + 1 by simp,
          findThickGo_cons (s2.length + 1) c s2, findThickGo_cons (t2.length + 1) c t2]
        rcases matchThickAt_pair (c :: s2) (c :: t2) h with
          ⟨hms, hmt⟩ | ⟨tk, rs, rt, hms, hmt, hsigr⟩
        · rw [hms, hmt]
          have hl2 : s2.length ≤ n := by
            have : s2.length + 1 ≤ n + 1 := by simpa using hl
            omega
          rcases ih s2 t2 hl2 hst2 with
            ⟨hfs, hft⟩ | ⟨ps, pt, tk, rs, rt, hfs, hft⟩
          · rw [hfs, hft]
            exact Or.inl ⟨rfl, rfl⟩
          · right
            refine ⟨c :: ps, c :: pt, tk, rs, rt, ?_, ?_⟩
            · rw [hfs]
            · rw [hft]
        · rw [hms, hmt]
          exact Or.inr ⟨[], [], tk, rs, rt, rfl, rfl⟩
      | ws =>
        obtain ⟨rrs, s2, rfl, hne_s, hall_s, hkey_s, hhead_s, hsig_s⟩ :=
          sig_gap_inv s Key.ws v (Or.inl rfl) hv
        obtain ⟨rrt, t2, rfl, hne_t, hall_t, hkey_t, hhead_t, hsig_t⟩ :=
          sig_gap_inv t Key.ws v (Or.inl rfl) (by rw [← h, hv])
        rw [findThickGo_skip rrs s2 hall_s, findThickGo_skip rrt t2 hall_t]
        have hl2 : s2.length ≤ n := by
          have h1 : 1 ≤ rrs.length := by
            cases rrs with
            | nil => exact absurd rfl hne_s
            | cons a b => simp
          have h2 : (rrs ++ s2).length ≤ n + 1 := hl
          simp only [List.length_append] at h2
          omega
        rcases ih s2 t2 hl2 (by rw [hsig_s, hsig_t]) with
          ⟨hfs, hft⟩ | ⟨ps, pt, tk, rs, rt, hfs, hft⟩
        · rw [hfs, hft]
          exact Or.inl ⟨rfl, rfl⟩
        · right
          refine ⟨rrs ++ ps, rrt ++ pt, tk, rs, rt, ?_, ?_⟩
          · rw [hfs]
          · rw [hft]
      | blocked =>
        obtain ⟨rrs, s2, rfl, hne_s, hall_s, hkey_s, hhead_s, hsig_s⟩ :=
          sig_gap_inv s Key.blocked v (Or.inr rfl) hv
        obtain ⟨rrt, t2, rfl, hne_t, hall_t, hkey_t, hhead_t, hsig_t⟩ :=
          sig_gap_inv t Key.blocked v (Or.inr rfl) (by rw [← h, hv])
        rw [findThickGo_skip rrs s2 hall_s, findThickGo_skip rrt t2 hall_t]
        have hl2 : s2.length ≤ n := by
          have h1 : 1 ≤ rrs.length := by
            cases rrs with
            | nil => exact absurd rfl hne_s
            | cons a b => simp
          have h2 : (rrs ++ s2).length ≤ n + 1 := hl
          simp only [List.length_append] at h2
          omega
        rcases ih s2 t2 hl2 (by rw [hsig_s, hsig_t]) with
          ⟨hfs, hft⟩ | ⟨ps, pt, tk, rs, rt, hfs, hft⟩
        · rw [hfs, hft]
          exact Or.inl ⟨rfl, rfl⟩
        · right
          refine ⟨rrs ++ ps, rrt ++ pt, tk, rs, rt, ?_, ?_⟩
          · rw [hfs]
          · rw [hft]

/-! The numerals captured by the matchers are non-empty and chunk-free, so a
rewritten span keeps a non-chunk head. -/

theorem matchNumber_chars (l n r : List Char) (h : matchNumber l = some (n, r)) :
    n ≠ [] ∧ ∀ c ∈ n, chunkChar c = false := by
  by_cases hds : (l.takeWhile Char.isDigit).isEmpty = true
  · rw [matchNumber_none l hds] at h
    exact Option.noConfusion h
  · have hne : (l.takeWhile Char.isDigit).isEmpty = false := by simpa using hds
    have hdsne : l.takeWhile Char.isDigit ≠ [] := by
      intro hcon
      rw [hcon] at hne
      exact Bool.noConfusion hne
    have hdig : ∀ c ∈ l.takeWhile Char.isDigit, chunkChar c = false := by
      intro c hc
      have hcd : c.isDigit = true := List.mem_takeWhile_imp hc
      cases hcc : chunkChar c with
      | false => rfl
      | true =>
        rw [chunk_not_digit c hcc] at hcd
        exact Bool.noConfusion hcd
    cases hr : l.dropWhile Char.isDigit with
    | nil =>
      rw [matchNumber_nodot l hne (by rw [hr]; intro r2 hcon; exact List.noConfusion hcon)] at h
      simp only [Option.some.injEq, Prod.mk.injEq] at h
      obtain ⟨h1, _⟩ := h
      rw [← h1]
      exact ⟨hdsne, hdig⟩
    | cons c r2 =>
      by_cases hcd : c = '.'
      · subst hcd
        by_cases hfs : (r2.takeWhile Char.isDigit).isEmpty = true
        · rw [matchNumber_dot_nofrac l r2 hne hr hfs] at h
          simp only [Option.some.injEq, Prod.mk.injEq] at h
          obtain ⟨h1, _⟩ := h
          rw [← h1]
          exact ⟨hdsne, hdig⟩
        · have hfsf : (r2.takeWhile Char.isDigit).isEmpty = false := by simpa using hfs
          rw [matchNumber_dot_frac l r2 hne hr hfsf] at h
          simp only [Option.some.injEq, Prod.mk.injEq] at h
          obtain ⟨h1, _⟩ := h
          rw [← h1]
          constructor
          · simp
          · intro c hc
            rcases List.mem_append.mp hc with hc1 | hc2
            · exact hdig c hc1
            · rcases List.mem_cons.mp hc2 with rfl | hc3
              · decide
              · have hdg : c.isDigit = true := List.mem_takeWhile_imp hc3
                cases hcc : chunkChar c with
                | false => rfl
                | true =>
                  rw [chunk_not_digit c hcc] at hdg
                  exact Bool.noConfusion hdg
      · rw [matchNumber_nodot l hne
          (by rw [hr]; intro r2x hcon; injection hcon with h1 _; exact hcd h1)] at h
        simp only [Option.some.injEq, Prod.mk.injEq] at h
        obtain ⟨h1, _⟩ := h
        rw [← h1]
        exact ⟨hdsne, hdig⟩

theorem matchInchAt_words (l : List Char) (w ln : String) (rest : List Char)
    (h : matchInchAt l = some (w, ln, rest)) :
    w.toList ≠ [] ∧ ∀ c ∈ w.toList, chunkChar c = false := by
  cases hn : matchNumber l with
  | none =>
    rw [matchInchAt_none_num l hn] at h
    exact Option.noConfusion h
  | some x =>
    obtain ⟨w0, r1⟩ := x
    cases hm : dropWS (parenOpt 'w' (dropWS (quoteOpt (dropWS r1)))) with
    | nil =>
      rw [matchInchAt_mid_nil l w0 r1 hn hm] at h
      exact Option.noConfusion h
    | cons c r7 =>
      cases hx : isXChar c with
      | false =>
        rw [matchInchAt_mid_notx l w0 r1 c r7 hn hm hx] at h
        exact Option.noConfusion h
      | true =>
        cases hn2 : matchNumber (dropWS r7) with
        | none =>
          rw [matchInchAt_num2_none l w0 r1 c r7 hn hm hx hn2] at h
          exact Option.noConfusion h
        | some y =>
          obtain ⟨ln0, r9⟩ := y
          rw [matchInchAt_some l w0 r1 c r7 ln0 r9 hn hm hx hn2] at h
          simp only [Option.some.injEq, Prod.mk.injEq] at h
          obtain ⟨hw, _, _⟩ := h
          rw [← hw]
          exact matchNumber_chars l w0 r1 hn

theorem matchCmAt_words (l : List Char) (w ln : String) (rest : List Char)
    (h : matchCmAt l = some (w, ln, rest)) :
    w.toList ≠ [] ∧ ∀ c ∈ w.toList, chunkChar c = false := by
  cases hn : matchNumber l with
  | none =>
    rw [matchCmAt_none_num l hn] at h
    exact Option.noConfusion h
  | some x =>
    obtain ⟨w0, r1⟩ := x
    cases hc : matchLitCI "cm".toList (dropWS r1) with
    | none =>
      rw [matchCmAt_none_cm1 l w0 r1 hn hc] at h
      exact Option.noConfusion h
    | some r2 =>
      cases hm : dropWS r2 with
      | nil =>
        rw [matchCmAt_mid_nil l w0 r1 r2 hn hc hm] at h
        exact Option.noConfusion h
      | cons c r3 =>
        cases hx : isXChar c with
        | false =>
          rw [matchCmAt_mid_notx l w0 r1 r2 c r3 hn hc hm hx] at h
          exact Option.noConfusion h
        | true =>
          cases hn2 : matchNumber (dropWS r3) with
          | none =>
            rw [matchCmAt_num2_none l w0 r1 r2 c r3 hn hc hm hx hn2] at h
            exact Option.noConfusion h
          | some y =>
            obtain ⟨ln0, r4⟩ := y
            cases hc2 : matchLitCI "cm".toList (dropWS r4) with
            | none =>
              rw [matchCmAt_none_cm2 l w0 r1 r2 c r3 ln0 r4 hn hc hm hx hn2 hc2] at h
              exact Option.noConfusion h
            | some r5 =>
              rw [matchCmAt_some l w0 r1 r2 c r3 ln0 r4 r5 hn hc hm hx hn2 hc2] at h
              simp only [Option.some.injEq, Prod.mk.injEq] at h
              obtain ⟨hw, _, _⟩ := h
              rw [← hw]
              exact matchNumber_chars l w0 r1 hn

theorem findInchGo_words : ∀ (n : Nat) (l pre : List Char) (w ln : String) (rest : List Char),
    findInchGo n l = some (pre, w, ln, rest) →
    w.toList ≠ [] ∧ ∀ c ∈ w.toList, chunkChar c = false := by
  intro n
  induction n with
  | zero =>
    intro l pre w ln rest h
    exact Option.noConfusion h
  | succ n ih =>
    intro l pre w ln rest h
    cases l with
    | nil => exact Option.noConfusion h
    | cons c cs =>
      rw [findInchGo_cons n c cs] at h
      cases hm : matchInchAt (c :: cs) with
      | some x =>
        obtain ⟨w0, ln0, r0⟩ := x
        rw [hm] at h
        simp only [Option.some.injEq, Prod.mk.injEq] at h
        obtain ⟨_, hw, _, _⟩ := h
        rw [← hw]
        exact matchInchAt_words (c :: cs) w0 ln0 r0 hm
      | none =>
        rw [hm] at h
        cases hf : findInchGo n cs with
        | none =>
          rw [hf] at h
          exact Option.noConfusion h
        | some y =>
          obtain ⟨pre2, w2, ln2, rest2⟩ := y
          rw [hf] at h
          simp only [Option.some.injEq, Prod.mk.injEq] at h
          obtain ⟨_, hw, _, _⟩ := h
          rw [← hw]
          exact ih cs pre2 w2 ln2 rest2 hf

theorem findCmGo_words : ∀ (n : Nat) (l pre : List Char) (w ln : String) (rest : List Char),
    findCmGo n l = some (pre, w, ln, rest) →
    w.toList ≠ [] ∧ ∀ c ∈ w.toList, chunkChar c = false := by
  intro n
  induction n with
  | zero =>
    intro l pre w ln rest h
    exact Option.noConfusion h
  | succ n ih =>
    intro l pre w ln rest h
    cases l with
    | nil => exact Option.noConfusion h
    | cons c cs =>
      rw [findCmGo_cons n c cs] at h
      cases hm : matchCmAt (c :: cs) with
      | some x =>
        obtain ⟨w0, ln0, r0⟩ := x
        rw [hm] at h
        simp only [Option.some.injEq, Prod.mk.injEq] at h
        obtain ⟨_, hw, _, _⟩ := h
        rw [← hw]
        exact matchCmAt_words (c :: cs) w0 ln0 r0 hm
      | none =>
        rw [hm] at h
        cases hf : findCmGo n cs with
        | none =>
          rw [hf] at h
          exact Option.noConfusion h
        | some y =>
          obtain ⟨pre2, w2, ln2, rest2⟩ := y
          rw [hf] at h
          simp only [Option.some.injEq, Prod.mk.injEq] at h
          obtain ⟨_, hw, _, _⟩ := h
          rw [← hw]
          exact ih cs pre2 w2 ln2 rest2 hf

theorem headNonChunk_append_left (x y : List Char)
    (hx : ∀ c ∈ x, chunkChar c = false) (hy : headNonChunk y) :
    headNonChunk (x ++ y) := by
  cases x with
  | nil => simpa using hy
  | cons a b => exact hx a (by simp)

/-! Shape-equal texts receive the same extracted dimension mapping. -/

theorem headNonChunk_append_ne (x y : List Char) (hne : x ≠ [])
    (hx : ∀ c ∈ x, chunkChar c = false) : headNonChunk (x ++ y) := by
  cases x with
  | nil => exact absurd rfl hne
  | cons a b => exact hx a (by simp)

theorem dims_pair (s t : List Char) (h : sig s = sig t) :
    (normalize_dimensions s).2 = (normalize_dimensions t).2 := by
  rcases findInch_pair s.length s t (Nat.le_refl _) h with
    ⟨h1s, h1t⟩ | ⟨ps, pt, w, ln, rs, rt, h1s, h1t, hsig1, _, _, hcont1⟩
  · rcases findCm_pair s.length s t (Nat.le_refl _) h with
      ⟨h2s, h2t⟩ | ⟨qs, qt, w2, ln2, rs2, rt2, h2s, h2t, hsig2, _, _, hcont2⟩
    · rcases findThick_pair s.length s t (Nat.le_refl _) h with
        ⟨h3s, h3t⟩ | ⟨os, ot, tk, rs3, rt3, h3s, h3t⟩
      · simp only [normalize_dimensions, h1s, h1t, h2s, h2t, h3s, h3t]
      · simp only [normalize_dimensions, h1s, h1t, h2s, h2t, h3s, h3t]
    · have hw2 := findCmGo_words (s.length + 1) s qs w2 ln2 rs2 h2s
      have hz2s : headNonChunk ((w2.toList ++ (' ' :: '×' :: ' ' :: ln2.toList) ++
          ' ' :: 'c' :: 'm' :: []) ++ rs2) := by
        rw [List.append_assoc, List.append_assoc]
        exact headNonChunk_append_ne _ _ hw2.1 hw2.2
      have hz2t : headNonChunk ((w2.toList ++ (' ' :: '×' :: ' ' :: ln2.toList) ++
          ' ' :: 'c' :: 'm' :: []) ++ rt2) := by
        rw [List.append_assoc, List.append_assoc]
        exact headNonChunk_append_ne _ _ hw2.1 hw2.2
      have h2x : sig (qs ++ (w2.toList ++ (' ' :: '×' :: ' ' :: ln2.toList) ++
          ' ' :: 'c' :: 'm' :: []) ++ rs2) =
          sig (qt ++ (w2.toList ++ (' ' :: '×' :: ' ' :: ln2.toList) ++
          ' ' :: 'c' :: 'm' :: []) ++ rt2) := by
        rw [List.append_assoc qs, List.append_assoc qt]
        exact hcont2 _ _ (sig_congr_append _ rs2 rt2 hsig2) hz2s hz2t
      rcases findThick_pair
          (qs ++ (w2.toList ++ (' ' :: '×' :: ' ' :: ln2.toList) ++
            ' ' :: 'c' :: 'm' :: []) ++ rs2).length
          (qs ++ (w2.toList ++ (' ' :: '×' :: ' ' :: ln2.toList) ++
            ' ' :: 'c' :: 'm' :: []) ++ rs2)
          (qt ++ (w2.toList ++ (' ' :: '×' :: ' ' :: ln2.toList) ++
            ' ' :: 'c' :: 'm' :: []) ++ rt2)
          (Nat.le_refl _) h2x with
        ⟨h3s, h3t⟩ | ⟨os, ot, tk, rs3, rt3, h3s, h3t⟩
      · simp only [normalize_dimensions, h1s, h1t, h2s, h2t, h3s, h3t]
      · simp only [normalize_dimensions, h1s, h1t, h2s, h2t, h3s, h3t]
  · have hw1 := findInchGo_words (s.length + 1) s ps w ln rs h1s
    have hz1s : headNonChunk ((w.toList ++ ('\"' :: ' ' :: '×' :: ' ' :: ln.toList) ++
        ['\"']) ++ rs) := by
      rw [List.append_assoc, List.append_assoc]
      exact headNonChunk_append_ne _ _ hw1.1 hw1.2
    have hz1t : headNonChunk ((w.toList ++ ('\"' :: ' ' :: '×' :: ' ' :: ln.toList) ++
        ['\"']) ++ rt) := by
      rw [List.append_assoc, List.append_assoc]
      exact headNonChunk_append_ne _ _ hw1.1 hw1.2
    have h2 : sig (ps ++ (w.toList ++ ('\"' :: ' ' :: '×' :: ' ' :: ln.toList) ++
        ['\"']) ++ rs) =
        sig (pt ++ (w.toList ++ ('\"' :: ' ' :: '×' :: ' ' :: ln.toList) ++
        ['\"']) ++ rt) := by
      rw [List.append_assoc ps, List.append_assoc pt]
      exact hcont1 _ _ (sig_congr_append _ rs rt hsig1) hz1s hz1t
    rcases findCm_pair
        (ps ++ (w.toList ++ ('\"' :: ' ' :: '×' :: ' ' :: ln.toList) ++ ['\"']) ++ rs).length
        (ps ++ (w.toList ++ ('\"' :: ' ' :: '×' :: ' ' :: ln.toList) ++ ['\"']) ++ rs)
        (pt ++ (w.toList ++ ('\"' :: ' ' :: '×' :: ' ' :: ln.toList) ++ ['\"']) ++ rt)
        (Nat.le_refl _) h2 with
      ⟨h2s, h2t⟩ | ⟨qs, qt, w2, ln2, rs2, rt2, h2s, h2t, hsig2, _, _, hcont2⟩
    · rcases findThick_pair
          (ps ++ (w.toList ++ ('\"' :: ' ' :: '×' :: ' ' :: ln.toList) ++ ['\"']) ++ rs).length
          (ps ++ (w.toList ++ ('\"' :: ' ' :: '×' :: ' ' :: ln.toList) ++ ['\"']) ++ rs)
          (pt ++ (w.toList ++ ('\"' :: ' ' :: '×' :: ' ' :: ln.toList) ++ ['\"']) ++ rt)
          (Nat.le_refl _) h2 with
        ⟨h3s, h3t⟩ | ⟨os, ot, tk, rs3, rt3, h3s, h3t⟩
      · simp only [normalize_dimensions, h1s, h1t, h2s, h2t, h3s, h3t]
      · simp only [normalize_dimensions, h1s, h1t, h2s, h2t, h3s, h3t]
    · have hw2 := findCmGo_words
        ((ps ++ (w.toList ++ ('\"' :: ' ' :: '×' :: ' ' :: ln.toList) ++ ['\"']) ++ rs).length + 1)
        (ps ++ (w.toList ++ ('\"' :: ' ' :: '×' :: ' ' :: ln.toList) ++ ['\"']) ++ rs)
        qs w2 ln2 rs2 h2s
      have hz2s : headNonChunk ((w2.toList ++ (' ' :: '×' :: ' ' :: ln2.toList) ++
          ' ' :: 'c' :: 'm' :: []) ++ rs2) := by
        rw [List.append_assoc, List.append_assoc]
        exact headNonChunk_append_ne _ _ hw2.1 hw2.2
      have hz2t : headNonChunk ((w2.toList ++ (' ' :: '×' :: ' ' :: ln2.toList) ++
          ' ' :: 'c' :: 'm' :: []) ++ rt2) := by
        rw [List.append_assoc, List.append_assoc]
        exact headNonChunk_append_ne _ _ hw2.1 hw2.2
      have h3x : sig (qs ++ (w2.toList ++ (' ' :: '×' :: ' ' :: ln2.toList) ++
          ' ' :: 'c' :: 'm' :: []) ++ rs2) =
          sig (qt ++ (w2.toList ++ (' ' :: '×' :: ' ' :: ln2.toList) ++
          ' ' :: 'c' :: 'm' :: []) ++ rt2) := by
        rw [List.append_assoc qs, List.append_assoc qt]
        exact hcont2 _ _ (sig_congr_append _ rs2 rt2 hsig2) hz2s hz2t
      rcases findThick_pair
          (qs ++ (w2.toList ++ (' ' :: '×' :: ' ' :: ln2.toList) ++
            ' ' :: 'c' :: 'm' :: []) ++ rs2).length
          (qs ++ (w2.toList ++ (' ' :: '×' :: ' ' :: ln2.toList) ++
            ' ' :: 'c' :: 'm' :: []) ++ rs2)
          (qt ++ (w2.toList ++ (' ' :: '×' :: ' ' :: ln2.toList) ++
            ' ' :: 'c' :: 'm' :: []) ++ rt2)
          (Nat.le_refl _) h3x with
        ⟨h3s, h3t⟩ | ⟨os, ot, tk, rs3, rt3, h3s, h3t⟩
      · simp only [normalize_dimensions, h1s, h1t, h2s, h2t, h3s, h3t]
      · simp only [normalize_dimensions, h1s, h1t, h2s, h2t, h3s, h3t]

/-! The pipe-or-slash substitution maps each chunk run to a chunk run of the
same kind and leaves the rest of the text untouched. -/

theorem dropWhile_eq_nil_of_all (p : Char → Bool) (R : List Char)
    (hall : ∀ c ∈ R, p c = true) : R.dropWhile p = [] := by
  have h9 : (R ++ ([] : List Char)).dropWhile p = ([] : List Char).dropWhile p :=
    dropWhile_append_all p R [] hall
  rw [List.append_nil] at h9
  exact h9.trans rfl

theorem dropWhile_append_head (p : Char → Bool) (R x : List Char)
    (hx : x.dropWhile p = x) :
    (R ++ x).dropWhile p = R.dropWhile p ++ x := by
  by_cases hall : R.all p = true
  · have h1 : (R ++ x).dropWhile p = x.dropWhile p :=
      dropWhile_append_all p R x (fun d hd => List.all_eq_true.mp hall d hd)
    have h9 : R.dropWhile p = [] :=
      dropWhile_eq_nil_of_all p R (fun d hd => List.all_eq_true.mp hall d hd)
    rw [h1, hx, h9]
    rfl
  · exact (dropWhile_append_stop p R x (exists_false_of_all_false p R (by simpa using hall))).1

theorem matchDelimSlashAt_inv (l rest : List Char) (h : matchDelimSlashAt l = some rest) :
    ∃ p r2, l.dropWhile isPySpace = p :: r2 ∧ (p == '|' || p == '/') = true ∧
      rest = r2.dropWhile isPySpace := by
  unfold matchDelimSlashAt at h
  cases hd : l.dropWhile isPySpace with
  | nil =>
    rw [hd] at h
    exact Option.noConfusion h
  | cons p r2 =>
    rw [hd] at h
    have h2 : (if (p == '|' || p == '/') = true then some (r2.dropWhile isPySpace)
        else none) = some rest := h
    by_cases hp : (p == '|' || p == '/') = true
    · rw [if_pos hp] at h2
      injection h2 with h3
      exact ⟨p, r2, rfl, hp, h3.symm⟩
    · rw [if_neg hp] at h2
      exact Option.noConfusion h2

theorem matchDelimSlashAt_none (l : List Char)
    (h : ∀ p r2, l.dropWhile isPySpace = p :: r2 → (p == '|' || p == '/') = false) :
    matchDelimSlashAt l = none := by
  cases hm : matchDelimSlashAt l with
  | none => rfl
  | some rest =>
    exfalso
    obtain ⟨p, r2, hd, hp, _⟩ := matchDelimSlashAt_inv l rest hm
    rw [h p r2 hd] at hp
    exact Bool.noConfusion hp

theorem matchDelimSlashAt_nonchunk (c : Char) (cs : List Char) (hc : chunkChar c = false) :
    matchDelimSlashAt (c :: cs) = none := by
  apply matchDelimSlashAt_none
  intro p r2 hd
  rw [dropWS_headNonChunk (c :: cs) hc] at hd
  injection hd with h1 _
  rw [← h1]
  simp [nonchunk_beq_chunk c '|' hc (by decide), nonchunk_beq_chunk c '/' hc (by decide)]

theorem matchDelimSlashAt_len (c : Char) (cs rest : List Char)
    (h : matchDelimSlashAt (c :: cs) = some rest) : rest.length ≤ cs.length := by
  obtain ⟨p, r2, hd, _, hrest⟩ := matchDelimSlashAt_inv (c :: cs) rest h
  have hsuf : List.IsSuffix ((c :: cs).dropWhile isPySpace) (c :: cs) :=
    List.dropWhile_suffix isPySpace
  rw [hd] at hsuf
  have h1 : (p :: r2).length ≤ (c :: cs).length := hsuf.length_le
  simp only [List.length_cons] at h1
  have h2 : rest.length ≤ r2.length := by
    rw [hrest]
    exact (List.dropWhile_sublist _).length_le
  omega

theorem delimSlashGo_fuel : ∀ (n m : Nat) (l : List Char), l.length < n → l.length < m →
    delimSlashGo n l = delimSlashGo m l := by
  intro n
  induction n with
  | zero =>
    intro m l hn _
    exact absurd hn (Nat.not_lt_zero _)
  | succ n ih =>
    intro m l hn hm
    cases m with
    | zero => exact absurd hm (Nat.not_lt_zero _)
    | succ m =>
      cases l with
      | nil => rfl
      | cons c cs =>
        have hn2 : cs.length < n := by
          simp only [List.length_cons] at hn
          omega
        have hm2 : cs.length < m := by
          simp only [List.length_cons] at hm
          omega
        show (match matchDelimSlashAt (c :: cs) with
          | some rest => ',' :: ' ' :: delimSlashGo n rest
          | none => c :: delimSlashGo n cs) =
          (match matchDelimSlashAt (c :: cs) with
          | some rest => ',' :: ' ' :: delimSlashGo m rest
          | none => c :: delimSlashGo m cs)
        cases hmm2 : matchDelimSlashAt (c :: cs) with
        | some rest =>
          have hl2 := matchDelimSlashAt_len c cs rest hmm2
          show ',' :: ' ' :: delimSlashGo n rest = ',' :: ' ' :: delimSlashGo m rest
          rw [ih m rest (by omega) (by omega)]
        | none =>
          show c :: delimSlashGo n cs = c :: delimSlashGo m cs
          rw [ih m cs hn2 hm2]

theorem delimSlashGo_head (l : List Char) (h : headNonChunk l) :
    headNonChunk (delimSlashGo (l.length + 1) l) := by
  cases l with
  | nil => trivial
  | cons c cs =>
    have hstep : delimSlashGo ((c :: cs).length + 1) (c :: cs) =
        c :: delimSlashGo (cs.length + 1) cs := by
      show (match matchDelimSlashAt (c :: cs) with
        | some r => ',' :: ' ' :: delimSlashGo (cs.length + 1) r
        | none => c :: delimSlashGo (cs.length + 1) cs) = _
      rw [matchDelimSlashAt_nonchunk c cs h]
    rw [hstep]
    exact h

theorem delimSlashGo_run : ∀ (m : Nat) (R l2 : List Char), R.length ≤ m →
    (∀ c ∈ R, chunkChar c = true) → headNonChunk l2 →
    ∃ R2, delimSlashGo ((R ++ l2).length + 1) (R ++ l2) =
        R2 ++ delimSlashGo (l2.length + 1) l2 ∧
      (∀ c ∈ R2, chunkChar c = true) ∧
      (runKey R = Key.ws → R2 = R) ∧
      (R ≠ [] → R2 ≠ []) ∧
      (runKey R = Key.blocked → runKey R2 = Key.blocked) := by
  intro m
  induction m with
  | zero =>
    intro R l2 hlen hall hhead
    have hR : R = [] := List.length_eq_zero.mp (Nat.le_zero.mp hlen)
    subst hR
    exact ⟨[], by simp, by simp, fun _ => rfl, fun hne => absurd rfl hne,
      fun hbl => by simp [runKey] at hbl⟩
  | succ m ih =>
    intro R l2 hlen hall hhead
    cases R with
    | nil =>
      exact ⟨[], by simp, by simp, fun _ => rfl, fun hne => absurd rfl hne,
        fun hbl => by simp [runKey] at hbl⟩
    | cons c R3 =>
      have hc : chunkChar c = true := hall c (by simp)
      have hlen3 : R3.length ≤ m := by
        simp only [List.length_cons] at hlen
        omega
      cases hm2 : matchDelimSlashAt (c :: (R3 ++ l2)) with
      | none =>
        obtain ⟨R2, hgo, hch, hws, hne, hbl⟩ :=
          ih R3 l2 hlen3 (fun d hd => hall d (by simp [hd])) hhead
        refine ⟨c :: R2, ?_, ?_, ?_, by simp, ?_⟩
        · show (match matchDelimSlashAt (c :: (R3 ++ l2)) with
            | some r => ',' :: ' ' :: delimSlashGo ((R3 ++ l2).length + 1) r
            | none => c :: delimSlashGo ((R3 ++ l2).length + 1) (R3 ++ l2)) =
            (c :: R2) ++ delimSlashGo (l2.length + 1) l2
          rw [hm2, hgo]
          rfl
        · intro d hd
          rcases List.mem_cons.mp hd with rfl | hd2
          · exact hc
          · exact hch d hd2
        · intro hws2
          have hall2 := runKey_ws_all _ hws2
          simp only [List.all_cons, Bool.and_eq_true] at hall2
          have hkey3 : runKey R3 = Key.ws := by simp [runKey, hall2.2]
          rw [hws hkey3]
        · intro hbl2
          have hall2 := runKey_blocked_not_all _ hbl2
          by_cases hcw : isPySpace c = true
          · have hr3 : R3.all isPySpace = false := by
              simp only [List.all_cons, hcw, Bool.true_and] at hall2
              exact hall2
            have hbr2 := hbl (by simp [runKey, hr3])
            have hr2 : R2.all isPySpace = false := runKey_blocked_not_all _ hbr2
            simp [runKey, List.all_cons, hr2]
          · have hcwf : isPySpace c = false := by simpa using hcw
            simp [runKey, List.all_cons, hcwf]
      | some rest =>
        obtain ⟨p, r2, hd, hp, hrest⟩ := matchDelimSlashAt_inv _ rest hm2
        have hsplit : (c :: (R3 ++ l2)).dropWhile isPySpace =
            ((c :: R3).dropWhile isPySpace) ++ l2 := by
          rw [← List.cons_append]
          exact dropWhile_append_head isPySpace (c :: R3) l2 (dropWS_headNonChunk l2 hhead)
        rw [hsplit] at hd
        cases hdr : (c :: R3).dropWhile isPySpace with
        | nil =>
          exfalso
          rw [hdr] at hd
          simp only [List.nil_append] at hd
          have hpnc : chunkChar p = false := by
            cases l2 with
            | nil => exact List.noConfusion hd
            | cons a b =>
              injection hd with h1 _
              rw [← h1]
              exact hhead
          have hpc : chunkChar p = true := by
            rcases (by simpa using hp : p = '|' ∨ p = '/') with rfl | rfl <;> decide
          rw [hpc] at hpnc
          exact Bool.noConfusion hpnc
        | cons p0 R4 =>
          rw [hdr, List.cons_append] at hd
          injection hd with hpe hre
          have hsufR : List.IsSuffix (p0 :: R4) (c :: R3) := by
            have h0 : List.IsSuffix ((c :: R3).dropWhile isPySpace) (c :: R3) :=
              List.dropWhile_suffix isPySpace
            rw [hdr] at h0
            exact h0
          have hR4chunk : ∀ d ∈ R4, chunkChar d = true := fun d hd4 =>
            hall d (hsufR.subset (by simp [hd4]))
          have hR5chunk : ∀ d ∈ R4.dropWhile isPySpace, chunkChar d = true := fun d hd5 =>
            hR4chunk d ((List.dropWhile_sublist _).subset hd5)
          have hlenR4 : R4.length ≤ R3.length := by
            have h1 := hsufR.length_le
            simp only [List.length_cons] at h1
            omega
          have hlenR5 : (R4.dropWhile isPySpace).length ≤ R4.length :=
            (List.dropWhile_sublist _).length_le
          have hrl : rest = (R4.dropWhile isPySpace) ++ l2 := by
            rw [hrest, ← hre]
            exact dropWhile_append_head isPySpace R4 l2 (dropWS_headNonChunk l2 hhead)
          obtain ⟨R2, hgo, hch, hws5, hne5, hbl5⟩ :=
            ih (R4.dropWhile isPySpace) l2 (by omega) hR5chunk hhead
          refine ⟨',' :: ' ' :: R2, ?_, ?_, ?_, by simp, ?_⟩
          · show (match matchDelimSlashAt (c :: (R3 ++ l2)) with
              | some r => ',' :: ' ' :: delimSlashGo ((R3 ++ l2).length + 1) r
              | none => c :: delimSlashGo ((R3 ++ l2).length + 1) (R3 ++ l2)) =
              (',' :: ' ' :: R2) ++ delimSlashGo (l2.length + 1) l2
            rw [hm2]
            show ',' :: ' ' :: delimSlashGo ((R3 ++ l2).length + 1) rest = _
            rw [hrl,
              delimSlashGo_fuel ((R3 ++ l2).length + 1)
                ((R4.dropWhile isPySpace ++ l2).length + 1) (R4.dropWhile isPySpace ++ l2)
                (by simp only [List.length_append]; omega)
                (by omega),
              hgo]
            rfl
          · intro d hd6
            rcases List.mem_cons.mp hd6 with rfl | hd7
            · decide
            · rcases List.mem_cons.mp hd7 with rfl | hd8
              · decide
              · exact hch d hd8
          · intro hws2
            exfalso
            have hall2 := runKey_ws_all _ hws2
            have hnil : (c :: R3).dropWhile isPySpace = [] :=
              dropWhile_eq_nil_of_all isPySpace (c :: R3)
                (fun d hd9 => List.all_eq_true.mp hall2 d hd9)
            rw [hdr] at hnil
            exact List.noConfusion hnil
          · intro _
            simp [runKey, List.all_cons, show isPySpace ',' = false from by decide]

/-! The duplicate-comma substitution maps each chunk run to a chunk run of the
same kind and leaves the rest of the text untouched. -/

theorem dropComma_headNonChunk (x : List Char) (hx : headNonChunk x) :
    x.dropWhile (fun c => c == ',') = x := by
  cases x with
  | nil => rfl
  | cons a b =>
    exact List.dropWhile_cons_of_neg (by simp [nonchunk_beq_chunk a ',' hx (by decide)])

theorem matchDelimCommaAt_inv (l rest : List Char) (h : matchDelimCommaAt l = some rest) :
    ∃ r2 r4, l.dropWhile isPySpace = ',' :: r2 ∧ r2.dropWhile isPySpace = ',' :: r4 ∧
      rest = (r4.dropWhile (fun c => c == ',')).dropWhile isPySpace := by
  simp only [matchDelimCommaAt] at h
  cases hd1 : l.dropWhile isPySpace with
  | nil =>
    rw [hd1] at h
    exact Option.noConfusion h
  | cons c r2 =>
    rw [hd1] at h
    by_cases hc : c = ','
    · subst hc
      have h2 : (match r2.dropWhile isPySpace with
          | ',' :: x =>
            some (((r2.dropWhile isPySpace).dropWhile (fun c => c == ',')).dropWhile isPySpace)
          | _ => none) = some rest := h
      cases hd2 : r2.dropWhile isPySpace with
      | nil =>
        rw [hd2] at h2
        exact Option.noConfusion h2
      | cons c2 r4 =>
        rw [hd2] at h2
        by_cases hc2 : c2 = ','
        · subst hc2
          rw [List.dropWhile_cons_of_pos (by decide)] at h2
          injection h2 with h3
          exact ⟨r2, r4, rfl, hd2, h3.symm⟩
        · exfalso
          split at h2
          · next x heq =>
            injection heq with he1 _
            exact hc2 he1
          · exact Option.noConfusion h2
    · exfalso
      split at h
      · next x heq =>
        injection heq with he1 _
        exact hc he1
      · exact Option.noConfusion h

theorem matchDelimCommaAt_none (l : List Char)
    (h : ∀ r2, l.dropWhile isPySpace = ',' :: r2 → ∀ r4, r2.dropWhile isPySpace ≠ ',' :: r4) :
    matchDelimCommaAt l = none := by
  cases hm : matchDelimCommaAt l with
  | none => rfl
  | some rest =>
    exfalso
    obtain ⟨r2, r4, hd1, hd2, _⟩ := matchDelimCommaAt_inv l rest hm
    exact h r2 hd1 r4 hd2

theorem matchDelimCommaAt_nonchunk (c : Char) (cs : List Char) (hc : chunkChar c = false) :
    matchDelimCommaAt (c :: cs) = none := by
  apply matchDelimCommaAt_none
  intro r2 hd r4
  intro _
  rw [dropWS_headNonChunk (c :: cs) hc] at hd
  injection hd with h1 _
  rw [h1] at hc
  exact absurd hc (by decide)

theorem matchDelimCommaAt_len (c : Char) (cs rest : List Char)
    (h : matchDelimCommaAt (c :: cs) = some rest) : rest.length ≤ cs.length := by
  obtain ⟨r2, r4, hd1, hd2, hrest⟩ := matchDelimCommaAt_inv (c :: cs) rest h
  have hsuf1 : List.IsSuffix ((c :: cs).dropWhile isPySpace) (c :: cs) :=
    List.dropWhile_suffix isPySpace
  rw [hd1] at hsuf1
  have h1 : (',' :: r2).length ≤ (c :: cs).length := hsuf1.length_le
  simp only [List.length_cons] at h1
  have hsuf2 : List.IsSuffix (r2.dropWhile isPySpace) r2 := List.dropWhile_suffix isPySpace
  rw [hd2] at hsuf2
  have h2 : (',' :: r4).length ≤ r2.length := hsuf2.length_le
  simp only [List.length_cons] at h2
  have h3 : rest.length ≤ r4.length := by
    rw [hrest]
    exact Nat.le_trans (List.dropWhile_sublist _).length_le
      (List.dropWhile_sublist _).length_le
  omega

theorem delimCommaGo_fuel : ∀ (n m : Nat) (l : List Char), l.length < n → l.length < m →
    delimCommaGo n l = delimCommaGo m l := by
  intro n
  induction n with
  | zero =>
    intro m l hn _
    exact absurd hn (Nat.not_lt_zero _)
  | succ n ih =>
    intro m l hn hm
    cases m with
    | zero => exact absurd hm (Nat.not_lt_zero _)
    | succ m =>
      cases l with
      | nil => rfl
      | cons c cs =>
        have hn2 : cs.length < n := by
          simp only [List.length_cons] at hn
          omega
        have hm2 : cs.length < m := by
          simp only [List.length_cons] at hm
          omega
        show (match matchDelimCommaAt (c :: cs) with
          | some rest => ',' :: ' ' :: delimCommaGo n rest
          | none => c :: delimCommaGo n cs) =
          (match matchDelimCommaAt (c :: cs) with
          | some rest => ',' :: ' ' :: delimCommaGo m rest
          | none => c :: delimCommaGo m cs)
        cases hmm2 : matchDelimCommaAt (c :: cs) with
        | some rest =>
          have hl2 := matchDelimCommaAt_len c cs rest hmm2
          show ',' :: ' ' :: delimCommaGo n rest = ',' :: ' ' :: delimCommaGo m rest
          rw [ih m rest (by omega) (by omega)]
        | none =>
          show c :: delimCommaGo n cs = c :: delimCommaGo m cs
          rw [ih m cs hn2 hm2]

theorem delimCommaGo_head (l : List Char) (h : headNonChunk l) :
    headNonChunk (delimCommaGo (l.length + 1) l) := by
  cases l with
  | nil => trivial
  | cons c cs =>
    have hstep : delimCommaGo ((c :: cs).length + 1) (c :: cs) =
        c :: delimCommaGo (cs.length + 1) cs := by
      show (match matchDelimCommaAt (c :: cs) with
        | some r => ',' :: ' ' :: delimCommaGo (cs.length + 1) r
        | none => c :: delimCommaGo (cs.length + 1) cs) = _
      rw [matchDelimCommaAt_nonchunk c cs h]
    rw [hstep]
    exact h

theorem delimCommaGo_run : ∀ (m : Nat) (R l2 : List Char), R.length ≤ m →
    (∀ c ∈ R, chunkChar c = true) → headNonChunk l2 →
    ∃ R2, delimCommaGo ((R ++ l2).length + 1) (R ++ l2) =
        R2 ++ delimCommaGo (l2.length + 1) l2 ∧
      (∀ c ∈ R2, chunkChar c = true) ∧
      (runKey R = Key.ws → R2 = R) ∧
      (R ≠ [] → R2 ≠ []) ∧
      (runKey R = Key.blocked → runKey R2 = Key.blocked) := by
  intro m
  induction m with
  | zero =>
    intro R l2 hlen hall hhead
    have hR : R = [] := List.length_eq_zero.mp (Nat.le_zero.mp hlen)
    subst hR
    exact ⟨[], by simp, by simp, fun _ => rfl, fun hne => absurd rfl hne,
      fun hbl => by simp [runKey] at hbl⟩
  | succ m ih =>
    intro R l2 hlen hall hhead
    cases R with
    | nil =>
      exact ⟨[], by simp, by simp, fun _ => rfl, fun hne => absurd rfl hne,
        fun hbl => by simp [runKey] at hbl⟩
    | cons c R3 =>
      have hc : chunkChar c = true := hall c (by simp)
      have hlen3 : R3.length ≤ m := by
        simp only [List.length_cons] at hlen
        omega
      cases hm2 : matchDelimCommaAt (c :: (R3 ++ l2)) with
      | none =>
        obtain ⟨R2, hgo, hch, hws, hne, hbl⟩ :=
          ih R3 l2 hlen3 (fun d hd => hall d (by simp [hd])) hhead
        refine ⟨c :: R2, ?_, ?_, ?_, by simp, ?_⟩
        · show (match matchDelimCommaAt (c :: (R3 ++ l2)) with
            | some r => ',' :: ' ' :: delimCommaGo ((R3 ++ l2).length + 1) r
            | none => c :: delimCommaGo ((R3 ++ l2).length + 1) (R3 ++ l2)) =
            (c :: R2) ++ delimCommaGo (l2.length + 1) l2
          rw [hm2, hgo]
          rfl
        · intro d hd
          rcases List.mem_cons.mp hd with rfl | hd2
          · exact hc
          · exact hch d hd2
        · intro hws2
          have hall2 := runKey_ws_all _ hws2
          simp only [List.all_cons, Bool.and_eq_true] at hall2
          have hkey3 : runKey R3 = Key.ws := by simp [runKey, hall2.2]
          rw [hws hkey3]
        · intro hbl2
          have hall2 := runKey_blocked_not_all _ hbl2
          by_cases hcw : isPySpace c = true
          · have hr3 : R3.all isPySpace = false := by
              simp only [List.all_cons, hcw, Bool.true_and] at hall2
              exact hall2
            have hbr2 := hbl (by simp [runKey, hr3])
            have hr2 : R2.all isPySpace = false := runKey_blocked_not_all _ hbr2
            simp [runKey, List.all_cons, hr2]
          · have hcwf : isPySpace c = false := by simpa using hcw
            simp [runKey, List.all_cons, hcwf]
      | some rest =>
        obtain ⟨r2, r4, hd1, hd2, hrest⟩ := matchDelimCommaAt_inv _ rest hm2
        have hsplit : (c :: (R3 ++ l2)).dropWhile isPySpace =
            ((c :: R3).dropWhile isPySpace) ++ l2 := by
          rw [← List.cons_append]
          exact dropWhile_append_head isPySpace (c :: R3) l2 (dropWS_headNonChunk l2 hhead)
        rw [hsplit] at hd1
        cases hdr : (c :: R3).dropWhile isPySpace with
        | nil =>
          exfalso
          rw [hdr] at hd1
          simp only [List.nil_append] at hd1
          have hpnc : chunkChar ',' = false := by
            cases l2 with
            | nil => exact List.noConfusion hd1
            | cons a b =>
              injection hd1 with h1 _
              rw [← h1]
              exact hhead
          exact absurd hpnc (by decide)
        | cons p0 R4 =>
          rw [hdr, List.cons_append] at hd1
          injection hd1 with hpe hre
          have hsufR : List.IsSuffix (p0 :: R4) (c :: R3) := by
            have h0 : List.IsSuffix ((c :: R3).dropWhile isPySpace) (c :: R3) :=
              List.dropWhile_suffix isPySpace
            rw [hdr] at h0
            exact h0
          have hR4chunk : ∀ d ∈ R4, chunkChar d = true := fun d hd4 =>
            hall d (hsufR.subset (by simp [hd4]))
          have hsplit2 : r2.dropWhile isPySpace = (R4.dropWhile isPySpace) ++ l2 := by
            rw [← hre]
            exact dropWhile_append_head isPySpace R4 l2 (dropWS_headNonChunk l2 hhead)
          rw [hsplit2] at hd2
          cases hdr2 : R4.dropWhile isPySpace with
          | nil =>
            exfalso
            rw [hdr2] at hd2
            simp only [List.nil_append] at hd2
            have hpnc : chunkChar ',' = false := by
              cases l2 with
              | nil => exact List.noConfusion hd2
              | cons a b =>
                injection hd2 with h1 _
                rw [← h1]
                exact hhead
            exact absurd hpnc (by decide)
          | cons q0 R5 =>
            rw [hdr2, List.cons_append] at hd2
            injection hd2 with hqe hre2
            have hsufR4 : List.IsSuffix (q0 :: R5) R4 := by
              have h0 : List.IsSuffix (R4.dropWhile isPySpace) R4 :=
                List.dropWhile_suffix isPySpace
              rw [hdr2] at h0
              exact h0
            have hR5chunk : ∀ d ∈ R5, chunkChar d = true := fun d hd5 =>
              hR4chunk d (hsufR4.subset (by simp [hd5]))
            have hR6chunk :
                ∀ d ∈ (R5.dropWhile (fun c => c == ',')).dropWhile isPySpace,
                  chunkChar d = true := fun d hd6 =>
              hR5chunk d ((List.dropWhile_sublist _).subset
                ((List.dropWhile_sublist _).subset hd6))
            have hlenR4 : R4.length ≤ R3.length := by
              have h1 := hsufR.length_le
              simp only [List.length_cons] at h1
              omega
            have hlenR5 : R5.length ≤ R4.length := by
              have h1 := hsufR4.length_le
              simp only [List.length_cons] at h1
              omega
            have hlenR6 : ((R5.dropWhile (fun c => c == ',')).dropWhile isPySpace).length ≤
                R5.length :=
              Nat.le_trans (List.dropWhile_sublist _).length_le
                (List.dropWhile_sublist _).length_le
            have hrl : rest = ((R5.dropWhile (fun c => c == ',')).dropWhile isPySpace) ++ l2 := by
              rw [hrest, ← hre2,
                dropWhile_append_head (fun c => c == ',') R5 l2
                  (dropComma_headNonChunk l2 hhead),
                dropWhile_append_head isPySpace (R5.dropWhile (fun c => c == ',')) l2
                  (dropWS_headNonChunk l2 hhead)]
            obtain ⟨R2, hgo, hch, hws6, hne6, hbl6⟩ :=
              ih ((R5.dropWhile (fun c => c == ',')).dropWhile isPySpace) l2 (by omega)
                hR6chunk hhead
            refine ⟨',' :: ' ' :: R2, ?_, ?_, ?_, by simp, ?_⟩
            · show (match matchDelimCommaAt (c :: (R3 ++ l2)) with
                | some r => ',' :: ' ' :: delimCommaGo ((R3 ++ l2).length + 1) r
                | none => c :: delimCommaGo ((R3 ++ l2).length + 1) (R3 ++ l2)) =
                (',' :: ' ' :: R2) ++ delimCommaGo (l2.length + 1) l2
              rw [hm2]
              show ',' :: ' ' :: delimCommaGo ((R3 ++ l2).length + 1) rest = _
              rw [hrl,
                delimCommaGo_fuel ((R3 ++ l2).length + 1)
                  (((R5.dropWhile (fun c => c == ',')).dropWhile isPySpace ++ l2).length + 1)
                  ((R5.dropWhile (fun c => c == ',')).dropWhile isPySpace ++ l2)
                  (by simp only [List.length_append]; omega)
                  (by omega),
                hgo]
              rfl
            · intro d hd7
              rcases List.mem_cons.mp hd7 with rfl | hd8
              · decide
              · rcases List.mem_cons.mp hd8 with rfl | hd9
                · decide
                · exact hch d hd9
            · intro hws2
              exfalso
              have hall2 := runKey_ws_all _ hws2
              have hnil : (c :: R3).dropWhile isPySpace = [] :=
                dropWhile_eq_nil_of_all isPySpace (c :: R3)
                  (fun d hd9 => List.all_eq_true.mp hall2 d hd9)
              rw [hdr] at hnil
              exact List.noConfusion hnil
            · intro _
              simp [runKey, List.all_cons, show isPySpace ',' = false from by decide]

/-! Both delimiter substitutions preserve the text shape, so delimiter
normalization cannot change the extracted dimensions. -/

theorem sig_delimSlashGo : ∀ (n : Nat) (l : List Char), l.length ≤ n →
    sig (delimSlashGo (l.length + 1) l) = sig l := by
  intro n
  induction n with
  | zero =>
    intro l hl
    have hl0 : l = [] := List.length_eq_zero.mp (Nat.le_zero.mp hl)
    subst hl0
    rfl
  | succ n ih =>
    intro l hl
    cases hv : sig l with
    | nil =>
      have hl0 : l = [] := sig_eq_nil l hv
      subst hl0
      rfl
    | cons k v =>
      cases k with
      | chr c =>
        obtain ⟨l2, rfl, hcnc, hsig2⟩ := sig_chr_inv l c v hv
        have hstep : delimSlashGo ((c :: l2).length + 1) (c :: l2) =
            c :: delimSlashGo (l2.length + 1) l2 := by
          show (match matchDelimSlashAt (c :: l2) with
            | some r => ',' :: ' ' :: delimSlashGo (l2.length + 1) r
            | none => c :: delimSlashGo (l2.length + 1) l2) = _
          rw [matchDelimSlashAt_nonchunk c l2 hcnc]
        rw [hstep, sig_cons_nonchunk c _ hcnc,
          ih l2 (by simp only [List.length_cons] at hl; omega), hsig2]
      | ws =>
        obtain ⟨R, l2, rfl, hne, hallR, hkey, hhead, hsig2⟩ :=
          sig_gap_inv l Key.ws v (Or.inl rfl) hv
        obtain ⟨R2, hgo, hch2, hws2, hne2, hbl2⟩ :=
          delimSlashGo_run R.length R l2 (Nat.le_refl _) hallR hhead
        have hih : sig (delimSlashGo (l2.length + 1) l2) = sig l2 := by
          apply ih
          have h1 : 1 ≤ R.length := by
            cases R with
            | nil => exact absurd rfl hne
            | cons a b => simp
          have h2 : (R ++ l2).length ≤ n + 1 := hl
          simp only [List.length_append] at h2
          omega
        have hheadgo : headNonChunk (delimSlashGo (l2.length + 1) l2) :=
          delimSlashGo_head l2 hhead
        rw [hgo, hws2 hkey, sig_run_append R _ hne hallR hheadgo, hih, hsig2, hkey]
      | blocked =>
        obtain ⟨R, l2, rfl, hne, hallR, hkey, hhead, hsig2⟩ :=
          sig_gap_inv l Key.blocked v (Or.inr rfl) hv
        obtain ⟨R2, hgo, hch2, hws2, hne2, hbl2⟩ :=
          delimSlashGo_run R.length R l2 (Nat.le_refl _) hallR hhead
        have hih : sig (delimSlashGo (l2.length + 1) l2) = sig l2 := by
          apply ih
          have h1 : 1 ≤ R.length := by
            cases R with
            | nil => exact absurd rfl hne
            | cons a b => simp
          have h2 : (R ++ l2).length ≤ n + 1 := hl
          simp only [List.length_append] at h2
          omega
        have hheadgo : headNonChunk (delimSlashGo (l2.length + 1) l2) :=
          delimSlashGo_head l2 hhead
        rw [hgo, sig_run_append R2 _ (hne2 hne) hch2 hheadgo, hbl2 hkey, hih, hsig2]

theorem sig_delimCommaGo : ∀ (n : Nat) (l : List Char), l.length ≤ n →
    sig (delimCommaGo (l.length + 1) l) = sig l := by
  intro n
  induction n with
  | zero =>
    intro l hl
    have hl0 : l = [] := List.length_eq_zero.mp (Nat.le_zero.mp hl)
    subst hl0
    rfl
  | succ n ih =>
    intro l hl
    cases hv : sig l with
    | nil =>
      have hl0 : l = [] := sig_eq_nil l hv
      subst hl0
      rfl
    | cons k v =>
      cases k with
      | chr c =>
        obtain ⟨l2, rfl, hcnc, hsig2⟩ := sig_chr_inv l c v hv
        have hstep : delimCommaGo ((c :: l2).length + 1) (c :: l2) =
            c :: delimCommaGo (l2.length + 1) l2 := by
          show (match matchDelimCommaAt (c :: l2) with
            | some r => ',' :: ' ' :: delimCommaGo (l2.length + 1) r
            | none => c :: delimCommaGo (l2.length + 1) l2) = _
          rw [matchDelimCommaAt_nonchunk c l2 hcnc]
        rw [hstep, sig_cons_nonchunk c _ hcnc,
          ih l2 (by simp only [List.length_cons] at hl; omega), hsig2]
      | ws =>
        obtain ⟨R, l2, rfl, hne, hallR, hkey, hhead, hsig2⟩ :=
          sig_gap_inv l Key.ws v (Or.inl rfl) hv
        obtain ⟨R2, hgo, hch2, hws2, hne2, hbl2⟩ :=
          delimCommaGo_run R.length R l2 (Nat.le_refl _) hallR hhead
        have hih : sig (delimCommaGo (l2.length + 1) l2) = sig l2 := by
          apply ih
          have h1 : 1 ≤ R.length := by
            cases R with
            | nil => exact absurd rfl hne
            | cons a b => simp
          have h2 : (R ++ l2).length ≤ n + 1 := hl
          simp only [List.length_append] at h2
          omega
        have hheadgo : headNonChunk (delimCommaGo (l2.length + 1) l2) :=
          delimCommaGo_head l2 hhead
        rw [hgo, hws2 hkey, sig_run_append R _ hne hallR hheadgo, hih, hsig2, hkey]
      | blocked =>
        obtain ⟨R, l2, rfl, hne, hallR, hkey, hhead, hsig2⟩ :=
          sig_gap_inv l Key.blocked v (Or.inr rfl) hv
        obtain ⟨R2, hgo, hch2, hws2, hne2, hbl2⟩ :=
          delimCommaGo_run R.length R l2 (Nat.le_refl _) hallR hhead
        have hih : sig (delimCommaGo (l2.length + 1) l2) = sig l2 := by
          apply ih
          have h1 : 1 ≤ R.length := by
            cases R with
            | nil => exact absurd rfl hne
            | cons a b => simp
          have h2 : (R ++ l2).length ≤ n + 1 := hl
          simp only [List.length_append] at h2
          omega
        have hheadgo : headNonChunk (delimCommaGo (l2.length + 1) l2) :=
          delimCommaGo_head l2 hhead
        rw [hgo, sig_run_append R2 _ (hne2 hne) hch2 hheadgo, hbl2 hkey, hih, hsig2]

theorem sig_normalize_delims (l : List Char) : sig (normalize_delims l) = sig l := by
  simp only [normalize_delims]
  rw [sig_delimCommaGo (delimSlashGo (l.length + 1) l).length (delimSlashGo (l.length + 1) l)
      (Nat.le_refl _),
    sig_delimSlashGo l.length l (Nat.le_refl _)]

/-- C5: delimiter normalization cannot corrupt measurement patterns: for every
text, the Dimensions mapping returned by dimension extraction applied to the
delimiter-normalized text equals the mapping returned by dimension extraction
applied to the text directly. -/
theorem delims_preserves_dimensions (l : List Char) :
    (normalize_dimensions (normalize_delims l)).2 = (normalize_dimensions l).2 :=
  dims_pair (normalize_delims l) l (sig_normalize_delims l)

end Normalize
